import Mathlib

/-!
# Concurrency Kit ring buffer (`sys/dev/mps/ck_ring.h`)

A shallow embedding of the ring operations of `ck_ring.h`.

* `u_int` values are natural numbers below `UINT_MOD = 2 ^ 32`; every C
  operation on them is followed by an explicit reduction modulo `UINT_MOD`.
* A region of memory reached through a pointer (`buffer`, `source`, `target`,
  `data`) is a function from byte offsets to bytes; `memcpy` copies bytes.  The
  regions handed to one call do not overlap.
* The acquire/release loads, stores and fences are the identity on a
  sequentially executed program and are therefore plain reads and writes.
* A call returns its boolean together with the new contents of everything it
  may write: the ring, and the slot storage (enqueue) or the output record
  (dequeue).
-/

namespace CkRing

/-! ## Machine arithmetic -/

/-- Modulus of `unsigned int` arithmetic, `2 ^ 32`. -/
def UINT_MOD : Nat := 4294967296

/-- Unsigned addition `a + b`. -/
def u_add (a b : Nat) : Nat := (a + b) % UINT_MOD

/-- Unsigned subtraction `a - b` (both operands already reduced). -/
def u_sub (a b : Nat) : Nat := (a + UINT_MOD - b % UINT_MOD) % UINT_MOD

/-- Unsigned multiplication `a * b`. -/
def u_mul (a b : Nat) : Nat := (a * b) % UINT_MOD

/-! ## Memory -/

/-- A region of memory addressed by byte offset from its base pointer. -/
abbrev Mem := Nat → Nat

/-- The call `memcpy(dst + d, src + s, n)`: the `n` bytes starting at offset `s` of `src`
are copied to offset `d` of `dst`. -/
def memcpy (dst : Mem) (d : Nat) (src : Mem) (s : Nat) (n : Nat) : Mem :=
  fun a => if d ≤ a ∧ a < d + n then src (s + (a - d)) else dst a

/-- The `n` bytes found at offset `off` of `m`. -/
def load (m : Mem) (off n : Nat) : List Nat :=
  (List.range n).map (fun i => m (off + i))

/-! ## The ring -/

/-- The `struct ck_ring` (padding omitted). -/
structure ck_ring where
  c_head : Nat
  p_tail : Nat
  size : Nat
  mask : Nat
deriving DecidableEq

/-- Embedding of `ck_ring_size`. -/
def ck_ring_size (ring : ck_ring) : Nat :=
  let c := ring.c_head
  let p := ring.p_tail
  (u_sub p c) &&& ring.mask

/-- Embedding of `ck_ring_capacity`. -/
def ck_ring_capacity (ring : ck_ring) : Nat :=
  ring.size

/-- Embedding of `ck_ring_init`; `ring` holds the previous contents of the structure. -/
def ck_ring_init (ring : ck_ring) (size : Nat) : ck_ring :=
  let ring := { ring with size := size }
  let ring := { ring with mask := u_sub size 1 }
  let ring := { ring with p_tail := 0 }
  { ring with c_head := 0 }

/-- Embedding of `_ck_ring_enqueue_spsc_size`.  The result is the returned boolean, the
ring, the slot storage and the value stored in `*size`. -/
def _ck_ring_enqueue_spsc_size (ring : ck_ring) (buffer : Mem) (entry : Mem)
    (type_size : Nat) : Bool × ck_ring × Mem × Nat :=
  let mask := ring.mask
  let consumer := ring.c_head
  let producer := ring.p_tail
  let delta := u_add producer 1
  let size := (u_sub producer consumer) &&& mask
  if (delta &&& mask) = (consumer &&& mask) then
    (false, ring, buffer, size)
  else
    let buffer := memcpy buffer (u_mul type_size (producer &&& mask)) entry 0 type_size
    (true, { ring with p_tail := delta }, buffer, size)

/-- Embedding of `_ck_ring_enqueue_spsc`.  The result is the returned boolean, the ring
and the slot storage. -/
def _ck_ring_enqueue_spsc (ring : ck_ring) (destination : Mem) (source : Mem)
    (size : Nat) : Bool × ck_ring × Mem :=
  let mask := ring.mask
  let consumer := ring.c_head
  let producer := ring.p_tail
  let delta := u_add producer 1
  if (delta &&& mask) = (consumer &&& mask) then
    (false, ring, destination)
  else
    let destination := memcpy destination (u_mul size (producer &&& mask)) source 0 size
    (true, { ring with p_tail := delta }, destination)

/-- Embedding of `_ck_ring_dequeue_spsc`.  The result is the returned boolean, the ring
and the memory `target` points to. -/
def _ck_ring_dequeue_spsc (ring : ck_ring) (buffer : Mem) (target : Mem)
    (size : Nat) : Bool × ck_ring × Mem :=
  let mask := ring.mask
  let consumer := ring.c_head
  let producer := ring.p_tail
  if consumer = producer then
    (false, ring, target)
  else
    let target := memcpy target 0 buffer (u_mul size (consumer &&& mask)) size
    (true, { ring with c_head := u_add consumer 1 }, target)

/-- Embedding of `atomic_cmpset_int(dst, expect, src)`: the new value of `*dst` and
the returned flag. -/
def atomic_cmpset_int (dst expect src : Nat) : Nat × Bool :=
  if dst = expect then (src, true) else (dst, false)

/-- What the other threads do to the shared ring and slot storage while a consumer is
between its copy of the slot and its compare-and-swap. -/
abbrev Env := ck_ring × Mem → ck_ring × Mem

/-- The environment of a sequentially executed call: nobody else runs. -/
def quiet : Env := fun w => w

/-- Embedding of `_ck_ring_trydequeue_spmc`; `env` acts between the copy of the slot and
the compare-and-swap.  The result is the returned boolean, the ring and the memory
`data` points to. -/
def _ck_ring_trydequeue_spmc (env : Env) (ring : ck_ring) (buffer : Mem) (data : Mem)
    (size : Nat) : Bool × ck_ring × Mem :=
  let mask := ring.mask
  let consumer := ring.c_head
  let producer := ring.p_tail
  if consumer = producer then
    (false, ring, data)
  else
    let data := memcpy data 0 buffer (u_mul size (consumer &&& mask)) size
    let ring := (env (ring, buffer)).1
    let r := atomic_cmpset_int ring.c_head consumer (u_add consumer 1)
    (r.2, { ring with c_head := r.1 }, data)

/-- The `do ... while` loop of `_ck_ring_dequeue_spmc`, run for at most `fuel` iterations;
`env i` acts in iteration `i` between the copy of the slot and the compare-and-swap. -/
def _ck_ring_dequeue_spmc_loop (mask : Nat) (size : Nat) :
    Nat → (Nat → Env) → ck_ring → Mem → Mem → Option (Bool × ck_ring × Mem)
  | 0, _, _, _, _ => none
  | fuel + 1, env, ring, buffer, data =>
    let consumer := ring.c_head
    let producer := ring.p_tail
    if consumer = producer then
      some (false, ring, data)
    else
      let data := memcpy data 0 buffer (u_mul size (consumer &&& mask)) size
      let w := env 0 (ring, buffer)
      let r := atomic_cmpset_int w.1.c_head consumer (u_add consumer 1)
      let ring := { w.1 with c_head := r.1 }
      if r.2 = false then
        _ck_ring_dequeue_spmc_loop mask size fuel (fun i => env (i + 1)) ring w.2 data
      else
        some (true, ring, data)

/-- Embedding of `_ck_ring_dequeue_spmc`: `none` when `fuel` iterations did not decide
the call. -/
def _ck_ring_dequeue_spmc (fuel : Nat) (env : Nat → Env) (ring : ck_ring) (buffer : Mem)
    (data : Mem) (size : Nat) : Option (Bool × ck_ring × Mem) :=
  let mask := ring.mask
  _ck_ring_dequeue_spmc_loop mask size fuel env ring buffer data

/-! ## The pointer-sized wrappers

`sizeof_ptr` is `sizeof(void *)`; an entry is given by the bytes of the pointer. -/

/-- Embedding of `ck_ring_enqueue_spsc_size`. -/
def ck_ring_enqueue_spsc_size (sizeof_ptr : Nat) (ring : ck_ring) (buffer : Mem)
    (entry : Mem) : Bool × ck_ring × Mem × Nat :=
  _ck_ring_enqueue_spsc_size ring buffer entry sizeof_ptr

/-- Embedding of `ck_ring_enqueue_spsc`. -/
def ck_ring_enqueue_spsc (sizeof_ptr : Nat) (ring : ck_ring) (buffer : Mem)
    (entry : Mem) : Bool × ck_ring × Mem :=
  _ck_ring_enqueue_spsc ring buffer entry sizeof_ptr

/-- Embedding of `ck_ring_dequeue_spsc`. -/
def ck_ring_dequeue_spsc (sizeof_ptr : Nat) (ring : ck_ring) (buffer : Mem)
    (data : Mem) : Bool × ck_ring × Mem :=
  _ck_ring_dequeue_spsc ring buffer data sizeof_ptr

/-- Embedding of `ck_ring_enqueue_spmc_size`. -/
def ck_ring_enqueue_spmc_size (sizeof_ptr : Nat) (ring : ck_ring) (buffer : Mem)
    (entry : Mem) : Bool × ck_ring × Mem × Nat :=
  ck_ring_enqueue_spsc_size sizeof_ptr ring buffer entry

/-- Embedding of `ck_ring_enqueue_spmc`. -/
def ck_ring_enqueue_spmc (sizeof_ptr : Nat) (ring : ck_ring) (buffer : Mem)
    (entry : Mem) : Bool × ck_ring × Mem :=
  ck_ring_enqueue_spsc sizeof_ptr ring buffer entry

/-- Embedding of `ck_ring_trydequeue_spmc`. -/
def ck_ring_trydequeue_spmc (sizeof_ptr : Nat) (env : Env) (ring : ck_ring) (buffer : Mem)
    (data : Mem) : Bool × ck_ring × Mem :=
  _ck_ring_trydequeue_spmc env ring buffer data sizeof_ptr

/-- Embedding of `ck_ring_dequeue_spmc`. -/
def ck_ring_dequeue_spmc (sizeof_ptr : Nat) (fuel : Nat) (env : Nat → Env) (ring : ck_ring)
    (buffer : Mem) (data : Mem) : Option (Bool × ck_ring × Mem) :=
  _ck_ring_dequeue_spmc fuel env ring buffer data sizeof_ptr

/-! ## Sequential executions -/

/-- The shared state: the ring and the slot storage it indexes. -/
abbrev World := ck_ring × Mem

/-- What the caller observes of one call. -/
inductive Event where
  | enq_ok (record : List Nat)
  | enq_full
  | deq_ok (record : List Nat)
  | deq_empty
deriving DecidableEq

/-- The records accepted by the successful enqueues of a trace, in order. -/
def enqueued : List Event → List (List Nat)
  | [] => []
  | Event.enq_ok r :: es => r :: enqueued es
  | _ :: es => enqueued es

/-- The records returned by the successful dequeues of a trace, in order. -/
def dequeued : List Event → List (List Nat)
  | [] => []
  | Event.deq_ok r :: es => r :: dequeued es
  | _ :: es => dequeued es

/-- A call of the SPSC interface: the memory holding the record to enqueue, or the memory
that receives the dequeued record. -/
inductive SpscCall where
  | enqueue (source : Mem)
  | dequeue (target : Mem)

/-- One call of `_ck_ring_enqueue_spsc` / `_ck_ring_dequeue_spsc` with records of `size`
bytes, on the ring and its own slot storage. -/
def spsc_step (size : Nat) (c : SpscCall) (w : World) : Event × World :=
  match c with
  | SpscCall.enqueue source =>
    let r := _ck_ring_enqueue_spsc w.1 w.2 source size
    (if r.1 then Event.enq_ok (load source 0 size) else Event.enq_full, (r.2.1, r.2.2))
  | SpscCall.dequeue target =>
    let r := _ck_ring_dequeue_spsc w.1 w.2 target size
    (if r.1 then Event.deq_ok (load r.2.2 0 size) else Event.deq_empty, (r.2.1, w.2))

/-- A sequence of SPSC calls executed one after the other. -/
def spsc_run (size : Nat) : List SpscCall → World → List Event × World
  | [], w => ([], w)
  | c :: cs, w =>
    let r := spsc_step size c w
    let rs := spsc_run size cs r.2
    (r.1 :: rs.1, rs.2)

/-- One call of `ck_ring_enqueue_spsc` / `ck_ring_dequeue_spsc`. -/
def ptr_step (sizeof_ptr : Nat) (c : SpscCall) (w : World) : Event × World :=
  match c with
  | SpscCall.enqueue entry =>
    let r := ck_ring_enqueue_spsc sizeof_ptr w.1 w.2 entry
    (if r.1 then Event.enq_ok (load entry 0 sizeof_ptr) else Event.enq_full, (r.2.1, r.2.2))
  | SpscCall.dequeue data =>
    let r := ck_ring_dequeue_spsc sizeof_ptr w.1 w.2 data
    (if r.1 then Event.deq_ok (load r.2.2 0 sizeof_ptr) else Event.deq_empty, (r.2.1, w.2))

/-- A sequence of `ck_ring_enqueue_spsc` / `ck_ring_dequeue_spsc` calls executed one after
the other. -/
def ptr_run (sizeof_ptr : Nat) : List SpscCall → World → List Event × World
  | [], w => ([], w)
  | c :: cs, w =>
    let r := ptr_step sizeof_ptr c w
    let rs := ptr_run sizeof_ptr cs r.2
    (r.1 :: rs.1, rs.2)

/-- A call of any enqueue or dequeue variant, with its record memory and element width. -/
inductive Call where
  | enqueue_spsc (source : Mem) (size : Nat)
  | enqueue_spsc_size (entry : Mem) (type_size : Nat)
  | dequeue_spsc (target : Mem) (size : Nat)
  | trydequeue_spmc (data : Mem) (size : Nat)
  | dequeue_spmc (data : Mem) (size : Nat)

/-- One sequentially executed call (no other thread runs); `none` when the retry loop of
`_ck_ring_dequeue_spmc` is not decided within `fuel` iterations. -/
def exec (fuel : Nat) (c : Call) (w : World) : Option (Event × World) :=
  match c with
  | Call.enqueue_spsc source size =>
    let r := _ck_ring_enqueue_spsc w.1 w.2 source size
    some (if r.1 then Event.enq_ok (load source 0 size) else Event.enq_full, (r.2.1, r.2.2))
  | Call.enqueue_spsc_size entry type_size =>
    let r := _ck_ring_enqueue_spsc_size w.1 w.2 entry type_size
    some (if r.1 then Event.enq_ok (load entry 0 type_size) else Event.enq_full,
      (r.2.1, r.2.2.1))
  | Call.dequeue_spsc target size =>
    let r := _ck_ring_dequeue_spsc w.1 w.2 target size
    some (if r.1 then Event.deq_ok (load r.2.2 0 size) else Event.deq_empty, (r.2.1, w.2))
  | Call.trydequeue_spmc data size =>
    let r := _ck_ring_trydequeue_spmc quiet w.1 w.2 data size
    some (if r.1 then Event.deq_ok (load r.2.2 0 size) else Event.deq_empty, (r.2.1, w.2))
  | Call.dequeue_spmc data size =>
    match _ck_ring_dequeue_spmc fuel (fun _ => quiet) w.1 w.2 data size with
    | none => none
    | some r =>
      some (if r.1 then Event.deq_ok (load r.2.2 0 size) else Event.deq_empty, (r.2.1, w.2))

/-- A sequence of calls executed one after the other. -/
def run (fuel : Nat) : List Call → World → Option (List Event × World)
  | [], w => some ([], w)
  | c :: cs, w =>
    match exec fuel c w with
    | none => none
    | some r =>
      match run fuel cs r.2 with
      | none => none
      | some rs => some (r.1 :: rs.1, rs.2)

/-- The states a ring initialised with capacity `N` can be in after finitely many
sequentially executed calls. -/
def Reachable (N : Nat) (w : World) : Prop :=
  ∃ (ring0 : ck_ring) (buf0 : Mem) (fuel : Nat) (calls : List Call) (evs : List Event),
    run fuel calls (ck_ring_init ring0 N, buf0) = some (evs, w)

/-! ## Invariants and properties -/

/-- Index invariant of a ring of capacity `2 ^ k` holding `cnt` records. -/
structure IdxInv (k cnt : Nat) (ring : ck_ring) : Prop where
  hk : k < 32
  size_eq : ring.size = 2 ^ k
  mask_eq : ring.mask = 2 ^ k - 1
  head_lt : ring.c_head < UINT_MOD
  cnt_le : cnt ≤ 2 ^ k - 1
  tail_eq : ring.p_tail = (ring.c_head + cnt) % UINT_MOD

/-- What one sequentially executed call does to a ring holding `cnt` records. -/
def StepSpec (k cnt : Nat) (w : World) (ev : Event) (w' : World) : Prop :=
  (∃ r, ev = Event.enq_ok r ∧ cnt ≠ 2 ^ k - 1 ∧ IdxInv k (cnt + 1) w'.1) ∨
  (ev = Event.enq_full ∧ cnt = 2 ^ k - 1 ∧ w' = w) ∨
  (∃ r, ev = Event.deq_ok r ∧ cnt ≠ 0 ∧ IdxInv k (cnt - 1) w'.1) ∨
  (ev = Event.deq_empty ∧ cnt = 0 ∧ w' = w)

/-- The ring of capacity `2 ^ k` holds exactly the records `q`, oldest first, each stored in
the `size` bytes of its slot. -/
def Holds (k size : Nat) (w : World) (q : List (List Nat)) : Prop :=
  IdxInv k q.length w.1 ∧
  ∀ j, j < q.length → q[j]? = some (load w.2 (size * ((w.1.c_head + j) % 2 ^ k)) size)

/-- FIFO order of the calls `calls` made on a ring initialised with capacity `N`: the records
returned so far are a beginning of the records accepted so far, the ring holds the rest,
and the following dequeues return exactly that rest, in order. -/
def FifoOrder (sizeof_ptr N : Nat) (ring0 : ck_ring) (buf0 : Mem) (calls : List SpscCall) :
    Prop :=
  ∃ held : List (List Nat),
    enqueued (ptr_run sizeof_ptr calls (ck_ring_init ring0 N, buf0)).1 =
      dequeued (ptr_run sizeof_ptr calls (ck_ring_init ring0 N, buf0)).1 ++ held ∧
    held.length = ck_ring_size (ptr_run sizeof_ptr calls (ck_ring_init ring0 N, buf0)).2.1 ∧
    ∀ targets : List Mem, targets.length = held.length →
      (ptr_run sizeof_ptr (targets.map SpscCall.dequeue)
        (ptr_run sizeof_ptr calls (ck_ring_init ring0 N, buf0)).2).1 = held.map Event.deq_ok

/-- Round trip through a ring initialised with capacity `N`: enqueuing the records `xs` and
then dequeuing once per target and once more yields one success per record on the way in,
the same records in the same order on the way out, and finally an empty report. -/
def RoundTrip (size N : Nat) (ring0 : ck_ring) (buf0 : Mem) (xs targets : List Mem)
    (last : Mem) : Prop :=
  (spsc_run size
      (xs.map SpscCall.enqueue ++ targets.map SpscCall.dequeue ++ [SpscCall.dequeue last])
      (ck_ring_init ring0 N, buf0)).1 =
    xs.map (fun x => Event.enq_ok (load x 0 size)) ++
      xs.map (fun x => Event.deq_ok (load x 0 size)) ++ [Event.deq_empty]

/-! ## The typed wrappers of `CK_RING_PROTOTYPE(name, type)`

`sizeof_type` is `sizeof(struct type)`; a record is given by its bytes. -/

/-- Embedding of `ck_ring_enqueue_spsc_size_##name`. -/
def ck_ring_enqueue_spsc_size_name (sizeof_type : Nat) (a : ck_ring) (b c : Mem) :
    Bool × ck_ring × Mem × Nat :=
  _ck_ring_enqueue_spsc_size a b c sizeof_type

/-- Embedding of `ck_ring_enqueue_spsc_##name`. -/
def ck_ring_enqueue_spsc_name (sizeof_type : Nat) (a : ck_ring) (b c : Mem) :
    Bool × ck_ring × Mem :=
  _ck_ring_enqueue_spsc a b c sizeof_type

/-- Embedding of `ck_ring_dequeue_spsc_##name`. -/
def ck_ring_dequeue_spsc_name (sizeof_type : Nat) (a : ck_ring) (b c : Mem) :
    Bool × ck_ring × Mem :=
  _ck_ring_dequeue_spsc a b c sizeof_type

/-- Embedding of `ck_ring_enqueue_spmc_size_##name`. -/
def ck_ring_enqueue_spmc_size_name (sizeof_type : Nat) (a : ck_ring) (b c : Mem) :
    Bool × ck_ring × Mem × Nat :=
  _ck_ring_enqueue_spsc_size a b c sizeof_type

/-- Embedding of `ck_ring_enqueue_spmc_##name`. -/
def ck_ring_enqueue_spmc_name (sizeof_type : Nat) (a : ck_ring) (b c : Mem) :
    Bool × ck_ring × Mem :=
  _ck_ring_enqueue_spsc a b c sizeof_type

/-- Embedding of `ck_ring_trydequeue_spmc_##name`. -/
def ck_ring_trydequeue_spmc_name (sizeof_type : Nat) (env : Env) (a : ck_ring) (b c : Mem) :
    Bool × ck_ring × Mem :=
  _ck_ring_trydequeue_spmc env a b c sizeof_type

/-- Embedding of `ck_ring_dequeue_spmc_##name`. -/
def ck_ring_dequeue_spmc_name (sizeof_type : Nat) (fuel : Nat) (env : Nat → Env) (a : ck_ring)
    (b c : Mem) : Option (Bool × ck_ring × Mem) :=
  _ck_ring_dequeue_spmc fuel env a b c sizeof_type

/-! ## Further properties -/

/-- Slot `j` of a slot storage of `size`-byte records: element `j` of the array. -/
def slot (buffer : Mem) (size j : Nat) : List Nat :=
  load buffer (size * j) size

/-- Frame condition of an enqueue with result `r`: on success the record is in slot
`p_tail mod capacity`, `p_tail + 1` is stored into `p_tail`, and nothing else changes. -/
def EnqueueFrame (size : Nat) (ring : ck_ring) (buffer source : Mem)
    (r : Bool × ck_ring × Mem) : Prop :=
  r.1 = true →
    r.2.1 = { ring with p_tail := u_add ring.p_tail 1 } ∧
    slot r.2.2 size (ring.p_tail % ring.size) = load source 0 size ∧
    ∀ j, j < ring.size → j ≠ ring.p_tail % ring.size → slot r.2.2 size j = slot buffer size j

/-- Frame condition of a dequeue with result `r`: on success the output record is the content
of slot `c_head mod capacity`, `c_head + 1` is stored into `c_head`, and nothing else changes
(the slot storage is not among the things a dequeue returns: it is never written). -/
def DequeueFrame (size : Nat) (ring : ck_ring) (buffer target : Mem)
    (r : Bool × ck_ring × Mem) : Prop :=
  r.1 = true →
    r.2.1 = { ring with c_head := u_add ring.c_head 1 } ∧
    load r.2.2 0 size = slot buffer size (ring.c_head % ring.size) ∧
    ∀ a, size ≤ a → r.2.2 a = target a

/-- The ring with both indices advanced by `d` (modulo `2 ^ 32`). -/
def shift (d : Nat) (ring : ck_ring) : ck_ring :=
  { ring with c_head := u_add ring.c_head d, p_tail := u_add ring.p_tail d }

/-- The lowest clear bit of `m` searched in at most `fuel` bit positions. -/
def lowest_clear_bit_aux : Nat → Nat → Nat
  | 0, _ => 0
  | fuel + 1, m => if m % 2 = 0 then 0 else 1 + lowest_clear_bit_aux fuel (m / 2)

/-- Position of the lowest clear bit of `m` (`m + 1` positions are enough to find it). -/
def lowest_clear_bit (m : Nat) : Nat :=
  lowest_clear_bit_aux (m + 1) m

/-! ## What a consumer's compare-and-swap can find

Between the snapshot of a single attempt and its compare-and-swap the other threads act on
the shared state.  `c_head` is written only by `atomic_cmpset_int(&ring->c_head, consumer,
consumer + 1)`; the producer writes the slot storage and `p_tail`. -/

/-- One step of another thread: the producer completes an enqueue, another consumer makes a
whole single attempt, or another consumer that snapshotted the index `consumer` earlier makes
the compare-and-swap of its attempt. -/
inductive Action where
  | enqueue (source : Mem) (size : Nat)
  | attempt (data : Mem) (size : Nat)
  | cmpset (consumer : Nat)

/-- One action on the shared state: whether it advanced `c_head`, and the state it leaves. -/
def act (a : Action) (w : World) : Bool × World :=
  match a with
  | Action.enqueue source size =>
    let r := _ck_ring_enqueue_spsc w.1 w.2 source size
    (false, (r.2.1, r.2.2))
  | Action.attempt data size =>
    let r := _ck_ring_trydequeue_spmc quiet w.1 w.2 data size
    (r.1, (r.2.1, w.2))
  | Action.cmpset consumer =>
    let r := atomic_cmpset_int w.1.c_head consumer (u_add consumer 1)
    (r.2, ({ w.1 with c_head := r.1 }, w.2))

/-- The actions of the other threads, one after the other. -/
def acts : List Action → World → World
  | [], w => w
  | a :: l, w => acts l (act a w).2

/-- The number of actions of a sequence that advance `c_head`, that is, of dequeues that
succeed. -/
def wins : List Action → World → Nat
  | [], _ => 0
  | a :: l, w => (if (act a w).1 then 1 else 0) + wins l (act a w).2

end CkRing

/-! # LUN encoding of the mps driver (`sys/dev/mps/mps_sas.h`) -/

namespace MpsSas

/-- The error number `EINVAL` of `sys/errno.h`. -/
def EINVAL : Int := 22

/-- The assignment `bytes[i] = v` to a `uint8_t`. -/
def store (bytes : Nat → Nat) (i v : Nat) : Nat → Nat :=
  fun a => if a = i then v % 256 else bytes a

/-- Modelled from the spec: `scsi_ulto2b` of `cam/scsi/scsi_all.h` is not among the sources;
it stores the low 16 bits of `val` in big-endian order into `bytes[off]`, `bytes[off + 1]`. -/
def scsi_ulto2b (val : Nat) (bytes : Nat → Nat) (off : Nat) : Nat → Nat :=
  let bytes := store bytes off ((val >>> 8) &&& 0xff)
  store bytes (off + 1) (val &&& 0xff)

/-- Modelled from the spec: `scsi_ulto3b` of `cam/scsi/scsi_all.h` is not among the sources;
it stores the low 24 bits of `val` in big-endian order into `bytes[off]` to
`bytes[off + 2]`. -/
def scsi_ulto3b (val : Nat) (bytes : Nat → Nat) (off : Nat) : Nat → Nat :=
  let bytes := store bytes off ((val >>> 16) &&& 0xff)
  let bytes := store bytes (off + 1) ((val >>> 8) &&& 0xff)
  store bytes (off + 2) (val &&& 0xff)

/-- Embedding of `mpssas_set_lun`: the returned value and the memory `lun` points to. -/
def mpssas_set_lun (lun : Nat → Nat) (ccblun : Nat) : Int × (Nat → Nat) :=
  let lun : Nat → Nat := fun a => if a < 8 then 0 else lun a
  if ccblun ≤ 0xff then
    let lun := store lun 1 ccblun
    (0, lun)
  else if ccblun ≤ 0x3fff then
    let lun := scsi_ulto2b ccblun lun 0
    let lun := store lun 0 (lun 0 ||| 0x40)
    (0, lun)
  else if ccblun ≤ 0xffffff then
    let lun := scsi_ulto3b ccblun lun 1
    let lun := store lun 0 0xc0
    let lun := store lun 0 (lun 0 ||| 0x10)
    let lun := store lun 0 (lun 0 ||| 0x02)
    (0, lun)
  else
    (EINVAL, lun)

/-- The 8 bytes of a LUN field. -/
def lun_bytes (lun : Nat → Nat) : List Nat :=
  (List.range 8).map lun

/-- Reading a LUN number back from the 8 bytes of the field, by addressing method. -/
def decode_lun (b : List Nat) : Nat :=
  if b.getD 0 0 = 0 then b.getD 1 0
  else if b.getD 0 0 = 0xd2 then b.getD 1 0 * 65536 + b.getD 2 0 * 256 + b.getD 3 0
  else (b.getD 0 0 - 0x40) * 256 + b.getD 1 0

end MpsSas

namespace CkRing

/-! ## Theorems -/

theorem UINT_MOD_eq : UINT_MOD = 2 ^ 32 := by norm_num [UINT_MOD]

theorem pow_dvd_UINT_MOD {k : Nat} (hk : k < 32) : 2 ^ k ∣ UINT_MOD := by
  rw [UINT_MOD_eq]
  exact pow_dvd_pow 2 (Nat.le_of_lt hk)

theorem pow_lt_UINT_MOD {k : Nat} (hk : k < 32) : 2 ^ k < UINT_MOD := by
  rw [UINT_MOD_eq]
  exact Nat.pow_lt_pow_right (by norm_num) hk

theorem land_mask (x k : Nat) : x &&& (2 ^ k - 1) = x % 2 ^ k :=
  Nat.and_pow_two_sub_one_eq_mod x k

theorem mod_shift {k : Nat} (hk : k < 32) (c d : Nat) :
    (u_add ((c + d) % UINT_MOD) 1) % 2 ^ k = (c + (d + 1)) % 2 ^ k := by
  unfold u_add
  rw [Nat.mod_mod_of_dvd _ (pow_dvd_UINT_MOD hk)]
  have h : (c + d) % UINT_MOD ≡ c + d [MOD 2 ^ k] :=
    (Nat.mod_modEq _ _).of_dvd (pow_dvd_UINT_MOD hk)
  exact h.add_right 1

theorem full_iff {k cnt : Nat} {ring : ck_ring} (h : IdxInv k cnt ring) :
    ((u_add ring.p_tail 1) &&& ring.mask = ring.c_head &&& ring.mask) ↔ cnt = 2 ^ k - 1 := by
  have hpos : 0 < 2 ^ k := Nat.two_pow_pos k
  rw [h.mask_eq, land_mask, land_mask, h.tail_eq, mod_shift h.hk]
  have hle := h.cnt_le
  constructor
  · intro e
    have e1 : ring.c_head + (cnt + 1) ≡ ring.c_head + 0 [MOD 2 ^ k] := by
      simpa [Nat.ModEq] using e
    have e2 : cnt + 1 ≡ 0 [MOD 2 ^ k] := Nat.ModEq.add_left_cancel' _ e1
    have e3 : 2 ^ k ∣ cnt + 1 := (Nat.modEq_zero_iff_dvd).1 e2
    have e4 := Nat.le_of_dvd (Nat.succ_pos _) e3
    omega
  · intro e
    have e2 : cnt + 1 ≡ 0 [MOD 2 ^ k] := by
      apply (Nat.modEq_zero_iff_dvd).2
      have : cnt + 1 = 2 ^ k := by omega
      rw [this]
    have e1 : ring.c_head + (cnt + 1) ≡ ring.c_head + 0 [MOD 2 ^ k] := e2.add_left _
    simpa [Nat.ModEq] using e1

theorem size_eq_cnt {k cnt : Nat} {ring : ck_ring} (h : IdxInv k cnt ring) :
    ck_ring_size ring = cnt := by
  have hpos : 0 < 2 ^ k := Nat.two_pow_pos k
  have hlt := pow_lt_UINT_MOD h.hk
  have hle := h.cnt_le
  have hc := h.head_lt
  unfold ck_ring_size
  simp only []
  rw [h.mask_eq, land_mask, h.tail_eq]
  have : u_sub ((ring.c_head + cnt) % UINT_MOD) ring.c_head = cnt := by
    unfold u_sub
    unfold UINT_MOD at *
    omega
  rw [this]
  exact Nat.mod_eq_of_lt (by omega)

theorem empty_iff {k cnt : Nat} {ring : ck_ring} (h : IdxInv k cnt ring) :
    ring.c_head = ring.p_tail ↔ cnt = 0 := by
  have hpos : 0 < 2 ^ k := Nat.two_pow_pos k
  have hlt := pow_lt_UINT_MOD h.hk
  have hle := h.cnt_le
  have hc := h.head_lt
  rw [h.tail_eq]
  unfold UINT_MOD at *
  omega

theorem idxInv_init {k : Nat} (hk : k < 32) (ring0 : ck_ring) :
    IdxInv k 0 (ck_ring_init ring0 (2 ^ k)) := by
  have hpos : 0 < 2 ^ k := Nat.two_pow_pos k
  have hlt := pow_lt_UINT_MOD hk
  refine ⟨hk, rfl, ?_, ?_, Nat.zero_le _, ?_⟩
  · show u_sub (2 ^ k) 1 = 2 ^ k - 1
    unfold u_sub
    unfold UINT_MOD at *
    omega
  · show 0 < UINT_MOD
    unfold UINT_MOD; omega
  · show 0 = (0 + 0) % UINT_MOD
    simp

theorem idxInv_enq {k cnt : Nat} {ring : ck_ring} (h : IdxInv k cnt ring)
    (hne : cnt ≠ 2 ^ k - 1) :
    IdxInv k (cnt + 1) { ring with p_tail := u_add ring.p_tail 1 } := by
  have hle := h.cnt_le
  refine ⟨h.hk, h.size_eq, h.mask_eq, h.head_lt, by omega, ?_⟩
  show u_add ring.p_tail 1 = (ring.c_head + (cnt + 1)) % UINT_MOD
  rw [h.tail_eq]
  unfold u_add
  unfold UINT_MOD
  omega

theorem idxInv_deq {k cnt : Nat} {ring : ck_ring} (h : IdxInv k cnt ring)
    (hne : cnt ≠ 0) :
    IdxInv k (cnt - 1) { ring with c_head := u_add ring.c_head 1 } := by
  have hle := h.cnt_le
  have hc := h.head_lt
  refine ⟨h.hk, h.size_eq, h.mask_eq, ?_, by omega, ?_⟩
  · show u_add ring.c_head 1 < UINT_MOD
    unfold u_add
    exact Nat.mod_lt _ (by unfold UINT_MOD; omega)
  · show ring.p_tail = (u_add ring.c_head 1 + (cnt - 1)) % UINT_MOD
    rw [h.tail_eq]
    unfold u_add
    unfold UINT_MOD at *
    omega

/-! ### The three core operations on a well-formed ring -/

theorem enqueue_spsc_full {k cnt : Nat} {ring : ck_ring} (h : IdxInv k cnt ring)
    (hc : cnt = 2 ^ k - 1) (buf src : Mem) (size : Nat) :
    _ck_ring_enqueue_spsc ring buf src size = (false, ring, buf) := by
  unfold _ck_ring_enqueue_spsc
  simp only []
  rw [if_pos ((full_iff h).2 hc)]

theorem enqueue_spsc_ok {k cnt : Nat} {ring : ck_ring} (h : IdxInv k cnt ring)
    (hc : cnt ≠ 2 ^ k - 1) (buf src : Mem) (size : Nat) :
    _ck_ring_enqueue_spsc ring buf src size =
      (true, { ring with p_tail := u_add ring.p_tail 1 },
        memcpy buf (u_mul size (ring.p_tail &&& ring.mask)) src 0 size) := by
  unfold _ck_ring_enqueue_spsc
  simp only []
  rw [if_neg (fun e => hc ((full_iff h).1 e))]

theorem enqueue_spsc_size_eq (ring : ck_ring) (buf src : Mem) (size : Nat) :
    _ck_ring_enqueue_spsc_size ring buf src size =
      ((_ck_ring_enqueue_spsc ring buf src size).1, (_ck_ring_enqueue_spsc ring buf src size).2.1,
        (_ck_ring_enqueue_spsc ring buf src size).2.2,
        (u_sub ring.p_tail ring.c_head) &&& ring.mask) := by
  unfold _ck_ring_enqueue_spsc_size _ck_ring_enqueue_spsc
  simp only []
  split <;> rfl

theorem dequeue_spsc_empty {ring : ck_ring} (hc : ring.c_head = ring.p_tail)
    (buf tgt : Mem) (size : Nat) :
    _ck_ring_dequeue_spsc ring buf tgt size = (false, ring, tgt) := by
  unfold _ck_ring_dequeue_spsc
  simp only []
  rw [if_pos hc]

theorem dequeue_spsc_ok {ring : ck_ring} (hc : ring.c_head ≠ ring.p_tail)
    (buf tgt : Mem) (size : Nat) :
    _ck_ring_dequeue_spsc ring buf tgt size =
      (true, { ring with c_head := u_add ring.c_head 1 },
        memcpy tgt 0 buf (u_mul size (ring.c_head &&& ring.mask)) size) := by
  unfold _ck_ring_dequeue_spsc
  simp only []
  rw [if_neg hc]

theorem trydequeue_spmc_quiet (ring : ck_ring) (buf data : Mem) (size : Nat) :
    _ck_ring_trydequeue_spmc quiet ring buf data size =
      _ck_ring_dequeue_spsc ring buf data size := by
  unfold _ck_ring_trydequeue_spmc _ck_ring_dequeue_spsc atomic_cmpset_int quiet
  simp only []
  split
  · rfl
  · simp

theorem dequeue_spmc_quiet (fuel : Nat) (ring : ck_ring) (buf data : Mem) (size : Nat) :
    _ck_ring_dequeue_spmc (fuel + 1) (fun _ => quiet) ring buf data size =
      some (_ck_ring_dequeue_spsc ring buf data size) := by
  unfold _ck_ring_dequeue_spmc _ck_ring_dequeue_spmc_loop _ck_ring_dequeue_spsc
    atomic_cmpset_int quiet
  simp only []
  split
  · rfl
  · simp

theorem dequeue_spmc_zero (env : Nat → Env) (ring : ck_ring) (buf data : Mem) (size : Nat) :
    _ck_ring_dequeue_spmc 0 env ring buf data size = none := by
  unfold _ck_ring_dequeue_spmc _ck_ring_dequeue_spmc_loop
  rfl

/-! ### Sequential executions keep the index invariant -/

theorem exec_total (fuel : Nat) (c : Call) (w : World) :
    ∃ r, exec (fuel + 1) c w = some r := by
  cases c with
  | enqueue_spsc source size => exact ⟨_, rfl⟩
  | enqueue_spsc_size entry type_size => exact ⟨_, rfl⟩
  | dequeue_spsc target size => exact ⟨_, rfl⟩
  | trydequeue_spmc data size => exact ⟨_, rfl⟩
  | dequeue_spmc data size =>
    simp only [exec, dequeue_spmc_quiet]
    exact ⟨_, rfl⟩

theorem run_total (fuel : Nat) (calls : List Call) :
    ∀ w : World, ∃ r, run (fuel + 1) calls w = some r := by
  induction calls with
  | nil => intro w; exact ⟨_, rfl⟩
  | cons c cs ih =>
    intro w
    obtain ⟨r, hr⟩ := exec_total fuel c w
    obtain ⟨rs, hrs⟩ := ih r.2
    exact ⟨(r.1 :: rs.1, rs.2), by simp only [run, hr, hrs]⟩

theorem enqueue_step_spec {k cnt : Nat} {w : World} (h : IdxInv k cnt w.1)
    (src : Mem) (size : Nat) :
    StepSpec k cnt w
      (if (_ck_ring_enqueue_spsc w.1 w.2 src size).1 then Event.enq_ok (load src 0 size)
        else Event.enq_full)
      ((_ck_ring_enqueue_spsc w.1 w.2 src size).2.1,
        (_ck_ring_enqueue_spsc w.1 w.2 src size).2.2) := by
  by_cases hc : cnt = 2 ^ k - 1
  · rw [enqueue_spsc_full h hc]
    exact Or.inr (Or.inl ⟨rfl, hc, rfl⟩)
  · rw [enqueue_spsc_ok h hc]
    exact Or.inl ⟨_, rfl, hc, idxInv_enq h hc⟩

theorem dequeue_step_spec {k cnt : Nat} {w : World} (h : IdxInv k cnt w.1)
    (tgt : Mem) (size : Nat) :
    StepSpec k cnt w
      (if (_ck_ring_dequeue_spsc w.1 w.2 tgt size).1 then
          Event.deq_ok (load (_ck_ring_dequeue_spsc w.1 w.2 tgt size).2.2 0 size)
        else Event.deq_empty)
      ((_ck_ring_dequeue_spsc w.1 w.2 tgt size).2.1, w.2) := by
  by_cases hc : cnt = 0
  · rw [dequeue_spsc_empty ((empty_iff h).2 hc)]
    exact Or.inr (Or.inr (Or.inr ⟨rfl, hc, rfl⟩))
  · rw [dequeue_spsc_ok (fun e => hc ((empty_iff h).1 e))]
    exact Or.inr (Or.inr (Or.inl ⟨_, rfl, hc, idxInv_deq h hc⟩))

theorem exec_spec {k cnt : Nat} {w : World} (h : IdxInv k cnt w.1) (fuel : Nat) (c : Call)
    (ev : Event) (w' : World) (he : exec fuel c w = some (ev, w')) :
    StepSpec k cnt w ev w' := by
  cases c with
  | enqueue_spsc source size =>
    simp only [exec, Option.some.injEq, Prod.mk.injEq] at he
    rw [← he.1, ← he.2]
    exact enqueue_step_spec h source size
  | enqueue_spsc_size entry type_size =>
    simp only [exec, Option.some.injEq, Prod.mk.injEq] at he
    rw [← he.1, ← he.2, enqueue_spsc_size_eq]
    exact enqueue_step_spec h entry type_size
  | dequeue_spsc target size =>
    simp only [exec, Option.some.injEq, Prod.mk.injEq] at he
    rw [← he.1, ← he.2]
    exact dequeue_step_spec h target size
  | trydequeue_spmc data size =>
    simp only [exec, Option.some.injEq, Prod.mk.injEq] at he
    rw [← he.1, ← he.2, trydequeue_spmc_quiet]
    exact dequeue_step_spec h data size
  | dequeue_spmc data size =>
    cases fuel with
    | zero => simp [exec, dequeue_spmc_zero] at he
    | succ f =>
      simp only [exec, dequeue_spmc_quiet, Option.some.injEq, Prod.mk.injEq] at he
      rw [← he.1, ← he.2]
      exact dequeue_step_spec h data size

theorem run_inv {k : Nat} (fuel : Nat) (calls : List Call) :
    ∀ (w : World) (cnt : Nat) (evs : List Event) (w' : World), IdxInv k cnt w.1 →
      run fuel calls w = some (evs, w') →
      ∃ cnt', IdxInv k cnt' w'.1 ∧
        cnt + (enqueued evs).length = cnt' + (dequeued evs).length := by
  induction calls with
  | nil =>
    intro w cnt evs w' h hr
    simp only [run, Option.some.injEq, Prod.mk.injEq] at hr
    rw [← hr.1, ← hr.2]
    exact ⟨cnt, h, rfl⟩
  | cons c cs ih =>
    intro w cnt evs w' h hr
    simp only [run] at hr
    cases he : exec fuel c w with
    | none => simp [he] at hr
    | some r =>
      rw [he] at hr
      simp only [] at hr
      cases hrs : run fuel cs r.2 with
      | none => simp [hrs] at hr
      | some rs =>
        rw [hrs] at hr
        simp only [Option.some.injEq, Prod.mk.injEq] at hr
        have hs := exec_spec h fuel c r.1 r.2 he
        rw [← hr.1, ← hr.2]
        rcases hs with ⟨rec, hev, hne, hi⟩ | ⟨hev, _, hw⟩ | ⟨rec, hev, hne, hi⟩ | ⟨hev, _, hw⟩
        · obtain ⟨cnt', hi', hcnt⟩ := ih r.2 (cnt + 1) rs.1 rs.2 hi hrs
          refine ⟨cnt', hi', ?_⟩
          rw [hev]
          simp only [enqueued, dequeued, List.length_cons]
          omega
        · rw [hw] at hrs
          obtain ⟨cnt', hi', hcnt⟩ := ih w cnt rs.1 rs.2 h hrs
          refine ⟨cnt', hi', ?_⟩
          rw [hev]
          simpa only [enqueued, dequeued] using hcnt
        · obtain ⟨cnt', hi', hcnt⟩ := ih r.2 (cnt - 1) rs.1 rs.2 hi hrs
          refine ⟨cnt', hi', ?_⟩
          rw [hev]
          simp only [enqueued, dequeued, List.length_cons]
          omega
        · rw [hw] at hrs
          obtain ⟨cnt', hi', hcnt⟩ := ih w cnt rs.1 rs.2 h hrs
          refine ⟨cnt', hi', ?_⟩
          rw [hev]
          simpa only [enqueued, dequeued] using hcnt

theorem reachable_inv {k : Nat} (hk : k < 32) {w : World} (h : Reachable (2 ^ k) w) :
    ∃ cnt, IdxInv k cnt w.1 := by
  obtain ⟨ring0, buf0, fuel, calls, evs, hr⟩ := h
  obtain ⟨cnt, hi, _⟩ := run_inv fuel calls _ 0 evs w (idxInv_init hk ring0) hr
  exact ⟨cnt, hi⟩

/-! ### Memory -/

theorem load_memcpy_same (buf src : Mem) (off s n : Nat) :
    load (memcpy buf off src s n) off n = load src s n := by
  unfold load
  apply List.map_congr_left
  intro i hi
  have hi' : i < n := List.mem_range.1 hi
  unfold memcpy
  rw [if_pos ⟨Nat.le_add_right _ _, by omega⟩]
  congr 1
  omega

theorem load_memcpy_disjoint (buf src : Mem) (off s n off' : Nat)
    (h : off' + n ≤ off ∨ off + n ≤ off') :
    load (memcpy buf off src s n) off' n = load buf off' n := by
  unfold load
  apply List.map_congr_left
  intro i hi
  have hi' : i < n := List.mem_range.1 hi
  unfold memcpy
  rw [if_neg (by omega)]

/-- Distinct slots of `size` bytes do not overlap. -/
theorem slot_disjoint (size i j : Nat) (h : i ≠ j) :
    size * i + size ≤ size * j ∨ size * j + size ≤ size * i := by
  rcases Nat.lt_or_gt_of_ne h with hlt | hgt
  · left
    calc size * i + size = size * (i + 1) := by ring
      _ ≤ size * j := Nat.mul_le_mul_left _ hlt
  · right
    calc size * j + size = size * (j + 1) := by ring
      _ ≤ size * i := Nat.mul_le_mul_left _ hgt

/-- The byte offset of a slot is computed without overflow when the last slot starts
below `2 ^ 32`. -/
theorem slot_offset {k : Nat} (size x : Nat) (hfit : size * (2 ^ k - 1) < UINT_MOD) :
    u_mul size (x &&& (2 ^ k - 1)) = size * (x % 2 ^ k) := by
  rw [land_mask]
  unfold u_mul
  apply Nat.mod_eq_of_lt
  have hx : x % 2 ^ k ≤ 2 ^ k - 1 := by
    have := Nat.mod_lt x (Nat.two_pow_pos k)
    omega
  exact lt_of_le_of_lt (Nat.mul_le_mul_left _ hx) hfit

theorem mod_pow_of_mod_UINT {k : Nat} (hk : k < 32) (x : Nat) :
    x % UINT_MOD % 2 ^ k = x % 2 ^ k :=
  Nat.mod_mod_of_dvd _ (pow_dvd_UINT_MOD hk)

/-- Two positions of a ring that holds fewer than `2 ^ k` records are different slots. -/
theorem slot_ne {k : Nat} (c i j : Nat) (hij : i < j) (hj : j < 2 ^ k) :
    (c + i) % 2 ^ k ≠ (c + j) % 2 ^ k := by
  intro e
  have e1 : c + i ≡ c + j [MOD 2 ^ k] := e
  have e2 : i ≡ j [MOD 2 ^ k] := Nat.ModEq.add_left_cancel' _ e1
  have e3 : i = j := by
    have := Nat.ModEq.eq_of_lt_of_lt e2 (by omega) hj
    exact this
  omega

theorem holds_init {k : Nat} (hk : k < 32) (size : Nat) (ring0 : ck_ring) (buf0 : Mem) :
    Holds k size (ck_ring_init ring0 (2 ^ k), buf0) [] :=
  ⟨idxInv_init hk ring0, fun _ hj => absurd hj (Nat.not_lt_zero _)⟩

theorem holds_enqueue {k size : Nat} {w : World} {q : List (List Nat)}
    (hfit : size * (2 ^ k - 1) < UINT_MOD) (h : Holds k size w q)
    (hne : q.length ≠ 2 ^ k - 1) (src : Mem) :
    (_ck_ring_enqueue_spsc w.1 w.2 src size).1 = true ∧
    Holds k size ((_ck_ring_enqueue_spsc w.1 w.2 src size).2.1,
      (_ck_ring_enqueue_spsc w.1 w.2 src size).2.2) (q ++ [load src 0 size]) := by
  obtain ⟨hi, hq⟩ := h
  rw [enqueue_spsc_ok hi hne]
  refine ⟨rfl, ?_, ?_⟩
  · have := idxInv_enq hi hne
    simpa using this
  · intro j hj
    have hlen : (q ++ [load src 0 size]).length = q.length + 1 := by simp
    rw [hlen] at hj
    have hoff : u_mul size (w.1.p_tail &&& w.1.mask) =
        size * ((w.1.c_head + q.length) % 2 ^ k) := by
      rw [hi.mask_eq, slot_offset _ _ hfit, hi.tail_eq, mod_pow_of_mod_UINT hi.hk]
    show (q ++ [load src 0 size])[j]? = some (load (memcpy w.2 _ src 0 size)
      (size * ((w.1.c_head + j) % 2 ^ k)) size)
    rw [hoff]
    have hle := hi.cnt_le
    have hpos := Nat.two_pow_pos k
    by_cases hjq : j < q.length
    · rw [List.getElem?_append_left hjq, hq j hjq, load_memcpy_disjoint]
      have hne' : (w.1.c_head + j) % 2 ^ k ≠ (w.1.c_head + q.length) % 2 ^ k :=
        slot_ne _ _ _ hjq (by omega)
      rcases slot_disjoint size _ _ hne' with h1 | h1
      · exact Or.inl h1
      · exact Or.inr h1
    · have hjeq : j = q.length := by omega
      subst hjeq
      rw [List.getElem?_append_right (Nat.le_refl _), load_memcpy_same]
      simp

theorem holds_dequeue {k size : Nat} {w : World} {r : List Nat} {q : List (List Nat)}
    (hfit : size * (2 ^ k - 1) < UINT_MOD) (h : Holds k size w (r :: q)) (tgt : Mem) :
    (_ck_ring_dequeue_spsc w.1 w.2 tgt size).1 = true ∧
    load (_ck_ring_dequeue_spsc w.1 w.2 tgt size).2.2 0 size = r ∧
    Holds k size ((_ck_ring_dequeue_spsc w.1 w.2 tgt size).2.1, w.2) q := by
  obtain ⟨hi, hq⟩ := h
  have hne : (r :: q).length ≠ 0 := by simp
  rw [dequeue_spsc_ok (fun e => hne ((empty_iff hi).1 e))]
  refine ⟨rfl, ?_, ?_, ?_⟩
  · show load (memcpy tgt 0 w.2 (u_mul size (w.1.c_head &&& w.1.mask)) size) 0 size = r
    rw [load_memcpy_same, hi.mask_eq, slot_offset _ _ hfit]
    have h0 := hq 0 (by simp)
    simp only [List.getElem?_cons_zero, Option.some.injEq, Nat.add_zero] at h0
    exact h0.symm
  · have := idxInv_deq hi hne
    simpa using this
  · intro j hj
    have h1 := hq (j + 1) (by simpa using hj)
    rw [List.getElem?_cons_succ] at h1
    rw [h1]
    show some (load w.2 (size * ((w.1.c_head + (j + 1)) % 2 ^ k)) size) =
      some (load w.2 (size * ((u_add w.1.c_head 1 + j) % 2 ^ k)) size)
    have e : (u_add w.1.c_head 1 + j) % 2 ^ k = (w.1.c_head + (j + 1)) % 2 ^ k := by
      have e1 : u_add w.1.c_head 1 ≡ w.1.c_head + 1 [MOD 2 ^ k] :=
        (Nat.mod_modEq _ _).of_dvd (pow_dvd_UINT_MOD hi.hk)
      have e2 := e1.add_right j
      rw [Nat.add_assoc, Nat.add_comm 1 j] at e2
      exact e2
    rw [e]

theorem holds_dequeue_nil {k size : Nat} {w : World} (h : Holds k size w []) (tgt : Mem) :
    _ck_ring_dequeue_spsc w.1 w.2 tgt size = (false, w.1, tgt) :=
  dequeue_spsc_empty ((empty_iff h.1).2 rfl) _ _ _

theorem holds_enqueue_full {k size : Nat} {w : World} {q : List (List Nat)}
    (h : Holds k size w q) (hc : q.length = 2 ^ k - 1) (src : Mem) :
    _ck_ring_enqueue_spsc w.1 w.2 src size = (false, w.1, w.2) :=
  enqueue_spsc_full h.1 hc _ _ _

/-! ### SPSC executions -/

theorem ptr_run_eq (sizeof_ptr : Nat) (calls : List SpscCall) :
    ∀ w : World, ptr_run sizeof_ptr calls w = spsc_run sizeof_ptr calls w := by
  induction calls with
  | nil => intro w; rfl
  | cons c cs ih =>
    intro w
    have hs : ptr_step sizeof_ptr c w = spsc_step sizeof_ptr c w := by
      cases c <;> rfl
    simp only [ptr_run, spsc_run, hs, ih]

theorem spsc_run_append (size : Nat) (a b : List SpscCall) :
    ∀ w : World, spsc_run size (a ++ b) w =
      ((spsc_run size a w).1 ++ (spsc_run size b (spsc_run size a w).2).1,
        (spsc_run size b (spsc_run size a w).2).2) := by
  induction a with
  | nil => intro w; rfl
  | cons c cs ih =>
    intro w
    show spsc_run size (c :: (cs ++ b)) w = _
    simp only [spsc_run, ih, List.cons_append]

theorem enqueued_append (a b : List Event) : enqueued (a ++ b) = enqueued a ++ enqueued b := by
  induction a with
  | nil => rfl
  | cons e es ih => cases e <;> simp [enqueued, ih]

theorem dequeued_append (a b : List Event) : dequeued (a ++ b) = dequeued a ++ dequeued b := by
  induction a with
  | nil => rfl
  | cons e es ih => cases e <;> simp [dequeued, ih]

theorem spsc_step_enqueue_ok {k size : Nat} {w : World} {q : List (List Nat)}
    (hfit : size * (2 ^ k - 1) < UINT_MOD) (h : Holds k size w q)
    (hne : q.length ≠ 2 ^ k - 1) (src : Mem) :
    (spsc_step size (SpscCall.enqueue src) w).1 = Event.enq_ok (load src 0 size) ∧
    Holds k size (spsc_step size (SpscCall.enqueue src) w).2 (q ++ [load src 0 size]) := by
  obtain ⟨h1, h2⟩ := holds_enqueue hfit h hne src
  simp only [spsc_step, h1]
  exact ⟨rfl, h2⟩

theorem spsc_step_enqueue_full {k size : Nat} {w : World} {q : List (List Nat)}
    (h : Holds k size w q) (hc : q.length = 2 ^ k - 1) (src : Mem) :
    spsc_step size (SpscCall.enqueue src) w = (Event.enq_full, w) := by
  simp only [spsc_step, holds_enqueue_full h hc src]
  rfl

theorem spsc_step_dequeue_ok {k size : Nat} {w : World} {r : List Nat} {q : List (List Nat)}
    (hfit : size * (2 ^ k - 1) < UINT_MOD) (h : Holds k size w (r :: q)) (tgt : Mem) :
    (spsc_step size (SpscCall.dequeue tgt) w).1 = Event.deq_ok r ∧
    Holds k size (spsc_step size (SpscCall.dequeue tgt) w).2 q := by
  obtain ⟨h1, h2, h3⟩ := holds_dequeue hfit h tgt
  simp only [spsc_step, h1, h2]
  exact ⟨rfl, h3⟩

theorem spsc_step_dequeue_empty {k size : Nat} {w : World} (h : Holds k size w [])
    (tgt : Mem) : spsc_step size (SpscCall.dequeue tgt) w = (Event.deq_empty, w) := by
  simp only [spsc_step, holds_dequeue_nil h tgt]
  rfl

theorem spsc_run_holds {k size : Nat} (hfit : size * (2 ^ k - 1) < UINT_MOD)
    (calls : List SpscCall) :
    ∀ (w : World) (q : List (List Nat)), Holds k size w q →
      ∃ q', Holds k size (spsc_run size calls w).2 q' ∧
        q ++ enqueued (spsc_run size calls w).1 = dequeued (spsc_run size calls w).1 ++ q' := by
  induction calls with
  | nil => intro w q h; exact ⟨q, h, by simp [spsc_run, enqueued, dequeued]⟩
  | cons c cs ih =>
    intro w q h
    simp only [spsc_run]
    cases c with
    | enqueue src =>
      by_cases hc : q.length = 2 ^ k - 1
      · rw [spsc_step_enqueue_full h hc src]
        obtain ⟨q', h', e⟩ := ih w q h
        exact ⟨q', h', by simpa [enqueued, dequeued] using e⟩
      · obtain ⟨h1, h2⟩ := spsc_step_enqueue_ok hfit h hc src
        obtain ⟨q', h', e⟩ := ih _ _ h2
        refine ⟨q', h', ?_⟩
        rw [h1]
        simpa [enqueued, dequeued] using e
    | dequeue tgt =>
      cases q with
      | nil =>
        rw [spsc_step_dequeue_empty h tgt]
        obtain ⟨q', h', e⟩ := ih w [] h
        exact ⟨q', h', by simpa [enqueued, dequeued] using e⟩
      | cons r q =>
        obtain ⟨h1, h2⟩ := spsc_step_dequeue_ok hfit h tgt
        obtain ⟨q', h', e⟩ := ih _ _ h2
        refine ⟨q', h', ?_⟩
        rw [h1]
        simpa [enqueued, dequeued] using e

theorem spsc_drain {k size : Nat} (hfit : size * (2 ^ k - 1) < UINT_MOD)
    (q : List (List Nat)) :
    ∀ (w : World) (targets : List Mem), Holds k size w q → targets.length = q.length →
      (spsc_run size (targets.map SpscCall.dequeue) w).1 = q.map Event.deq_ok ∧
      Holds k size (spsc_run size (targets.map SpscCall.dequeue) w).2 [] := by
  induction q with
  | nil =>
    intro w targets h hl
    have : targets = [] := List.length_eq_zero.1 hl
    subst this
    exact ⟨rfl, h⟩
  | cons r q ih =>
    intro w targets h hl
    cases targets with
    | nil => simp at hl
    | cons t ts =>
      obtain ⟨h1, h2⟩ := spsc_step_dequeue_ok hfit h t
      obtain ⟨e, h'⟩ := ih _ ts h2 (by simpa using hl)
      simp only [List.map_cons, spsc_run, h1, e]
      exact ⟨trivial, h'⟩

theorem spsc_fill {k size : Nat} (hfit : size * (2 ^ k - 1) < UINT_MOD) (xs : List Mem) :
    ∀ (w : World) (q : List (List Nat)), Holds k size w q →
      q.length + xs.length ≤ 2 ^ k - 1 →
      (spsc_run size (xs.map SpscCall.enqueue) w).1 =
        xs.map (fun x => Event.enq_ok (load x 0 size)) ∧
      Holds k size (spsc_run size (xs.map SpscCall.enqueue) w).2
        (q ++ xs.map (fun x => load x 0 size)) := by
  induction xs with
  | nil => intro w q h _; exact ⟨rfl, by simpa using h⟩
  | cons x xs ih =>
    intro w q h hl
    simp only [List.length_cons] at hl
    obtain ⟨h1, h2⟩ := spsc_step_enqueue_ok hfit h (by omega) x
    obtain ⟨e, h'⟩ := ih _ _ h2 (by simp only [List.length_append, List.length_singleton]; omega)
    simp only [List.map_cons, spsc_run, h1, e]
    refine ⟨trivial, ?_⟩
    simpa using h'

/-- Filling a ring that has room: every enqueue succeeds, the consumer index stays, and only
the bytes of the addressed slots are written. -/
theorem spsc_fill_idx (k size : Nat) (xs : List Mem) :
    ∀ (w : World) (cnt : Nat), IdxInv k cnt w.1 → cnt + xs.length ≤ 2 ^ k - 1 →
      (spsc_run size (xs.map SpscCall.enqueue) w).1 =
        xs.map (fun x => Event.enq_ok (load x 0 size)) ∧
      IdxInv k (cnt + xs.length) (spsc_run size (xs.map SpscCall.enqueue) w).2.1 ∧
      (spsc_run size (xs.map SpscCall.enqueue) w).2.1.c_head = w.1.c_head ∧
      ∀ a, (∀ i, i < xs.length →
          ¬ (u_mul size (((w.1.c_head + (cnt + i)) % UINT_MOD) &&& (2 ^ k - 1)) ≤ a ∧
            a < u_mul size (((w.1.c_head + (cnt + i)) % UINT_MOD) &&& (2 ^ k - 1)) + size)) →
        (spsc_run size (xs.map SpscCall.enqueue) w).2.2 a = w.2 a := by
  induction xs with
  | nil => intro w cnt h _; exact ⟨rfl, h, rfl, fun _ _ => rfl⟩
  | cons x xs ih =>
    intro w cnt h hl
    simp only [List.length_cons] at hl
    have hne : cnt ≠ 2 ^ k - 1 := by omega
    have hstep : spsc_step size (SpscCall.enqueue x) w =
        (Event.enq_ok (load x 0 size), ({ w.1 with p_tail := u_add w.1.p_tail 1 },
          memcpy w.2 (u_mul size (w.1.p_tail &&& w.1.mask)) x 0 size)) := by
      simp only [spsc_step, enqueue_spsc_ok h hne]
      rfl
    obtain ⟨e1, e2, e3, e4⟩ := ih ({ w.1 with p_tail := u_add w.1.p_tail 1 },
      memcpy w.2 (u_mul size (w.1.p_tail &&& w.1.mask)) x 0 size) (cnt + 1) (idxInv_enq h hne)
      (by omega)
    simp only [List.map_cons, spsc_run, hstep, e1, List.length_cons]
    refine ⟨trivial, ?_, e3, ?_⟩
    · have : cnt + (xs.length + 1) = cnt + 1 + xs.length := by omega
      rw [this]
      exact e2
    · intro a ha
      rw [e4 a]
      · have h0 := ha 0 (Nat.succ_pos _)
        rw [Nat.add_zero, ← h.tail_eq, ← h.mask_eq] at h0
        show memcpy w.2 (u_mul size (w.1.p_tail &&& w.1.mask)) x 0 size a = w.2 a
        unfold memcpy
        exact if_neg h0
      · intro i hi
        have h1 := ha (i + 1) (by omega)
        have : cnt + 1 + i = cnt + (i + 1) := by omega
        show ¬ (u_mul size (((w.1.c_head + (cnt + 1 + i)) % UINT_MOD) &&& (2 ^ k - 1)) ≤ a ∧
            a < u_mul size (((w.1.c_head + (cnt + 1 + i)) % UINT_MOD) &&& (2 ^ k - 1)) + size)
        rw [this]
        exact h1

theorem ring_eq_of_inv {k cnt : Nat} {ring : ck_ring} (h : IdxInv k cnt ring)
    (hc : ring.c_head = 0) (hcnt : cnt < UINT_MOD) :
    ring = ⟨0, cnt, 2 ^ k, 2 ^ k - 1⟩ := by
  have h1 := h.size_eq
  have h2 := h.mask_eq
  have h3 := h.tail_eq
  rw [hc, Nat.zero_add, Nat.mod_eq_of_lt hcnt] at h3
  cases ring
  simp only [ck_ring.mk.injEq]
  exact ⟨hc, h3, h1, h2⟩

/-- With 8-byte records and capacity `2 ^ 30`, the slot reached after `2 ^ 29` enqueues is
written at byte offset `8 * 2 ^ 29 mod 2 ^ 32 = 0`, over the oldest record. -/
theorem fifo_alias (ring0 : ck_ring) (buf0 : Mem) (xs : List Mem) (y t : Mem)
    (hlen : xs.length = 536870912) (hy : ∀ x ∈ xs, load x 0 8 ≠ load y 0 8) :
    ¬ FifoOrder 8 1073741824 ring0 buf0 (xs.map SpscCall.enqueue ++
      [SpscCall.enqueue y, SpscCall.dequeue t]) := by
  rintro ⟨held, h1, -, -⟩
  rw [ptr_run_eq, spsc_run_append] at h1
  have hinit : IdxInv 30 0 (ck_ring_init ring0 1073741824, buf0).1 := idxInv_init (by decide) ring0
  obtain ⟨e1, e2, e3, -⟩ := spsc_fill_idx 30 8 xs (ck_ring_init ring0 1073741824, buf0) 0
    hinit (by rw [hlen]; decide)
  have hring := ring_eq_of_inv e2 e3 (by rw [hlen]; decide)
  rw [hlen] at hring
  generalize hw : (spsc_run 8 (xs.map SpscCall.enqueue) (ck_ring_init ring0 1073741824, buf0)).2
    = w1 at h1 hring
  obtain ⟨ring1, buf1⟩ := w1
  simp only [] at hring
  subst hring
  rw [e1] at h1
  have hE : _ck_ring_enqueue_spsc ⟨0, 0 + 536870912, 2 ^ 30, 2 ^ 30 - 1⟩ buf1 y 8 =
      (true, ⟨0, 536870913, 2 ^ 30, 2 ^ 30 - 1⟩, memcpy buf1 0 y 0 8) := rfl
  have hD : _ck_ring_dequeue_spsc ⟨0, 536870913, 2 ^ 30, 2 ^ 30 - 1⟩ (memcpy buf1 0 y 0 8) t 8 =
      (true, ⟨1, 536870913, 2 ^ 30, 2 ^ 30 - 1⟩, memcpy t 0 (memcpy buf1 0 y 0 8) 0 8) := rfl
  simp only [spsc_run, spsc_step, hE, hD, if_true, load_memcpy_same, enqueued_append,
    dequeued_append, enqueued, dequeued, List.nil_append, List.append_nil] at h1
  have hmap : ∀ zs : List Mem, enqueued (zs.map (fun x => Event.enq_ok (load x 0 8))) =
      zs.map (fun x => load x 0 8) ∧
      dequeued (zs.map (fun x => Event.enq_ok (load x 0 8))) = [] := by
    intro zs
    induction zs with
    | nil => exact ⟨rfl, rfl⟩
    | cons z zs ih => simp [enqueued, dequeued, ih]
  rw [(hmap xs).1, (hmap xs).2] at h1
  cases xs with
  | nil => simp at hlen
  | cons x xs =>
    simp only [List.map_cons, List.cons_append, List.nil_append, List.cons.injEq] at h1
    exact hy x (List.mem_cons_self _ _) h1.1

/-- C1 (amended): FIFO order of `ck_ring_enqueue_spsc` / `ck_ring_dequeue_spsc`.  For a ring
initialised with capacity `2 ^ k` (`k < 32`, the capacity being an `unsigned int`) whose last
slot starts below `2 ^ 32` bytes,
`sizeof(void *) * (2 ^ k - 1) < 2 ^ 32`, and for every sequence of calls: the records returned
by the successful dequeues are a beginning of the records accepted by the successful enqueues,
the rest has as many records as `ck_ring_size` reports, and the next dequeues return exactly
that rest in order. -/
theorem fifo_order_spsc (k sizeof_ptr : Nat) (hk : k < 32)
    (hfit : sizeof_ptr * (2 ^ k - 1) < 2 ^ 32) (ring0 : ck_ring) (buf0 : Mem)
    (calls : List SpscCall) : FifoOrder sizeof_ptr (2 ^ k) ring0 buf0 calls := by
  have hfit' : sizeof_ptr * (2 ^ k - 1) < UINT_MOD := by rw [UINT_MOD_eq]; exact hfit
  obtain ⟨q, hq, e⟩ := spsc_run_holds hfit' calls _ [] (holds_init hk sizeof_ptr ring0 buf0)
  refine ⟨q, ?_, ?_, ?_⟩
  · rw [ptr_run_eq]
    simpa using e
  · rw [ptr_run_eq, size_eq_cnt hq.1]
  · intro targets ht
    rw [ptr_run_eq, ptr_run_eq]
    exact (spsc_drain hfit' q _ targets hq ht).1

/-- FIFO order at a concrete input: 8-byte entries in a ring of capacity 8. -/
theorem fifo_order_spsc_witness :
    3 < 32 ∧ 8 * (2 ^ 3 - 1) < 2 ^ 32 ∧
      FifoOrder 8 (2 ^ 3) ⟨7, 7, 7, 7⟩ (fun _ => 0)
        [SpscCall.enqueue (fun _ => 1), SpscCall.enqueue (fun _ => 2),
          SpscCall.dequeue (fun _ => 0)] :=
  ⟨by decide, by decide, fifo_order_spsc 3 8 (by decide) (by decide) _ _ _⟩

/-- Without the bound on the slot storage FIFO order fails: with 8-byte entries and capacity
`2 ^ 30`, after `2 ^ 29` enqueues of the entry `00..00` the enqueue of `01..01` is stored at
byte offset `8 * 2 ^ 29 mod 2 ^ 32 = 0`, so the first dequeue returns `01..01`. -/
theorem fifo_order_spsc_counterexample :
    ¬ FifoOrder 8 (2 ^ 30) ⟨0, 0, 0, 0⟩ (fun _ => 0)
      ((List.replicate (2 ^ 29) (fun _ => 0)).map SpscCall.enqueue ++
        [SpscCall.enqueue (fun _ => 1), SpscCall.dequeue (fun _ => 0)]) :=
  fifo_alias _ _ _ _ _ ((List.length_replicate _ _).trans (by norm_num))
    (fun x hx => by rw [List.eq_of_mem_replicate hx]; decide)

/-- C2: capacity bound.  For a ring initialised with capacity `2 ^ k` (`k < 32`, the capacity
being an `unsigned int`) and every sequence of sequentially executed calls of any enqueue or
dequeue variant, every prefix of the sequence runs to completion, and after it the number of
successful enqueues minus the number of successful dequeues is at least `0` and at most
`2 ^ k - 1`. -/
theorem capacity_bound (k : Nat) (hk : k < 32) (ring0 : ck_ring) (buf0 : Mem) (fuel : Nat)
    (calls : List Call) (n : Nat) :
    ∃ (evs : List Event) (w : World),
      run (fuel + 1) (calls.take n) (ck_ring_init ring0 (2 ^ k), buf0) = some (evs, w) ∧
      (0 : Int) ≤ ((enqueued evs).length : Int) - ((dequeued evs).length : Int) ∧
      ((enqueued evs).length : Int) - ((dequeued evs).length : Int) ≤ (2 : Int) ^ k - 1 := by
  obtain ⟨r, hr⟩ := run_total fuel (calls.take n) (ck_ring_init ring0 (2 ^ k), buf0)
  obtain ⟨cnt, hi, hc⟩ := run_inv (fuel + 1) (calls.take n) _ 0 r.1 r.2
    (idxInv_init hk ring0) hr
  refine ⟨r.1, r.2, hr, ?_, ?_⟩
  · omega
  · have hle := hi.cnt_le
    have hpos := Nat.two_pow_pos k
    have hN : ((2 ^ k : Nat) : Int) = (2 : Int) ^ k := by norm_cast
    rw [← hN]
    omega

/-- The capacity bound at a concrete input: capacity 4, a prefix of three calls. -/
theorem capacity_bound_witness :
    ∃ (evs : List Event) (w : World),
      run (0 + 1) ([Call.enqueue_spsc (fun _ => 1) 4, Call.enqueue_spsc_size (fun _ => 2) 4,
        Call.dequeue_spmc (fun _ => 0) 4, Call.trydequeue_spmc (fun _ => 0) 4].take 3)
        (ck_ring_init ⟨7, 7, 7, 7⟩ (2 ^ 2), fun _ => 0) = some (evs, w) ∧
      (0 : Int) ≤ ((enqueued evs).length : Int) - ((dequeued evs).length : Int) ∧
      ((enqueued evs).length : Int) - ((dequeued evs).length : Int) ≤ (2 : Int) ^ 2 - 1 :=
  capacity_bound 2 (by decide) _ _ _ _ _

/-- C4: full ring rejection.  In the state `w` reached from `ck_ring_init` with capacity `2 ^ k`
(`k < 32`) by any sequence of sequentially executed calls, `_ck_ring_enqueue_spsc` returns
false exactly when `ck_ring_size` is `2 ^ k - 1`, that is exactly when the successful
enqueues exceed the successful dequeues by `2 ^ k - 1`; and when it returns false the ring
(`c_head`, `p_tail`, `size`, `mask`) and every byte of the slot storage are unchanged. -/
theorem full_rejection (k : Nat) (hk : k < 32) (ring0 : ck_ring) (buf0 : Mem) (fuel : Nat)
    (calls : List Call) (evs : List Event) (w : World)
    (hrun : run fuel calls (ck_ring_init ring0 (2 ^ k), buf0) = some (evs, w))
    (source : Mem) (size : Nat) :
    ((_ck_ring_enqueue_spsc w.1 w.2 source size).1 = false ↔ ck_ring_size w.1 = 2 ^ k - 1) ∧
    ((_ck_ring_enqueue_spsc w.1 w.2 source size).1 = false ↔
      (enqueued evs).length = (dequeued evs).length + (2 ^ k - 1)) ∧
    ((_ck_ring_enqueue_spsc w.1 w.2 source size).1 = false →
      (_ck_ring_enqueue_spsc w.1 w.2 source size).2 = w) := by
  obtain ⟨cnt, hi, hc⟩ := run_inv fuel calls _ 0 evs w (idxInv_init hk ring0) hrun
  rw [size_eq_cnt hi]
  by_cases hfull : cnt = 2 ^ k - 1
  · rw [enqueue_spsc_full hi hfull]
    refine ⟨by simp [hfull], ?_, fun _ => rfl⟩
    constructor
    · intro _; omega
    · intro _; rfl
  · rw [enqueue_spsc_ok hi hfull]
    refine ⟨by simp [hfull], ?_, fun h => by simp at h⟩
    constructor
    · intro h; simp at h
    · intro h; exact absurd (by omega) hfull

/-- Full ring rejection at a concrete state: capacity 2 after one successful enqueue. -/
theorem full_rejection_witness :
    ((_ck_ring_enqueue_spsc ⟨0, 1, 2, 1⟩ (memcpy (fun _ => 0) 0 (fun _ => 1) 0 4)
        (fun _ => 2) 4).1 = false ↔ ck_ring_size ⟨0, 1, 2, 1⟩ = 2 ^ 1 - 1) ∧
    ((_ck_ring_enqueue_spsc ⟨0, 1, 2, 1⟩ (memcpy (fun _ => 0) 0 (fun _ => 1) 0 4)
        (fun _ => 2) 4).1 = false ↔
      (enqueued [Event.enq_ok [1, 1, 1, 1]]).length =
        (dequeued [Event.enq_ok [1, 1, 1, 1]]).length + (2 ^ 1 - 1)) ∧
    ((_ck_ring_enqueue_spsc ⟨0, 1, 2, 1⟩ (memcpy (fun _ => 0) 0 (fun _ => 1) 0 4)
        (fun _ => 2) 4).1 = false →
      (_ck_ring_enqueue_spsc ⟨0, 1, 2, 1⟩ (memcpy (fun _ => 0) 0 (fun _ => 1) 0 4)
        (fun _ => 2) 4).2 = (⟨0, 1, 2, 1⟩, memcpy (fun _ => 0) 0 (fun _ => 1) 0 4)) :=
  full_rejection 1 (by decide) ⟨7, 7, 7, 7⟩ (fun _ => 0) 1 [Call.enqueue_spsc (fun _ => 1) 4]
    [Event.enq_ok [1, 1, 1, 1]] (⟨0, 1, 2, 1⟩, memcpy (fun _ => 0) 0 (fun _ => 1) 0 4) rfl
    (fun _ => 2) 4

/-- C5: empty ring rejection.  In the state `w` reached from `ck_ring_init` with capacity
`2 ^ k` (`k < 32`) by any sequence of sequentially executed calls, `_ck_ring_dequeue_spsc`
returns false exactly when `ck_ring_size` is `0`, which is exactly when `c_head = p_tail`;
when it returns false the ring and the caller's output record are unchanged (the slot storage
is never written by a dequeue); and a dequeue immediately after init returns false and
leaves the ring and the output record as they were. -/
theorem empty_rejection (k : Nat) (hk : k < 32) (ring0 : ck_ring) (buf0 : Mem) (fuel : Nat)
    (calls : List Call) (evs : List Event) (w : World)
    (hrun : run fuel calls (ck_ring_init ring0 (2 ^ k), buf0) = some (evs, w))
    (target : Mem) (size : Nat) :
    ((_ck_ring_dequeue_spsc w.1 w.2 target size).1 = false ↔ ck_ring_size w.1 = 0) ∧
    (ck_ring_size w.1 = 0 ↔ w.1.c_head = w.1.p_tail) ∧
    ((_ck_ring_dequeue_spsc w.1 w.2 target size).1 = false →
      (_ck_ring_dequeue_spsc w.1 w.2 target size).2 = (w.1, target)) ∧
    _ck_ring_dequeue_spsc (ck_ring_init ring0 (2 ^ k)) buf0 target size =
      (false, ck_ring_init ring0 (2 ^ k), target) := by
  obtain ⟨cnt, hi, hc⟩ := run_inv fuel calls _ 0 evs w (idxInv_init hk ring0) hrun
  rw [size_eq_cnt hi]
  refine ⟨?_, (empty_iff hi).symm, ?_, rfl⟩
  · by_cases he : cnt = 0
    · rw [dequeue_spsc_empty ((empty_iff hi).2 he)]
      simp [he]
    · rw [dequeue_spsc_ok (fun e => he ((empty_iff hi).1 e))]
      simp [he]
  · by_cases he : cnt = 0
    · rw [dequeue_spsc_empty ((empty_iff hi).2 he)]
      intro _; rfl
    · rw [dequeue_spsc_ok (fun e => he ((empty_iff hi).1 e))]
      intro h; simp at h

/-- Empty ring rejection at a concrete state: capacity 2 after one enqueue and one
dequeue. -/
theorem empty_rejection_witness :
    ((_ck_ring_dequeue_spsc ⟨1, 1, 2, 1⟩ (memcpy (fun _ => 0) 0 (fun _ => 1) 0 4)
        (fun _ => 5) 4).1 = false ↔ ck_ring_size ⟨1, 1, 2, 1⟩ = 0) ∧
    (ck_ring_size ⟨1, 1, 2, 1⟩ = 0 ↔ (1 : Nat) = 1) ∧
    ((_ck_ring_dequeue_spsc ⟨1, 1, 2, 1⟩ (memcpy (fun _ => 0) 0 (fun _ => 1) 0 4)
        (fun _ => 5) 4).1 = false →
      (_ck_ring_dequeue_spsc ⟨1, 1, 2, 1⟩ (memcpy (fun _ => 0) 0 (fun _ => 1) 0 4)
        (fun _ => 5) 4).2 = (⟨1, 1, 2, 1⟩, fun _ => 5)) ∧
    _ck_ring_dequeue_spsc (ck_ring_init ⟨7, 7, 7, 7⟩ (2 ^ 1)) (fun _ => 0) (fun _ => 5) 4 =
      (false, ck_ring_init ⟨7, 7, 7, 7⟩ (2 ^ 1), fun _ => 5) :=
  empty_rejection 1 (by decide) ⟨7, 7, 7, 7⟩ (fun _ => 0) 1
    [Call.enqueue_spsc (fun _ => 1) 4, Call.dequeue_spsc (fun _ => 0) 4]
    [Event.enq_ok [1, 1, 1, 1], Event.deq_ok [1, 1, 1, 1]]
    (⟨1, 1, 2, 1⟩, memcpy (fun _ => 0) 0 (fun _ => 1) 0 4) rfl (fun _ => 5) 4

theorem load_congr (m1 m2 : Mem) (off n : Nat) (h : ∀ i, i < n → m1 (off + i) = m2 (off + i)) :
    load m1 off n = load m2 off n := by
  unfold load
  apply List.map_congr_left
  intro i hi
  exact h i (List.mem_range.1 hi)

/-- C6: full/empty boundary.  For every capacity `2 ^ k` (`k < 32`, so `2 ^ 0 = 1` is included)
and any `2 ^ k - 1` records, after `ck_ring_init` the enqueues of these records all succeed,
and one more enqueue returns false and leaves the ring and every byte of the slot storage as
they were after the last successful enqueue. -/
theorem full_boundary (k : Nat) (hk : k < 32) (size : Nat) (ring0 : ck_ring) (buf0 : Mem)
    (xs : List Mem) (hx : xs.length = 2 ^ k - 1) (x : Mem) :
    (spsc_run size (xs.map SpscCall.enqueue) (ck_ring_init ring0 (2 ^ k), buf0)).1 =
      xs.map (fun s => Event.enq_ok (load s 0 size)) ∧
    _ck_ring_enqueue_spsc
        (spsc_run size (xs.map SpscCall.enqueue) (ck_ring_init ring0 (2 ^ k), buf0)).2.1
        (spsc_run size (xs.map SpscCall.enqueue) (ck_ring_init ring0 (2 ^ k), buf0)).2.2
        x size =
      (false, (spsc_run size (xs.map SpscCall.enqueue) (ck_ring_init ring0 (2 ^ k), buf0)).2.1,
        (spsc_run size (xs.map SpscCall.enqueue) (ck_ring_init ring0 (2 ^ k), buf0)).2.2) := by
  obtain ⟨e1, e2, -, -⟩ := spsc_fill_idx k size xs (ck_ring_init ring0 (2 ^ k), buf0) 0
    (idxInv_init hk ring0) (by omega)
  exact ⟨e1, enqueue_spsc_full e2 (by omega) _ _ _⟩

/-- The boundary at capacity 4: three enqueues succeed, the fourth fails. -/
theorem full_boundary_witness :
    (spsc_run 4 ([fun _ => 1, fun _ => 2, fun _ => 3].map SpscCall.enqueue)
        (ck_ring_init ⟨7, 7, 7, 7⟩ (2 ^ 2), fun _ => 0)).1 =
      [fun _ => 1, fun _ => 2, fun _ => 3].map (fun s => Event.enq_ok (load s 0 4)) ∧
    _ck_ring_enqueue_spsc
        (spsc_run 4 ([fun _ => 1, fun _ => 2, fun _ => 3].map SpscCall.enqueue)
          (ck_ring_init ⟨7, 7, 7, 7⟩ (2 ^ 2), fun _ => 0)).2.1
        (spsc_run 4 ([fun _ => 1, fun _ => 2, fun _ => 3].map SpscCall.enqueue)
          (ck_ring_init ⟨7, 7, 7, 7⟩ (2 ^ 2), fun _ => 0)).2.2
        (fun _ => 4) 4 =
      (false,
        (spsc_run 4 ([fun _ => 1, fun _ => 2, fun _ => 3].map SpscCall.enqueue)
          (ck_ring_init ⟨7, 7, 7, 7⟩ (2 ^ 2), fun _ => 0)).2.1,
        (spsc_run 4 ([fun _ => 1, fun _ => 2, fun _ => 3].map SpscCall.enqueue)
          (ck_ring_init ⟨7, 7, 7, 7⟩ (2 ^ 2), fun _ => 0)).2.2) :=
  full_boundary 2 (by decide) 4 ⟨7, 7, 7, 7⟩ (fun _ => 0) [fun _ => 1, fun _ => 2, fun _ => 3]
    (by decide) (fun _ => 4)

/-- C7 (amended): round trip.  For every capacity `2 ^ k` (`k < 32`), every record width `size`
with `size * (2 ^ k - 1) < 2 ^ 32` and every list of `2 ^ k - 1` records, after `ck_ring_init`
the enqueues all succeed, the next `2 ^ k - 1` dequeues return the records in the same order,
and one more dequeue reports empty. -/
theorem round_trip (k size : Nat) (hk : k < 32) (hfit : size * (2 ^ k - 1) < 2 ^ 32)
    (ring0 : ck_ring) (buf0 : Mem) (xs targets : List Mem) (last : Mem)
    (hx : xs.length = 2 ^ k - 1) (ht : targets.length = 2 ^ k - 1) :
    RoundTrip size (2 ^ k) ring0 buf0 xs targets last := by
  have hfit' : size * (2 ^ k - 1) < UINT_MOD := by rw [UINT_MOD_eq]; exact hfit
  unfold RoundTrip
  rw [spsc_run_append, spsc_run_append]
  obtain ⟨e1, h1⟩ := spsc_fill hfit' xs _ [] (holds_init hk size ring0 buf0)
    (by simp only [List.length_nil]; omega)
  obtain ⟨e2, h2⟩ := spsc_drain hfit' _ _ targets h1 (by simp [ht, hx])
  simp only [List.nil_append] at e2
  simp only [e1, e2, spsc_run, spsc_step_dequeue_empty h2 last, List.map_map]
  rfl

/-- The round trip at capacity 8 with the records 1 to 7 (4 bytes each). -/
theorem round_trip_witness :
    RoundTrip 4 (2 ^ 3) ⟨7, 7, 7, 7⟩ (fun _ => 0)
      [fun _ => 1, fun _ => 2, fun _ => 3, fun _ => 4, fun _ => 5, fun _ => 6, fun _ => 7]
      [fun _ => 0, fun _ => 0, fun _ => 0, fun _ => 0, fun _ => 0, fun _ => 0, fun _ => 0]
      (fun _ => 0) :=
  round_trip 3 4 (by decide) (by decide) _ _ _ _ _ (by decide) (by decide)

/-- With 8-byte records and capacity `2 ^ 30`, slot `2 ^ 29` is stored over slot `0`, and no
later enqueue of the fill writes those 8 bytes again. -/
theorem roundtrip_alias (ring0 : ck_ring) (buf0 : Mem) (xs1 xs2 : List Mem) (y t : Mem)
    (ts : List Mem) (last : Mem) (hlen1 : xs1.length = 536870912)
    (hlen2 : xs2.length = 536870910) (hy : ∀ x ∈ xs1, load x 0 8 ≠ load y 0 8) :
    ¬ RoundTrip 8 1073741824 ring0 buf0 (xs1 ++ y :: xs2) (t :: ts) last := by
  unfold RoundTrip
  intro h
  rw [spsc_run_append, spsc_run_append] at h
  have hinit : IdxInv 30 0 (ck_ring_init ring0 1073741824, buf0).1 :=
    idxInv_init (by decide) ring0
  -- the whole fill: events and final ring
  have hlen : (xs1 ++ y :: xs2).length = 1073741823 := by
    rw [List.length_append, List.length_cons, hlen1, hlen2]
  obtain ⟨f1, f2, f3, -⟩ := spsc_fill_idx 30 8 (xs1 ++ y :: xs2)
    (ck_ring_init ring0 1073741824, buf0) 0 hinit (by rw [hlen]; decide)
  have hringF := ring_eq_of_inv f2 f3 (by rw [hlen]; decide)
  rw [hlen] at hringF
  -- the fill in three parts: bytes 0..7 of the final slot storage
  have hbytes : ∀ a, a < 8 →
      (spsc_run 8 ((xs1 ++ y :: xs2).map SpscCall.enqueue)
        (ck_ring_init ring0 1073741824, buf0)).2.2 a = y a := by
    intro a ha
    rw [List.map_append, spsc_run_append]
    obtain ⟨-, e2, e3, -⟩ := spsc_fill_idx 30 8 xs1
      (ck_ring_init ring0 1073741824, buf0) 0 hinit (by rw [hlen1]; decide)
    have hring1 := ring_eq_of_inv e2 e3 (by rw [hlen1]; decide)
    rw [hlen1] at hring1
    generalize (spsc_run 8 (xs1.map SpscCall.enqueue)
      (ck_ring_init ring0 1073741824, buf0)).2 = w1 at hring1 ⊢
    obtain ⟨ring1, buf1⟩ := w1
    simp only [] at hring1
    subst hring1
    have hE : _ck_ring_enqueue_spsc ⟨0, 0 + 536870912, 2 ^ 30, 2 ^ 30 - 1⟩ buf1 y 8 =
        (true, ⟨0, 536870913, 2 ^ 30, 2 ^ 30 - 1⟩, memcpy buf1 0 y 0 8) := rfl
    simp only [List.map_cons, spsc_run, spsc_step, hE]
    have hinv2 : IdxInv 30 536870913 ⟨0, 536870913, 2 ^ 30, 2 ^ 30 - 1⟩ :=
      ⟨by decide, rfl, rfl, by decide, by decide, by decide⟩
    obtain ⟨-, -, -, g4⟩ := spsc_fill_idx 30 8 xs2
      (⟨0, 536870913, 2 ^ 30, 2 ^ 30 - 1⟩, memcpy buf1 0 y 0 8) 536870913 hinv2
      (by rw [hlen2]; decide)
    rw [g4 a]
    · show memcpy buf1 0 y 0 8 a = y a
      unfold memcpy
      rw [if_pos ⟨Nat.zero_le _, by omega⟩]
      simp
    · intro i hi
      rw [hlen2] at hi
      rw [land_mask]
      show ¬ (u_mul 8 ((0 + (536870913 + i)) % UINT_MOD % 2 ^ 30) ≤ a ∧
        a < u_mul 8 ((0 + (536870913 + i)) % UINT_MOD % 2 ^ 30) + 8)
      unfold u_mul UINT_MOD
      norm_num
      omega
  -- the first dequeue
  generalize hF : (spsc_run 8 ((xs1 ++ y :: xs2).map SpscCall.enqueue)
    (ck_ring_init ring0 1073741824, buf0)) = F at h f1 hringF hbytes
  obtain ⟨evF, ringF, bufF⟩ := F
  simp only [] at h f1 hringF hbytes
  subst hringF
  subst f1
  have hD : _ck_ring_dequeue_spsc ⟨0, 0 + 1073741823, 2 ^ 30, 2 ^ 30 - 1⟩ bufF t 8 =
      (true, ⟨1, 1073741823, 2 ^ 30, 2 ^ 30 - 1⟩, memcpy t 0 bufF 0 8) := rfl
  rw [List.append_assoc, List.append_assoc] at h
  have h' := List.append_cancel_left h
  cases xs1 with
  | nil => simp at hlen1
  | cons x xs1 =>
    simp only [List.map_cons, spsc_run, spsc_step, hD, if_true, load_memcpy_same,
      List.cons_append, List.cons.injEq, Event.deq_ok.injEq] at h'
    have hl : load bufF 0 8 = load y 0 8 :=
      load_congr _ _ _ _ (fun i hi => by rw [Nat.zero_add]; exact hbytes i hi)
    rw [hl] at h'
    exact hy x (List.mem_cons_self _ _) h'.1.symm

/-- Without the bound on the slot storage the round trip fails: with 8-byte records and
capacity `2 ^ 30`, the record `01..01` enqueued in position `2 ^ 29` is stored at byte offset
`8 * 2 ^ 29 mod 2 ^ 32 = 0`, over the first record `00..00`, so the first dequeue does not
return the first record. -/
theorem round_trip_counterexample :
    ¬ RoundTrip 8 (2 ^ 30) ⟨0, 0, 0, 0⟩ (fun _ => 0)
      (List.replicate (2 ^ 29) (fun _ => 0) ++
        (fun _ => 1) :: List.replicate (2 ^ 29 - 2) (fun _ => 0))
      ((fun _ => 0) :: List.replicate (2 ^ 30 - 2) (fun _ => 0)) (fun _ => 0) :=
  roundtrip_alias _ _ _ _ _ _ _ _ ((List.length_replicate _ _).trans (by norm_num))
    ((List.length_replicate _ _).trans (by norm_num))
    (fun x hx => by rw [List.eq_of_mem_replicate hx]; decide)

theorem u_sub_cast (p c : Nat) :
    ((u_sub p c : Nat) : Int) = ((p : Int) - (c : Int)) % 4294967296 := by
  unfold u_sub UINT_MOD
  omega

/-- C8: size.  Whenever the capacity is `2 ^ k` (`k < 32`) and `mask = capacity - 1`,
`ck_ring_size` returns `(p_tail - c_head) mod capacity`, the subtraction being taken modulo
`2 ^ 32`; and in the state `w` reached from `ck_ring_init` with capacity `2 ^ k` by any
sequence of sequentially executed calls, `ck_ring_size` is the number of successful enqueues
minus the number of successful dequeues. -/
theorem size_is_occupancy (k : Nat) (hk : k < 32) (ring : ck_ring) (hsize : ring.size = 2 ^ k)
    (hmask : ring.mask = ring.size - 1) (ring0 : ck_ring) (buf0 : Mem) (fuel : Nat)
    (calls : List Call) (evs : List Event) (w : World)
    (hrun : run fuel calls (ck_ring_init ring0 (2 ^ k), buf0) = some (evs, w)) :
    (ck_ring_size ring : Int) =
      ((ring.p_tail : Int) - (ring.c_head : Int)) % 2 ^ 32 % (ck_ring_capacity ring : Int) ∧
    (ck_ring_size ring : Int) =
      ((ring.p_tail : Int) - (ring.c_head : Int)) % (ck_ring_capacity ring : Int) ∧
    (ck_ring_size w.1 : Int) = ((enqueued evs).length : Int) - ((dequeued evs).length : Int) := by
  have h1 : (ck_ring_size ring : Int) =
      ((ring.p_tail : Int) - (ring.c_head : Int)) % 2 ^ 32 % (ck_ring_capacity ring : Int) := by
    unfold ck_ring_size ck_ring_capacity
    simp only []
    rw [hmask, hsize, land_mask, Int.natCast_mod, u_sub_cast]
    norm_num
  refine ⟨h1, ?_, ?_⟩
  · rw [h1]
    apply Int.emod_emod_of_dvd
    unfold ck_ring_capacity
    rw [hsize]
    have : ((2 ^ k : Nat) : Int) = (2 : Int) ^ k := by norm_cast
    rw [this]
    exact pow_dvd_pow 2 (Nat.le_of_lt hk)
  · obtain ⟨cnt, hi, hc⟩ := run_inv fuel calls _ 0 evs w (idxInv_init hk ring0) hrun
    rw [size_eq_cnt hi]
    omega

/-- The reported size at concrete states: a ring of capacity 4 whose producer index has
wrapped, and the state of a ring of capacity 2 after one enqueue. -/
theorem size_is_occupancy_witness :
    (ck_ring_size ⟨4294967295, 1, 4, 3⟩ : Int) =
      (((1 : Nat) : Int) - ((4294967295 : Nat) : Int)) % 2 ^ 32 %
        (ck_ring_capacity ⟨4294967295, 1, 4, 3⟩ : Int) ∧
    (ck_ring_size ⟨4294967295, 1, 4, 3⟩ : Int) =
      (((1 : Nat) : Int) - ((4294967295 : Nat) : Int)) %
        (ck_ring_capacity ⟨4294967295, 1, 4, 3⟩ : Int) ∧
    (ck_ring_size ⟨0, 1, 4, 3⟩ : Int) =
      ((enqueued [Event.enq_ok [1, 1, 1, 1]]).length : Int) -
        ((dequeued [Event.enq_ok [1, 1, 1, 1]]).length : Int) :=
  size_is_occupancy 2 (by decide) ⟨4294967295, 1, 4, 3⟩ rfl rfl ⟨7, 7, 7, 7⟩ (fun _ => 0) 1
    [Call.enqueue_spsc (fun _ => 1) 4] [Event.enq_ok [1, 1, 1, 1]]
    (⟨0, 1, 4, 3⟩, memcpy (fun _ => 0) 0 (fun _ => 1) 0 4) rfl

/-- C9: `ck_ring_init(ring, N)` sets `c_head = 0`, `p_tail = 0`, `size = N` and
`mask = N - 1` (computed as an `unsigned int`) whatever `ring` held before; afterwards
`ck_ring_capacity` returns `N`, `ck_ring_size` returns `0`, and `_ck_ring_dequeue_spsc`,
`_ck_ring_trydequeue_spmc` and `_ck_ring_dequeue_spmc` (and their pointer-sized wrappers)
return false, leaving the ring and the output record as they were. -/
theorem init_state (ring : ck_ring) (N : Nat) (buffer data : Mem) (size : Nat) (env : Env)
    (envs : Nat → Env) (fuel : Nat) :
    (ck_ring_init ring N).c_head = 0 ∧ (ck_ring_init ring N).p_tail = 0 ∧
    (ck_ring_init ring N).size = N ∧
    ((ck_ring_init ring N).mask : Int) = ((N : Int) - 1) % 2 ^ 32 ∧
    ((1 ≤ N ∧ N ≤ 2 ^ 32 ∧ (ck_ring_init ring N).mask = N - 1) ∨
      (N = 0 ∧ (ck_ring_init ring N).mask = 2 ^ 32 - 1) ∨ 2 ^ 32 < N) ∧
    ck_ring_capacity (ck_ring_init ring N) = N ∧
    ck_ring_size (ck_ring_init ring N) = 0 ∧
    _ck_ring_dequeue_spsc (ck_ring_init ring N) buffer data size =
      (false, ck_ring_init ring N, data) ∧
    _ck_ring_trydequeue_spmc env (ck_ring_init ring N) buffer data size =
      (false, ck_ring_init ring N, data) ∧
    _ck_ring_dequeue_spmc (fuel + 1) envs (ck_ring_init ring N) buffer data size =
      some (false, ck_ring_init ring N, data) ∧
    ck_ring_dequeue_spsc size (ck_ring_init ring N) buffer data =
      (false, ck_ring_init ring N, data) ∧
    ck_ring_trydequeue_spmc size env (ck_ring_init ring N) buffer data =
      (false, ck_ring_init ring N, data) ∧
    ck_ring_dequeue_spmc size (fuel + 1) envs (ck_ring_init ring N) buffer data =
      some (false, ck_ring_init ring N, data) := by
  refine ⟨rfl, rfl, rfl, ?_, ?_, rfl, ?_, rfl, rfl, rfl, rfl, rfl, rfl⟩
  · show ((u_sub N 1 : Nat) : Int) = ((N : Int) - 1) % 2 ^ 32
    rw [u_sub_cast]
    norm_num
  · show (1 ≤ N ∧ N ≤ 2 ^ 32 ∧ u_sub N 1 = N - 1) ∨ (N = 0 ∧ u_sub N 1 = 2 ^ 32 - 1) ∨ 2 ^ 32 < N
    unfold u_sub UINT_MOD
    norm_num
    omega
  · show (u_sub 0 0) &&& (u_sub N 1) = 0
    have : u_sub 0 0 = 0 := by decide
    rw [this, Nat.zero_and]

/-- On a ring whose mask is `2 ^ k - 1`, a successful enqueue raises the reported size by
one, whatever the two indices are. -/
theorem size_succ_of_enqueue {k : Nat} (hk : k < 32) (p c : Nat)
    (hne : (u_add p 1) % 2 ^ k ≠ c % 2 ^ k) :
    (u_sub (u_add p 1) c) % 2 ^ k = (u_sub p c) % 2 ^ k + 1 := by
  have hdvd := pow_dvd_UINT_MOD hk
  have hpos := Nat.two_pow_pos k
  have hM : 0 < UINT_MOD := by unfold UINT_MOD; omega
  have hcM : c % UINT_MOD < UINT_MOD := Nat.mod_lt _ hM
  -- both sizes modulo the capacity
  have hA : u_sub (u_add p 1) c ≡ (p + 1) + (UINT_MOD - c % UINT_MOD) [MOD 2 ^ k] := by
    unfold u_sub u_add
    have e3 : (p + 1) % UINT_MOD + UINT_MOD - c % UINT_MOD =
        (p + 1) % UINT_MOD + (UINT_MOD - c % UINT_MOD) := by omega
    rw [e3]
    have e1 : ((p + 1) % UINT_MOD + (UINT_MOD - c % UINT_MOD)) % UINT_MOD ≡
        (p + 1) % UINT_MOD + (UINT_MOD - c % UINT_MOD) [MOD 2 ^ k] :=
      (Nat.mod_modEq _ _).of_dvd hdvd
    have e2 : (p + 1) % UINT_MOD ≡ p + 1 [MOD 2 ^ k] := (Nat.mod_modEq _ _).of_dvd hdvd
    exact e1.trans (e2.add_right _)
  have hB : u_sub p c ≡ p + (UINT_MOD - c % UINT_MOD) [MOD 2 ^ k] := by
    unfold u_sub
    have e3 : p + UINT_MOD - c % UINT_MOD = p + (UINT_MOD - c % UINT_MOD) := by omega
    rw [e3]
    exact (Nat.mod_modEq _ _).of_dvd hdvd
  have hAB : u_sub (u_add p 1) c ≡ u_sub p c + 1 [MOD 2 ^ k] := by
    have e : (p + 1) + (UINT_MOD - c % UINT_MOD) = p + (UINT_MOD - c % UINT_MOD) + 1 := by omega
    rw [e] at hA
    exact hA.trans (hB.symm.add_right 1)
  have hlt : u_sub p c % 2 ^ k < 2 ^ k := Nat.mod_lt _ hpos
  have hstep : u_sub (u_add p 1) c % 2 ^ k = (u_sub p c % 2 ^ k + 1) % 2 ^ k := by
    have e : u_sub p c + 1 ≡ u_sub p c % 2 ^ k + 1 [MOD 2 ^ k] :=
      (Nat.mod_modEq _ _).symm.add_right 1
    exact hAB.trans e
  by_cases hwrap : u_sub p c % 2 ^ k + 1 = 2 ^ k
  · exfalso
    apply hne
    -- the size after would be 0, so `p + 1` and `c` agree modulo the capacity
    have h0 : (p + 1) + (UINT_MOD - c % UINT_MOD) ≡ 0 [MOD 2 ^ k] := by
      have : u_sub (u_add p 1) c ≡ 0 [MOD 2 ^ k] := by
        show u_sub (u_add p 1) c % 2 ^ k = 0 % 2 ^ k
        rw [hstep, hwrap]
        simp
      exact hA.symm.trans this
    have h1 : (p + 1) + (UINT_MOD - c % UINT_MOD) + c % UINT_MOD ≡ 0 + c % UINT_MOD
        [MOD 2 ^ k] := h0.add_right _
    have h2 : (p + 1) + (UINT_MOD - c % UINT_MOD) + c % UINT_MOD = (p + 1) + UINT_MOD := by
      omega
    rw [h2, Nat.zero_add] at h1
    have h3 : (p + 1) + UINT_MOD ≡ p + 1 [MOD 2 ^ k] := by
      have : UINT_MOD ≡ 0 [MOD 2 ^ k] := (Nat.modEq_zero_iff_dvd).2 hdvd
      simpa using this.add_left (p + 1)
    have h4 : c % UINT_MOD ≡ c [MOD 2 ^ k] := (Nat.mod_modEq _ _).of_dvd hdvd
    have h5 : u_add p 1 ≡ p + 1 [MOD 2 ^ k] := (Nat.mod_modEq _ _).of_dvd hdvd
    exact h5.trans (h3.symm.trans (h1.trans h4))
  · rw [hstep]
    exact Nat.mod_eq_of_lt (by omega)

/-- C10: `_ck_ring_enqueue_spsc_size` returns, for every ring state and record, the same
boolean and leaves the same ring and slot storage as `_ck_ring_enqueue_spsc`, and stores in
`*size` the value `(p_tail - c_head) & mask` of the indices it read.  On success
`ck_ring_size` afterwards is `*size + 1`: for every ring whose mask is `2 ^ k - 1` (`k < 32`),
whatever its indices, and so in the state `w` reached from `ck_ring_init` with capacity `2 ^ k`
by any sequence of sequentially executed calls.  On failure in such a state `w`, `*size` is
`capacity - 1`. -/
theorem enqueue_spsc_size_agrees (k : Nat) (hk : k < 32) (ring : ck_ring) (buffer entry : Mem)
    (type_size : Nat) (ring0 : ck_ring) (buf0 : Mem) (fuel : Nat) (calls : List Call)
    (evs : List Event) (w : World)
    (hrun : run fuel calls (ck_ring_init ring0 (2 ^ k), buf0) = some (evs, w)) :
    ((_ck_ring_enqueue_spsc_size ring buffer entry type_size).1 =
        (_ck_ring_enqueue_spsc ring buffer entry type_size).1 ∧
      (_ck_ring_enqueue_spsc_size ring buffer entry type_size).2.1 =
        (_ck_ring_enqueue_spsc ring buffer entry type_size).2.1 ∧
      (_ck_ring_enqueue_spsc_size ring buffer entry type_size).2.2.1 =
        (_ck_ring_enqueue_spsc ring buffer entry type_size).2.2 ∧
      (_ck_ring_enqueue_spsc_size ring buffer entry type_size).2.2.2 =
        (u_sub ring.p_tail ring.c_head) &&& ring.mask) ∧
    (ring.mask = 2 ^ k - 1 →
      (_ck_ring_enqueue_spsc_size ring buffer entry type_size).1 = true →
      ck_ring_size (_ck_ring_enqueue_spsc_size ring buffer entry type_size).2.1 =
        (_ck_ring_enqueue_spsc_size ring buffer entry type_size).2.2.2 + 1) ∧
    ((_ck_ring_enqueue_spsc_size w.1 w.2 entry type_size).1 = true →
      ck_ring_size (_ck_ring_enqueue_spsc_size w.1 w.2 entry type_size).2.1 =
        (_ck_ring_enqueue_spsc_size w.1 w.2 entry type_size).2.2.2 + 1) ∧
    ((_ck_ring_enqueue_spsc_size w.1 w.2 entry type_size).1 = false →
      (_ck_ring_enqueue_spsc_size w.1 w.2 entry type_size).2.2.2 =
        ck_ring_capacity w.1 - 1) := by
  have hsucc : ∀ (r : ck_ring) (b : Mem), r.mask = 2 ^ k - 1 →
      (_ck_ring_enqueue_spsc_size r b entry type_size).1 = true →
      ck_ring_size (_ck_ring_enqueue_spsc_size r b entry type_size).2.1 =
        (_ck_ring_enqueue_spsc_size r b entry type_size).2.2.2 + 1 := by
    intro r b hmask
    unfold _ck_ring_enqueue_spsc_size
    simp only []
    split
    · intro h; simp at h
    · rename_i hne
      intro _
      rw [hmask, land_mask, land_mask] at hne
      show (u_sub (u_add r.p_tail 1) r.c_head) &&& r.mask =
        ((u_sub r.p_tail r.c_head) &&& r.mask) + 1
      rw [hmask, land_mask, land_mask]
      exact size_succ_of_enqueue hk _ _ hne
  obtain ⟨cnt, hi, hc⟩ := run_inv fuel calls _ 0 evs w (idxInv_init hk ring0) hrun
  refine ⟨?_, hsucc ring buffer, hsucc w.1 w.2 hi.mask_eq, ?_⟩
  · rw [enqueue_spsc_size_eq]
    exact ⟨rfl, rfl, rfl, rfl⟩
  · rw [enqueue_spsc_size_eq]
    by_cases hfull : cnt = 2 ^ k - 1
    · intro _
      show (u_sub w.1.p_tail w.1.c_head) &&& w.1.mask = ck_ring_capacity w.1 - 1
      have := size_eq_cnt hi
      unfold ck_ring_size at this
      simp only [] at this
      rw [this, hfull]
      unfold ck_ring_capacity
      rw [hi.size_eq]
    · rw [enqueue_spsc_ok hi hfull]
      intro h; simp at h

/-- The size-reporting enqueue at concrete states: a ring of capacity 4 whose producer index
has wrapped accepts a record and reports one less than the size afterwards; the full state of
a ring of capacity 2 after one enqueue reports `capacity - 1`. -/
theorem enqueue_spsc_size_agrees_witness :
    ck_ring_size (_ck_ring_enqueue_spsc_size ⟨4294967295, 1, 4, 3⟩ (fun _ => 0)
        (fun _ => 1) 4).2.1 =
      (_ck_ring_enqueue_spsc_size ⟨4294967295, 1, 4, 3⟩ (fun _ => 0) (fun _ => 1) 4).2.2.2 + 1 ∧
    (_ck_ring_enqueue_spsc_size ⟨0, 1, 2, 1⟩ (memcpy (fun _ => 0) 0 (fun _ => 1) 0 4)
        (fun _ => 1) 4).2.2.2 = ck_ring_capacity ⟨0, 1, 2, 1⟩ - 1 :=
  ⟨(enqueue_spsc_size_agrees 2 (by decide) ⟨4294967295, 1, 4, 3⟩ (fun _ => 0) (fun _ => 1) 4
      ⟨7, 7, 7, 7⟩ (fun _ => 0) 0 [] [] _ rfl).2.1 rfl rfl,
    (enqueue_spsc_size_agrees 1 (by decide) ⟨0, 1, 2, 1⟩ (fun _ => 0) (fun _ => 1) 4
      ⟨7, 7, 7, 7⟩ (fun _ => 0) 1 [Call.enqueue_spsc (fun _ => 1) 4] [Event.enq_ok [1, 1, 1, 1]]
      (⟨0, 1, 2, 1⟩, memcpy (fun _ => 0) 0 (fun _ => 1) 0 4) rfl).2.2.2 rfl⟩

/-! ### The SPMC variants -/

/-- C11: SPMC enqueue is SPSC enqueue.  For every ring state, slot storage and entry,
`ck_ring_enqueue_spmc` returns the same boolean, ring and slot storage as
`ck_ring_enqueue_spsc`, `ck_ring_enqueue_spmc_size` the same boolean, ring, slot storage and
reported size as `ck_ring_enqueue_spsc_size`, and the same holds for the typed pairs generated
by `CK_RING_PROTOTYPE`. -/
theorem enqueue_spmc_is_spsc (sizeof_ptr sizeof_type : Nat) (ring : ck_ring)
    (buffer entry : Mem) :
    ck_ring_enqueue_spmc sizeof_ptr ring buffer entry =
      ck_ring_enqueue_spsc sizeof_ptr ring buffer entry ∧
    ck_ring_enqueue_spmc_size sizeof_ptr ring buffer entry =
      ck_ring_enqueue_spsc_size sizeof_ptr ring buffer entry ∧
    ck_ring_enqueue_spmc_name sizeof_type ring buffer entry =
      ck_ring_enqueue_spsc_name sizeof_type ring buffer entry ∧
    ck_ring_enqueue_spmc_size_name sizeof_type ring buffer entry =
      ck_ring_enqueue_spsc_size_name sizeof_type ring buffer entry := by
  refine ⟨?_, ?_, ?_, ?_⟩
  · unfold ck_ring_enqueue_spmc
    rfl
  · unfold ck_ring_enqueue_spmc_size
    rfl
  · unfold ck_ring_enqueue_spmc_name ck_ring_enqueue_spsc_name
    rfl
  · unfold ck_ring_enqueue_spmc_size_name ck_ring_enqueue_spsc_size_name
    rfl

/-- The single attempt, case by case: empty at the snapshot, compare-and-swap won,
compare-and-swap lost. -/
theorem trydequeue_spmc_cases (env : Env) (ring : ck_ring) (buffer data : Mem) (size : Nat) :
    _ck_ring_trydequeue_spmc env ring buffer data size =
      if ring.c_head = ring.p_tail then (false, ring, data)
      else if (env (ring, buffer)).1.c_head = ring.c_head then
        (true, { (env (ring, buffer)).1 with c_head := u_add ring.c_head 1 },
          memcpy data 0 buffer (u_mul size (ring.c_head &&& ring.mask)) size)
      else
        (false, (env (ring, buffer)).1,
          memcpy data 0 buffer (u_mul size (ring.c_head &&& ring.mask)) size) := by
  unfold _ck_ring_trydequeue_spmc atomic_cmpset_int
  simp only []
  split
  · rfl
  · split
    · rfl
    · rfl

/-- One iteration of the retry loop decides the call when nobody moved `c_head`. -/
theorem dequeue_spmc_one (env : Nat → Env) (ring : ck_ring) (buffer data : Mem) (size : Nat)
    (fuel : Nat) (hq : (env 0 (ring, buffer)).1.c_head = ring.c_head) :
    _ck_ring_dequeue_spmc (fuel + 1) env ring buffer data size =
      some (_ck_ring_trydequeue_spmc (env 0) ring buffer data size) := by
  rw [trydequeue_spmc_cases]
  unfold _ck_ring_dequeue_spmc _ck_ring_dequeue_spmc_loop atomic_cmpset_int
  simp only []
  split
  · rfl
  · simp [hq]

/-- C12: the dequeue variants agree on a quiescent ring.  When no other thread modifies
`c_head` between the snapshot and the compare-and-swap (`env` leaves `c_head` as it was),
`_ck_ring_trydequeue_spmc` and `_ck_ring_dequeue_spmc` return the same boolean and deliver the
same record as `_ck_ring_dequeue_spsc` and make the same change to the ring (`c_head + 1` is
stored on success, nothing otherwise); when nobody else runs at all they leave exactly the
ring `_ck_ring_dequeue_spsc` leaves.  The retry loop is decided by its first iteration (one
unit of fuel is enough, none is not), and the result is false exactly when
`c_head = p_tail`. -/
theorem dequeue_variants_agree (env : Env) (envs : Nat → Env) (ring : ck_ring)
    (buffer data : Mem) (size : Nat)
    (hq : (env (ring, buffer)).1.c_head = ring.c_head)
    (hqs : (envs 0 (ring, buffer)).1.c_head = ring.c_head) :
    ((_ck_ring_trydequeue_spmc env ring buffer data size).1 =
        (_ck_ring_dequeue_spsc ring buffer data size).1 ∧
      (_ck_ring_trydequeue_spmc env ring buffer data size).2.2 =
        (_ck_ring_dequeue_spsc ring buffer data size).2.2 ∧
      (_ck_ring_trydequeue_spmc env ring buffer data size).2.1 =
        (if (_ck_ring_dequeue_spsc ring buffer data size).1 then
          { (env (ring, buffer)).1 with
            c_head := (_ck_ring_dequeue_spsc ring buffer data size).2.1.c_head }
        else ring)) ∧
    (_ck_ring_dequeue_spmc 1 envs ring buffer data size =
        some (_ck_ring_trydequeue_spmc (envs 0) ring buffer data size) ∧
      _ck_ring_dequeue_spmc 0 envs ring buffer data size = none) ∧
    (_ck_ring_trydequeue_spmc quiet ring buffer data size =
        _ck_ring_dequeue_spsc ring buffer data size ∧
      _ck_ring_dequeue_spmc 1 (fun _ => quiet) ring buffer data size =
        some (_ck_ring_dequeue_spsc ring buffer data size)) ∧
    ((_ck_ring_dequeue_spsc ring buffer data size).1 = false ↔ ring.c_head = ring.p_tail) := by
  refine ⟨?_, ⟨dequeue_spmc_one envs ring buffer data size 0 hqs, dequeue_spmc_zero _ _ _ _ _⟩,
    ⟨trydequeue_spmc_quiet _ _ _ _, dequeue_spmc_quiet 0 _ _ _ _⟩, ?_⟩
  · rw [trydequeue_spmc_cases]
    by_cases he : ring.c_head = ring.p_tail
    · rw [dequeue_spsc_empty he, if_pos he]
      exact ⟨rfl, rfl, rfl⟩
    · rw [dequeue_spsc_ok he, if_neg he, if_pos hq]
      exact ⟨rfl, rfl, rfl⟩
  · by_cases he : ring.c_head = ring.p_tail
    · rw [dequeue_spsc_empty he]
      simp [he]
    · rw [dequeue_spsc_ok he]
      simp [he]

/-- The variants on a ring of capacity 4 holding one record, while the producer publishes a
second record between the snapshot and the compare-and-swap. -/
theorem dequeue_variants_agree_witness :
    (_ck_ring_trydequeue_spmc (fun w => ({ w.1 with p_tail := 2 }, w.2)) ⟨0, 1, 4, 3⟩
        (fun _ => 7) (fun _ => 0) 4).1 =
      (_ck_ring_dequeue_spsc ⟨0, 1, 4, 3⟩ (fun _ => 7) (fun _ => 0) 4).1 ∧
    _ck_ring_dequeue_spmc 1 (fun _ w => ({ w.1 with p_tail := 2 }, w.2)) ⟨0, 1, 4, 3⟩
        (fun _ => 7) (fun _ => 0) 4 =
      some (_ck_ring_trydequeue_spmc (fun w => ({ w.1 with p_tail := 2 }, w.2)) ⟨0, 1, 4, 3⟩
        (fun _ => 7) (fun _ => 0) 4) :=
  ⟨(dequeue_variants_agree (fun w => ({ w.1 with p_tail := 2 }, w.2))
      (fun _ w => ({ w.1 with p_tail := 2 }, w.2)) ⟨0, 1, 4, 3⟩ (fun _ => 7) (fun _ => 0) 4
      rfl rfl).1.1,
    (dequeue_variants_agree (fun w => ({ w.1 with p_tail := 2 }, w.2))
      (fun _ w => ({ w.1 with p_tail := 2 }, w.2)) ⟨0, 1, 4, 3⟩ (fun _ => 7) (fun _ => 0) 4
      rfl rfl).2.1.1⟩

theorem u_add_one_ne (c : Nat) : u_add c 1 ≠ c := by
  unfold u_add UINT_MOD
  omega

/-! ### The consumer index under the actions of the other threads -/

theorem act_enqueue (source : Mem) (size : Nat) (w : World) :
    (act (Action.enqueue source size) w).1 = false ∧
    (act (Action.enqueue source size) w).2.1.c_head = w.1.c_head := by
  refine ⟨rfl, ?_⟩
  unfold act _ck_ring_enqueue_spsc
  simp only []
  split
  · rfl
  · rfl

theorem act_attempt (data : Mem) (size : Nat) (w : World) :
    act (Action.attempt data size) w =
      if w.1.c_head = w.1.p_tail then (false, w)
      else (true, ({ w.1 with c_head := u_add w.1.c_head 1 }, w.2)) := by
  unfold act
  simp only [trydequeue_spmc_quiet]
  by_cases he : w.1.c_head = w.1.p_tail
  · simp only [dequeue_spsc_empty he, if_pos he]
  · simp only [dequeue_spsc_ok he, if_neg he]

theorem act_cmpset (consumer : Nat) (w : World) :
    act (Action.cmpset consumer) w =
      if w.1.c_head = consumer then (true, ({ w.1 with c_head := u_add consumer 1 }, w.2))
      else (false, w) := by
  unfold act atomic_cmpset_int
  by_cases he : w.1.c_head = consumer
  · simp only [if_pos he]
  · simp only [if_neg he]

theorem act_c_head (a : Action) (w : World) (hc : w.1.c_head < UINT_MOD) :
    (act a w).2.1.c_head = (w.1.c_head + (if (act a w).1 then 1 else 0)) % UINT_MOD := by
  cases a with
  | enqueue source size =>
    rw [(act_enqueue source size w).1, (act_enqueue source size w).2]
    simp only [Bool.false_eq_true, if_false, Nat.add_zero]
    exact (Nat.mod_eq_of_lt hc).symm
  | attempt data size =>
    rw [act_attempt]
    by_cases he : w.1.c_head = w.1.p_tail
    · simp only [if_pos he, Bool.false_eq_true, if_false, Nat.add_zero]
      exact (Nat.mod_eq_of_lt hc).symm
    · simp only [if_neg he, if_true]
      rfl
  | cmpset consumer =>
    rw [act_cmpset]
    by_cases he : w.1.c_head = consumer
    · simp only [if_pos he, if_true]
      rw [← he]
      rfl
    · simp only [if_neg he, Bool.false_eq_true, if_false, Nat.add_zero]
      exact (Nat.mod_eq_of_lt hc).symm

/-- After a sequence of actions the consumer index is the index before plus the number of
successful dequeues, modulo `2 ^ 32`. -/
theorem acts_c_head (l : List Action) :
    ∀ w : World, w.1.c_head < UINT_MOD →
      (acts l w).1.c_head = (w.1.c_head + wins l w) % UINT_MOD := by
  induction l with
  | nil =>
    intro w hc
    exact (Nat.mod_eq_of_lt hc).symm
  | cons a l ih =>
    intro w hc
    have h1 := act_c_head a w hc
    have hM : 0 < UINT_MOD := by unfold UINT_MOD; omega
    have hc' : (act a w).2.1.c_head < UINT_MOD := by rw [h1]; exact Nat.mod_lt _ hM
    show (acts l (act a w).2).1.c_head =
      (w.1.c_head + ((if (act a w).1 then 1 else 0) + wins l (act a w).2)) % UINT_MOD
    rw [ih _ hc', h1]
    unfold UINT_MOD
    omega

theorem acts_cons (a : Action) (l : List Action) (w : World) :
    acts (a :: l) w = acts l (act a w).2 := rfl

/-- The boolean returned by the single attempt. -/
theorem trydequeue_spmc_fst (env : Env) (ring : ck_ring) (buffer data : Mem) (size : Nat) :
    (_ck_ring_trydequeue_spmc env ring buffer data size).1 =
      (decide (ring.c_head ≠ ring.p_tail) &&
        decide ((env (ring, buffer)).1.c_head = ring.c_head)) := by
  rw [trydequeue_spmc_cases]
  by_cases he : ring.c_head = ring.p_tail
  · simp [he]
  · by_cases hc : (env (ring, buffer)).1.c_head = ring.c_head
    · simp [he, hc]
    · simp [he, hc]

/-- The output record left by the single attempt. -/
theorem trydequeue_spmc_data (env : Env) (ring : ck_ring) (buffer data : Mem) (size : Nat) :
    (_ck_ring_trydequeue_spmc env ring buffer data size).2.2 =
      if ring.c_head = ring.p_tail then data
      else memcpy data 0 buffer (u_mul size (ring.c_head &&& ring.mask)) size := by
  rw [trydequeue_spmc_cases]
  by_cases he : ring.c_head = ring.p_tail
  · rw [if_pos he, if_pos he]
  · rw [if_neg he, if_neg he]
    split
    · rfl
    · rfl

theorem acts_append (l1 l2 : List Action) :
    ∀ w : World, acts (l1 ++ l2) w = acts l2 (acts l1 w) := by
  induction l1 with
  | nil => intro w; rfl
  | cons a l ih => intro w; exact ih _

/-- Once `c_head` is `s + 1`, it differs from `s` until `2 ^ 32 - 1` further dequeues have
succeeded. -/
theorem c_head_after_succ (s : Nat) (w1 : World) (post : List Action)
    (h1 : w1.1.c_head = u_add s 1) (hfew : wins post w1 + 1 < 2 ^ 32) :
    (acts post w1).1.c_head ≠ s := by
  have hM : 0 < UINT_MOD := by unfold UINT_MOD; omega
  have hlt : w1.1.c_head < UINT_MOD := by rw [h1]; exact Nat.mod_lt _ hM
  rw [acts_c_head post _ hlt, h1]
  unfold u_add
  unfold UINT_MOD at *
  norm_num at hfew
  omega

/-- After a compare-and-swap on the index `s` has succeeded, `c_head` differs from `s` until
`2 ^ 32 - 1` further dequeues have succeeded. -/
theorem c_head_after_win (w0 : World) (mid : List Action)
    (hfew : wins mid (act (Action.cmpset w0.1.c_head) w0).2 + 1 < 2 ^ 32) :
    (acts mid (act (Action.cmpset w0.1.c_head) w0).2).1.c_head ≠ w0.1.c_head := by
  refine c_head_after_succ _ _ _ ?_ hfew
  rw [act_cmpset, if_pos rfl]

/-- A successful single attempt leaves `c_head` one past the index it snapshotted. -/
theorem trydequeue_spmc_won (env : Env) (ring : ck_ring) (buffer data : Mem) (size : Nat)
    (h : (_ck_ring_trydequeue_spmc env ring buffer data size).1 = true) :
    (_ck_ring_trydequeue_spmc env ring buffer data size).2.1.c_head = u_add ring.c_head 1 := by
  rw [trydequeue_spmc_cases] at h ⊢
  by_cases he : ring.c_head = ring.p_tail
  · rw [if_pos he] at h
    simp at h
  · rw [if_neg he] at h ⊢
    by_cases hc : (env (ring, buffer)).1.c_head = ring.c_head
    · rw [if_pos hc]
    · rw [if_neg hc] at h
      simp at h

/-- Rounds of the other threads on a ring of mask 3 holding one record: the producer
enqueues, another consumer dequeues; both indices advance by one per round. -/
theorem acts_rounds (src dst : Mem) (size : Nat) (n : Nat) :
    ∀ w : World, w.1.mask = 3 → w.1.c_head < UINT_MOD → w.1.p_tail = u_add w.1.c_head 1 →
      (acts (List.replicate n
        [Action.enqueue src size, Action.attempt dst size]).flatten w).1.c_head =
        (w.1.c_head + n) % UINT_MOD := by
  induction n with
  | zero =>
    intro w _ hc _
    exact (Nat.mod_eq_of_lt hc).symm
  | succ n ih =>
    intro w hm hc hp
    have h3 : ∀ x : Nat, x &&& 3 = x % 4 := fun x => land_mask x 2
    have hE : _ck_ring_enqueue_spsc w.1 w.2 src size =
        (true, { w.1 with p_tail := u_add w.1.p_tail 1 },
          memcpy w.2 (u_mul size (w.1.p_tail &&& w.1.mask)) src 0 size) := by
      unfold _ck_ring_enqueue_spsc
      simp only []
      rw [if_neg]
      rw [hm, h3, h3, hp]
      unfold u_add
      unfold UINT_MOD at *
      omega
    have hne : ¬ (w.1.c_head = u_add w.1.p_tail 1) := by
      rw [hp]
      unfold u_add
      unfold UINT_MOD at *
      omega
    rw [List.replicate_succ, List.flatten_cons]
    show (acts (List.replicate n
        [Action.enqueue src size, Action.attempt dst size]).flatten
        (act (Action.attempt dst size) (act (Action.enqueue src size) w).2).2).1.c_head = _
    have hw1 : (act (Action.enqueue src size) w).2 =
        ({ w.1 with p_tail := u_add w.1.p_tail 1 },
          memcpy w.2 (u_mul size (w.1.p_tail &&& w.1.mask)) src 0 size) := by
      unfold act
      simp only []
      rw [hE]
    rw [hw1]
    have hw2 : (act (Action.attempt dst size)
        (({ w.1 with p_tail := u_add w.1.p_tail 1 } : ck_ring),
          memcpy w.2 (u_mul size (w.1.p_tail &&& w.1.mask)) src 0 size)).2.1 =
        { w.1 with p_tail := u_add w.1.p_tail 1, c_head := u_add w.1.c_head 1 } := by
      rw [act_attempt, if_neg hne]
    have hM : 0 < UINT_MOD := by unfold UINT_MOD; omega
    rw [ih _ (by rw [hw2]; exact hm) (by rw [hw2]; exact Nat.mod_lt _ hM)
      (by rw [hw2]; show u_add w.1.p_tail 1 = u_add (u_add w.1.c_head 1) 1; rw [hp]), hw2]
    show (u_add w.1.c_head 1 + n) % UINT_MOD = _
    unfold u_add UINT_MOD
    omega

/-- C13 (amended): lost race in the single attempt.  `_ck_ring_trydequeue_spmc` is a snapshot
followed by a compare-and-swap against the `c_head` found after the other threads (`env`) have
run.  It succeeds exactly when the ring was not empty at the snapshot and `c_head` has the
snapshotted value at the compare-and-swap; when the compare-and-swap fails it returns false
and the ring it leaves is the ring it found at the compare-and-swap (`c_head`, `p_tail`
unchanged; the slot storage is never written by the call); on a ring that is not empty the
call is the compare-and-swap action on the snapshotted index.  Of two calls that snapshot the
same consumer index at most one succeeds as long as fewer than `2 ^ 32 - 1` dequeues succeed
between the compare-and-swap of the first and that of the second: whatever the other threads
do before (`pre`) and after (`post`) the winning compare-and-swap of the first call, the
second call fails, the first call being given by its compare-and-swap or as a whole call
with its own interference `envA`; and once a compare-and-swap on an index has won, `c_head` does not have
that value again (so no later snapshot reads it and no later compare-and-swap on it wins)
before `2 ^ 32 - 1` further dequeues have succeeded.  In general the call succeeds exactly
when the ring was not empty at the snapshot and the number of dequeues that succeeded between
the snapshot and the compare-and-swap is a multiple of `2 ^ 32`.  There is a state in which
the call fails although the ring is not empty before or after it. -/
theorem trydequeue_lost_race (env : Env) (ring : ck_ring) (buffer data : Mem) (size : Nat) :
    ((_ck_ring_trydequeue_spmc env ring buffer data size).1 = true ↔
      (ring.c_head ≠ ring.p_tail ∧ (env (ring, buffer)).1.c_head = ring.c_head)) ∧
    ((ring.c_head ≠ ring.p_tail ∧ (env (ring, buffer)).1.c_head ≠ ring.c_head) →
      (_ck_ring_trydequeue_spmc env ring buffer data size).1 = false ∧
      (_ck_ring_trydequeue_spmc env ring buffer data size).2.1 = (env (ring, buffer)).1) ∧
    (ring.c_head ≠ ring.p_tail →
      (_ck_ring_trydequeue_spmc env ring buffer data size).1 =
        (act (Action.cmpset ring.c_head) (env (ring, buffer))).1 ∧
      (_ck_ring_trydequeue_spmc env ring buffer data size).2.1 =
        (act (Action.cmpset ring.c_head) (env (ring, buffer))).2.1) ∧
    (∀ pre post : List Action,
      (act (Action.cmpset ring.c_head) (acts pre (ring, buffer))).1 = true →
      wins post (act (Action.cmpset ring.c_head) (acts pre (ring, buffer))).2 + 1 < 2 ^ 32 →
      (_ck_ring_trydequeue_spmc (acts (pre ++ Action.cmpset ring.c_head :: post))
        ring buffer data size).1 = false) ∧
    (∀ (envA : Env) (dataA : Mem) (pre post : List Action),
      (acts pre (ring, buffer)).1.c_head = ring.c_head →
      (_ck_ring_trydequeue_spmc envA (acts pre (ring, buffer)).1 (acts pre (ring, buffer)).2
        dataA size).1 = true →
      wins post ((_ck_ring_trydequeue_spmc envA (acts pre (ring, buffer)).1
        (acts pre (ring, buffer)).2 dataA size).2.1, (envA (acts pre (ring, buffer))).2) + 1 <
          2 ^ 32 →
      (_ck_ring_trydequeue_spmc
        (fun w => acts post ((_ck_ring_trydequeue_spmc envA (acts pre w).1 (acts pre w).2
          dataA size).2.1, (envA (acts pre w)).2))
        ring buffer data size).1 = false) ∧
    (∀ (w0 : World) (mid : List Action),
      wins mid (act (Action.cmpset w0.1.c_head) w0).2 + 1 < 2 ^ 32 →
      (acts mid (act (Action.cmpset w0.1.c_head) w0).2).1.c_head ≠ w0.1.c_head ∧
      (act (Action.cmpset w0.1.c_head)
        (acts mid (act (Action.cmpset w0.1.c_head) w0).2)).1 = false) ∧
    (ring.c_head < 2 ^ 32 → ∀ l : List Action,
      ((_ck_ring_trydequeue_spmc (acts l) ring buffer data size).1 = true ↔
        (ring.c_head ≠ ring.p_tail ∧ wins l (ring, buffer) % 2 ^ 32 = 0))) ∧
    (∃ (e : Env) (r : ck_ring) (b d : Mem) (n : Nat),
      (_ck_ring_trydequeue_spmc e r b d n).1 = false ∧ r.c_head ≠ r.p_tail ∧
      ck_ring_size r ≠ 0 ∧ ck_ring_size (_ck_ring_trydequeue_spmc e r b d n).2.1 ≠ 0) := by
  refine ⟨?_, ?_, ?_, ?_, ?_, ?_, ?_, ?_⟩
  · rw [trydequeue_spmc_cases]
    by_cases he : ring.c_head = ring.p_tail
    · simp [he]
    · by_cases hc : (env (ring, buffer)).1.c_head = ring.c_head
      · simp [he, hc]
      · simp [he, hc]
  · rintro ⟨he, hc⟩
    rw [trydequeue_spmc_cases, if_neg he, if_neg hc]
    exact ⟨rfl, rfl⟩
  · intro he
    rw [trydequeue_spmc_cases, if_neg he, act_cmpset]
    by_cases hc : (env (ring, buffer)).1.c_head = ring.c_head
    · rw [if_pos hc, if_pos hc]
      exact ⟨rfl, rfl⟩
    · rw [if_neg hc, if_neg hc]
      exact ⟨rfl, rfl⟩
  · intro pre post hwin hfew
    have hne := c_head_after_win (acts pre (ring, buffer)) post
    rw [trydequeue_spmc_fst, acts_append, acts_cons]
    by_cases hs : (acts pre (ring, buffer)).1.c_head = ring.c_head
    · rw [hs] at hne
      have hne' := hne hfew
      simp [hne']
    · rw [act_cmpset, if_neg hs] at hwin
      simp at hwin
  · intro envA dataA pre post hsame hwin hfew
    have hA := trydequeue_spmc_won envA _ _ dataA size hwin
    rw [hsame] at hA
    have hne := c_head_after_succ ring.c_head
      ((_ck_ring_trydequeue_spmc envA (acts pre (ring, buffer)).1 (acts pre (ring, buffer)).2
        dataA size).2.1, (envA (acts pre (ring, buffer))).2) post hA hfew
    rw [trydequeue_spmc_fst]
    simp only [Bool.and_eq_false_imp, decide_eq_true_eq, decide_eq_false_iff_not]
    exact fun _ => hne
  · intro w0 mid hfew
    have hne := c_head_after_win w0 mid hfew
    refine ⟨hne, ?_⟩
    rw [act_cmpset (w0.1.c_head), if_neg hne]
  · intro hlt l
    have hlt' : ring.c_head < UINT_MOD := by rw [UINT_MOD_eq]; exact hlt
    have hc := acts_c_head l (ring, buffer) hlt'
    have hiff : (acts l (ring, buffer)).1.c_head = ring.c_head ↔
        wins l (ring, buffer) % 2 ^ 32 = 0 := by
      rw [hc]
      show (ring.c_head + wins l (ring, buffer)) % UINT_MOD = ring.c_head ↔ _
      unfold UINT_MOD at *
      norm_num
      omega
    rw [trydequeue_spmc_fst]
    simp only [Bool.and_eq_true, decide_eq_true_eq]
    rw [hiff]
  · refine ⟨fun w => ({ w.1 with c_head := 1 }, w.2), ⟨0, 2, 4, 3⟩, fun _ => 7, fun _ => 0, 4,
      ?_, ?_, ?_, ?_⟩ <;> decide

/-- The lost race at a concrete state: capacity 4, two records held; the first call wins its
compare-and-swap on index 0, the producer enqueues a record and another consumer takes one,
and the second call, which also snapshotted index 0, fails. -/
theorem trydequeue_lost_race_witness :
    (_ck_ring_trydequeue_spmc
      (acts ([] ++ Action.cmpset 0 ::
        [Action.enqueue (fun _ => 9) 4, Action.attempt (fun _ => 0) 4]))
      ⟨0, 2, 4, 3⟩ (fun a => a) (fun _ => 0) 4).1 = false :=
  (trydequeue_lost_race quiet ⟨0, 2, 4, 3⟩ (fun a => a) (fun _ => 0) 4).2.2.2.1 []
    [Action.enqueue (fun _ => 9) 4, Action.attempt (fun _ => 0) 4] (by decide) (by decide)

/-- The compare-and-swap compares the 32-bit value only.  Capacity 4, two records held, slot 0
holding the bytes `00 01 02 03`.  The first call snapshots index 0 and succeeds; then the
producer enqueues and another consumer dequeues `2 ^ 32 - 1` times, after which `c_head` is 0
again; the second call, which snapshotted index 0 together with the first, succeeds as well,
and both deliver the record `00 01 02 03`. -/
theorem trydequeue_lost_race_counterexample :
    (_ck_ring_trydequeue_spmc quiet ⟨0, 2, 4, 3⟩ (fun a => a) (fun _ => 0) 4).1 = true ∧
    load (_ck_ring_trydequeue_spmc quiet ⟨0, 2, 4, 3⟩ (fun a => a) (fun _ => 0) 4).2.2 0 4 =
      [0, 1, 2, 3] ∧
    (acts (Action.attempt (fun _ => 0) 4 ::
      (List.replicate 4294967295
        [Action.enqueue (fun _ => 9) 4, Action.attempt (fun _ => 0) 4]).flatten)
      (⟨0, 2, 4, 3⟩, fun a => a)).1.c_head = 0 ∧
    (_ck_ring_trydequeue_spmc
      (acts (Action.attempt (fun _ => 0) 4 ::
        (List.replicate 4294967295
          [Action.enqueue (fun _ => 9) 4, Action.attempt (fun _ => 0) 4]).flatten))
      ⟨0, 2, 4, 3⟩ (fun a => a) (fun _ => 0) 4).1 = true ∧
    load (_ck_ring_trydequeue_spmc
      (acts (Action.attempt (fun _ => 0) 4 ::
        (List.replicate 4294967295
          [Action.enqueue (fun _ => 9) 4, Action.attempt (fun _ => 0) 4]).flatten))
      ⟨0, 2, 4, 3⟩ (fun a => a) (fun _ => 0) 4).2.2 0 4 = [0, 1, 2, 3] := by
  have hA : (act (Action.attempt (fun _ => 0) 4) ((⟨0, 2, 4, 3⟩ : ck_ring), fun a => a)).2 =
      ((⟨1, 2, 4, 3⟩ : ck_ring), fun a => a) := rfl
  have hc := acts_rounds (fun _ => 9) (fun _ => 0) 4 4294967295
    ((⟨1, 2, 4, 3⟩ : ck_ring), fun a => a) rfl (by decide) (by decide)
  refine ⟨by decide, by decide, ?_, ?_, ?_⟩
  · rw [acts_cons, hA, hc]
    decide
  · rw [trydequeue_spmc_fst, acts_cons, hA, hc]
    decide
  · rw [trydequeue_spmc_data]
    decide

/-- C15 (amended): the single attempt copies the candidate slot straight into the caller's
output record, before the compare-and-swap.  A failing `_ck_ring_trydequeue_spmc` leaves the
output record as it was when the ring was empty at the snapshot; when the compare-and-swap
fails, the first `size` bytes of the output record hold the copy of the slot and the other
bytes are as they were. -/
theorem trydequeue_failure_output (env : Env) (ring : ck_ring) (buffer data : Mem) (size : Nat)
    (hfail : (_ck_ring_trydequeue_spmc env ring buffer data size).1 = false) :
    (ring.c_head = ring.p_tail ∧
      (_ck_ring_trydequeue_spmc env ring buffer data size).2.2 = data) ∨
    (ring.c_head ≠ ring.p_tail ∧ (env (ring, buffer)).1.c_head ≠ ring.c_head ∧
      load (_ck_ring_trydequeue_spmc env ring buffer data size).2.2 0 size =
        load buffer (u_mul size (ring.c_head &&& ring.mask)) size ∧
      ∀ a, size ≤ a → (_ck_ring_trydequeue_spmc env ring buffer data size).2.2 a = data a) := by
  rw [trydequeue_spmc_cases] at hfail ⊢
  by_cases he : ring.c_head = ring.p_tail
  · left
    rw [if_pos he]
    exact ⟨he, rfl⟩
  · right
    rw [if_neg he] at hfail ⊢
    by_cases hc : (env (ring, buffer)).1.c_head = ring.c_head
    · rw [if_pos hc] at hfail
      simp at hfail
    · rw [if_neg hc]
      refine ⟨he, hc, load_memcpy_same _ _ _ _ _, ?_⟩
      intro a ha
      show memcpy data 0 buffer (u_mul size (ring.c_head &&& ring.mask)) size a = data a
      unfold memcpy
      rw [if_neg (by omega)]

/-- The failing single attempt at a concrete state: capacity 4, two records held, another
consumer takes the first one between the snapshot and the compare-and-swap. -/
theorem trydequeue_failure_output_witness :
    ((0 : Nat) = 2 ∧
      (_ck_ring_trydequeue_spmc (fun w => ({ w.1 with c_head := 1 }, w.2)) ⟨0, 2, 4, 3⟩
        (fun _ => 7) (fun _ => 0) 4).2.2 = fun _ => 0) ∨
    ((0 : Nat) ≠ 2 ∧ (1 : Nat) ≠ 0 ∧
      load (_ck_ring_trydequeue_spmc (fun w => ({ w.1 with c_head := 1 }, w.2)) ⟨0, 2, 4, 3⟩
        (fun _ => 7) (fun _ => 0) 4).2.2 0 4 =
        load (fun _ => 7) (u_mul 4 (0 &&& 3)) 4 ∧
      ∀ a, 4 ≤ a →
        (_ck_ring_trydequeue_spmc (fun w => ({ w.1 with c_head := 1 }, w.2)) ⟨0, 2, 4, 3⟩
          (fun _ => 7) (fun _ => 0) 4).2.2 a = (fun _ => 0) a) :=
  trydequeue_failure_output (fun w => ({ w.1 with c_head := 1 }, w.2)) ⟨0, 2, 4, 3⟩
    (fun _ => 7) (fun _ => 0) 4 rfl

/-- A lost race changes the caller's output record: capacity 4, the slots hold bytes `07`,
the output record holds bytes `00`; another consumer takes the record between the snapshot
and the compare-and-swap, the call returns false, and the output record now starts with
`07 07 07 07`. -/
theorem trydequeue_failure_output_counterexample :
    (_ck_ring_trydequeue_spmc (fun w => ({ w.1 with c_head := 1 }, w.2)) ⟨0, 2, 4, 3⟩
        (fun _ => 7) (fun _ => 0) 4).1 = false ∧
    load (_ck_ring_trydequeue_spmc (fun w => ({ w.1 with c_head := 1 }, w.2)) ⟨0, 2, 4, 3⟩
        (fun _ => 7) (fun _ => 0) 4).2.2 0 4 = [7, 7, 7, 7] ∧
    load (fun _ => 0) 0 4 = [0, 0, 0, 0] ∧
    ¬ ((_ck_ring_trydequeue_spmc (fun w => ({ w.1 with c_head := 1 }, w.2)) ⟨0, 2, 4, 3⟩
        (fun _ => 7) (fun _ => 0) 4).2.2 = fun _ => 0) := by
  refine ⟨by decide, by decide, by decide, ?_⟩
  intro h
  have h0 := congrFun h 0
  revert h0
  decide

/-! ### Frame conditions -/

theorem enqueue_spsc_of_true (ring : ck_ring) (buffer source : Mem) (size : Nat)
    (h : (_ck_ring_enqueue_spsc ring buffer source size).1 = true) :
    _ck_ring_enqueue_spsc ring buffer source size =
      (true, { ring with p_tail := u_add ring.p_tail 1 },
        memcpy buffer (u_mul size (ring.p_tail &&& ring.mask)) source 0 size) := by
  unfold _ck_ring_enqueue_spsc at h ⊢
  simp only [] at h ⊢
  split
  · rename_i hc
    rw [if_pos hc] at h
    simp at h
  · rfl

theorem dequeue_spsc_of_true (ring : ck_ring) (buffer target : Mem) (size : Nat)
    (h : (_ck_ring_dequeue_spsc ring buffer target size).1 = true) :
    _ck_ring_dequeue_spsc ring buffer target size =
      (true, { ring with c_head := u_add ring.c_head 1 },
        memcpy target 0 buffer (u_mul size (ring.c_head &&& ring.mask)) size) := by
  by_cases he : ring.c_head = ring.p_tail
  · rw [dequeue_spsc_empty he] at h
    simp at h
  · exact dequeue_spsc_ok he _ _ _

theorem enqueue_spsc_keeps (ring : ck_ring) (buffer source : Mem) (size : Nat) :
    (_ck_ring_enqueue_spsc ring buffer source size).2.1.size = ring.size ∧
    (_ck_ring_enqueue_spsc ring buffer source size).2.1.mask = ring.mask ∧
    (_ck_ring_enqueue_spsc ring buffer source size).2.1.c_head = ring.c_head := by
  unfold _ck_ring_enqueue_spsc
  simp only []
  split
  · exact ⟨rfl, rfl, rfl⟩
  · exact ⟨rfl, rfl, rfl⟩

theorem dequeue_spsc_keeps (ring : ck_ring) (buffer target : Mem) (size : Nat) :
    (_ck_ring_dequeue_spsc ring buffer target size).2.1.size = ring.size ∧
    (_ck_ring_dequeue_spsc ring buffer target size).2.1.mask = ring.mask ∧
    (_ck_ring_dequeue_spsc ring buffer target size).2.1.p_tail = ring.p_tail := by
  unfold _ck_ring_dequeue_spsc
  simp only []
  split
  · exact ⟨rfl, rfl, rfl⟩
  · exact ⟨rfl, rfl, rfl⟩

theorem exec_keeps (fuel : Nat) (c : Call) (w : World) (r : Event × World)
    (h : exec fuel c w = some r) : r.2.1.size = w.1.size ∧ r.2.1.mask = w.1.mask := by
  cases c with
  | enqueue_spsc source size =>
    simp only [exec, Option.some.injEq] at h
    rw [← h]
    exact ⟨(enqueue_spsc_keeps _ _ _ _).1, (enqueue_spsc_keeps _ _ _ _).2.1⟩
  | enqueue_spsc_size entry type_size =>
    simp only [exec, Option.some.injEq] at h
    rw [← h, enqueue_spsc_size_eq]
    exact ⟨(enqueue_spsc_keeps _ _ _ _).1, (enqueue_spsc_keeps _ _ _ _).2.1⟩
  | dequeue_spsc target size =>
    simp only [exec, Option.some.injEq] at h
    rw [← h]
    exact ⟨(dequeue_spsc_keeps _ _ _ _).1, (dequeue_spsc_keeps _ _ _ _).2.1⟩
  | trydequeue_spmc data size =>
    simp only [exec, Option.some.injEq] at h
    rw [← h, trydequeue_spmc_quiet]
    exact ⟨(dequeue_spsc_keeps _ _ _ _).1, (dequeue_spsc_keeps _ _ _ _).2.1⟩
  | dequeue_spmc data size =>
    cases fuel with
    | zero => simp [exec, dequeue_spmc_zero] at h
    | succ f =>
      simp only [exec, dequeue_spmc_quiet, Option.some.injEq] at h
      rw [← h]
      exact ⟨(dequeue_spsc_keeps _ _ _ _).1, (dequeue_spsc_keeps _ _ _ _).2.1⟩

theorem run_keeps (fuel : Nat) (calls : List Call) :
    ∀ (w : World) (r : List Event × World), run fuel calls w = some r →
      r.2.1.size = w.1.size ∧ r.2.1.mask = w.1.mask := by
  induction calls with
  | nil =>
    intro w r h
    simp only [run, Option.some.injEq] at h
    rw [← h]
    exact ⟨rfl, rfl⟩
  | cons c cs ih =>
    intro w r h
    simp only [run] at h
    cases he : exec fuel c w with
    | none => simp [he] at h
    | some r1 =>
      rw [he] at h
      simp only [] at h
      cases hrs : run fuel cs r1.2 with
      | none => simp [hrs] at h
      | some rs =>
        rw [hrs] at h
        simp only [Option.some.injEq] at h
        rw [← h]
        have h1 := exec_keeps fuel c w r1 he
        have h2 := ih r1.2 rs hrs
        exact ⟨h2.1.trans h1.1, h2.2.trans h1.2⟩

theorem enqueue_frame (k size : Nat) (ring : ck_ring) (hsize : ring.size = 2 ^ k)
    (hmask : ring.mask = 2 ^ k - 1) (hfit : size * (2 ^ k - 1) < UINT_MOD)
    (buffer source : Mem) :
    EnqueueFrame size ring buffer source (_ck_ring_enqueue_spsc ring buffer source size) ∧
    ((_ck_ring_enqueue_spsc ring buffer source size).1 = true →
      ∀ a, ¬ (size * (ring.p_tail % 2 ^ k) ≤ a ∧ a < size * (ring.p_tail % 2 ^ k) + size) →
        (_ck_ring_enqueue_spsc ring buffer source size).2.2 a = buffer a) := by
  have hoff : u_mul size (ring.p_tail &&& ring.mask) = size * (ring.p_tail % 2 ^ k) := by
    rw [hmask, slot_offset _ _ hfit]
  constructor
  · intro h
    rw [enqueue_spsc_of_true _ _ _ _ h, hoff, hsize]
    refine ⟨rfl, load_memcpy_same _ _ _ _ _, ?_⟩
    intro j _ hj
    unfold slot
    apply load_memcpy_disjoint
    rcases slot_disjoint size _ _ hj with h1 | h1
    · exact Or.inl h1
    · exact Or.inr h1
  · intro h a ha
    rw [enqueue_spsc_of_true _ _ _ _ h, hoff]
    show memcpy buffer (size * (ring.p_tail % 2 ^ k)) source 0 size a = buffer a
    unfold memcpy
    rw [if_neg ha]

theorem dequeue_frame (k size : Nat) (ring : ck_ring) (hsize : ring.size = 2 ^ k)
    (hmask : ring.mask = 2 ^ k - 1) (hfit : size * (2 ^ k - 1) < UINT_MOD)
    (buffer target : Mem) :
    DequeueFrame size ring buffer target (_ck_ring_dequeue_spsc ring buffer target size) := by
  have hoff : u_mul size (ring.c_head &&& ring.mask) = size * (ring.c_head % 2 ^ k) := by
    rw [hmask, slot_offset _ _ hfit]
  intro h
  rw [dequeue_spsc_of_true _ _ _ _ h, hoff, hsize]
  refine ⟨rfl, load_memcpy_same _ _ _ _ _, ?_⟩
  intro a ha
  show memcpy target 0 buffer (size * (ring.c_head % 2 ^ k)) size a = target a
  unfold memcpy
  rw [if_neg (by omega)]

/-- C14 (amended): frame conditions.  On a ring of capacity `2 ^ k` with
`mask = capacity - 1` and records of `size` bytes with `size * (2 ^ k - 1) < 2 ^ 32`: a
successful enqueue (either variant) puts the record into slot `p_tail mod capacity`, stores
`p_tail + 1` into `p_tail` and changes nothing else (`c_head`, `size`, `mask`, every other slot
and every byte outside the slot are unchanged); a successful dequeue (any variant, nobody
else running) copies slot `c_head mod capacity` to the output record, stores `c_head + 1`
into `c_head` and changes nothing else.  For every ring state `r0`, no call, successful or
not, changes `size` or `mask`, and `ck_ring_capacity` is the value given to `ck_ring_init`
after every sequence of calls. -/
theorem frame_conditions (k size : Nat) (ring : ck_ring)
    (hsize : ring.size = 2 ^ k) (hmask : ring.mask = 2 ^ k - 1)
    (hfit : size * (2 ^ k - 1) < 2 ^ 32) (buffer record : Mem) (fuel : Nat)
    (r0 ring0 : ck_ring) (N : Nat) (buf0 : Mem) (calls : List Call) (evs : List Event)
    (w : World) (hrun : run fuel calls (ck_ring_init ring0 N, buf0) = some (evs, w)) :
    (EnqueueFrame size ring buffer record (_ck_ring_enqueue_spsc ring buffer record size) ∧
      EnqueueFrame size ring buffer record
        ((_ck_ring_enqueue_spsc_size ring buffer record size).1,
          (_ck_ring_enqueue_spsc_size ring buffer record size).2.1,
          (_ck_ring_enqueue_spsc_size ring buffer record size).2.2.1) ∧
      ((_ck_ring_enqueue_spsc ring buffer record size).1 = true →
        ∀ a, ¬ (size * (ring.p_tail % 2 ^ k) ≤ a ∧ a < size * (ring.p_tail % 2 ^ k) + size) →
          (_ck_ring_enqueue_spsc ring buffer record size).2.2 a = buffer a)) ∧
    (DequeueFrame size ring buffer record (_ck_ring_dequeue_spsc ring buffer record size) ∧
      DequeueFrame size ring buffer record
        (_ck_ring_trydequeue_spmc quiet ring buffer record size) ∧
      _ck_ring_dequeue_spmc (fuel + 1) (fun _ => quiet) ring buffer record size =
        some (_ck_ring_dequeue_spsc ring buffer record size)) ∧
    (((_ck_ring_enqueue_spsc r0 buffer record size).2.1.size = r0.size ∧
        (_ck_ring_enqueue_spsc r0 buffer record size).2.1.mask = r0.mask) ∧
      ((_ck_ring_enqueue_spsc_size r0 buffer record size).2.1.size = r0.size ∧
        (_ck_ring_enqueue_spsc_size r0 buffer record size).2.1.mask = r0.mask) ∧
      ((_ck_ring_dequeue_spsc r0 buffer record size).2.1.size = r0.size ∧
        (_ck_ring_dequeue_spsc r0 buffer record size).2.1.mask = r0.mask) ∧
      ((_ck_ring_trydequeue_spmc quiet r0 buffer record size).2.1.size = r0.size ∧
        (_ck_ring_trydequeue_spmc quiet r0 buffer record size).2.1.mask = r0.mask)) ∧
    ck_ring_capacity w.1 = N := by
  have hfit' : size * (2 ^ k - 1) < UINT_MOD := by rw [UINT_MOD_eq]; exact hfit
  have hE := enqueue_frame k size ring hsize hmask hfit' buffer record
  have hD := dequeue_frame k size ring hsize hmask hfit' buffer record
  refine ⟨⟨hE.1, ?_, hE.2⟩, ⟨hD, ?_, dequeue_spmc_quiet _ _ _ _ _⟩, ⟨?_, ?_, ?_, ?_⟩, ?_⟩
  · rw [enqueue_spsc_size_eq]
    exact hE.1
  · rw [trydequeue_spmc_quiet]
    exact hD
  · exact ⟨(enqueue_spsc_keeps _ _ _ _).1, (enqueue_spsc_keeps _ _ _ _).2.1⟩
  · rw [enqueue_spsc_size_eq]
    exact ⟨(enqueue_spsc_keeps _ _ _ _).1, (enqueue_spsc_keeps _ _ _ _).2.1⟩
  · exact ⟨(dequeue_spsc_keeps _ _ _ _).1, (dequeue_spsc_keeps _ _ _ _).2.1⟩
  · rw [trydequeue_spmc_quiet]
    exact ⟨(dequeue_spsc_keeps _ _ _ _).1, (dequeue_spsc_keeps _ _ _ _).2.1⟩
  · exact (run_keeps fuel calls _ _ hrun).1

/-- The frame conditions at a concrete state: capacity 4, 4-byte records, one record held;
the enqueue writes slot 1 and leaves slot 0. -/
theorem frame_conditions_witness :
    EnqueueFrame 4 ⟨0, 1, 4, 3⟩ (fun _ => 0) (fun _ => 1)
      (_ck_ring_enqueue_spsc ⟨0, 1, 4, 3⟩ (fun _ => 0) (fun _ => 1) 4) ∧
    DequeueFrame 4 ⟨0, 1, 4, 3⟩ (fun _ => 0) (fun _ => 1)
      (_ck_ring_dequeue_spsc ⟨0, 1, 4, 3⟩ (fun _ => 0) (fun _ => 1) 4) ∧
    ck_ring_capacity (ck_ring_init ⟨7, 7, 7, 7⟩ 4) = 4 :=
  ⟨(frame_conditions 2 4 ⟨0, 1, 4, 3⟩ rfl rfl (by decide) (fun _ => 0)
      (fun _ => 1) 0 ⟨0, 0, 0, 0⟩ ⟨7, 7, 7, 7⟩ 4 (fun _ => 0) [] [] _ rfl).1.1,
    (frame_conditions 2 4 ⟨0, 1, 4, 3⟩ rfl rfl (by decide) (fun _ => 0)
      (fun _ => 1) 0 ⟨0, 0, 0, 0⟩ ⟨7, 7, 7, 7⟩ 4 (fun _ => 0) [] [] _ rfl).2.1.1,
    (frame_conditions 2 4 ⟨0, 1, 4, 3⟩ rfl rfl (by decide) (fun _ => 0)
      (fun _ => 1) 0 ⟨0, 0, 0, 0⟩ ⟨7, 7, 7, 7⟩ 4 (fun _ => 0) [] [] _ rfl).2.2.2⟩

/-- Without the bound on the slot storage an enqueue changes another slot: with 8-byte
records and capacity `2 ^ 30`, the enqueue at `p_tail = 2 ^ 29` succeeds and writes the bytes
of slot `0` (byte offset `8 * 2 ^ 29 mod 2 ^ 32 = 0`), and slot `2 ^ 29` is not written. -/
theorem frame_conditions_counterexample :
    (_ck_ring_enqueue_spsc ⟨0, 2 ^ 29, 2 ^ 30, 2 ^ 30 - 1⟩ (fun _ => 0) (fun _ => 1) 8).1 = true ∧
    slot (_ck_ring_enqueue_spsc ⟨0, 2 ^ 29, 2 ^ 30, 2 ^ 30 - 1⟩ (fun _ => 0) (fun _ => 1) 8).2.2
      8 0 = [1, 1, 1, 1, 1, 1, 1, 1] ∧
    slot (fun _ => 0) 8 0 = [0, 0, 0, 0, 0, 0, 0, 0] ∧
    slot (_ck_ring_enqueue_spsc ⟨0, 2 ^ 29, 2 ^ 30, 2 ^ 30 - 1⟩ (fun _ => 0) (fun _ => 1) 8).2.2
      8 (2 ^ 29) = [0, 0, 0, 0, 0, 0, 0, 0] ∧
    ¬ EnqueueFrame 8 ⟨0, 2 ^ 29, 2 ^ 30, 2 ^ 30 - 1⟩ (fun _ => 0) (fun _ => 1)
      (_ck_ring_enqueue_spsc ⟨0, 2 ^ 29, 2 ^ 30, 2 ^ 30 - 1⟩ (fun _ => 0) (fun _ => 1) 8) := by
  have hE : _ck_ring_enqueue_spsc ⟨0, 2 ^ 29, 2 ^ 30, 2 ^ 30 - 1⟩ (fun _ => 0) (fun _ => 1) 8 =
      (true, ⟨0, 536870913, 2 ^ 30, 2 ^ 30 - 1⟩, memcpy (fun _ => 0) 0 (fun _ => 1) 0 8) := rfl
  rw [hE]
  refine ⟨rfl, by decide, by decide, by decide, ?_⟩
  intro h
  have h3 := (h rfl).2.2 0 (by decide) (by decide)
  revert h3
  decide

/-! ### Advancing both indices by a multiple of the capacity -/

theorem u_add_mod_pow {k : Nat} (hk : k < 32) (x d : Nat) (hd : 2 ^ k ∣ d) :
    (u_add x d) &&& (2 ^ k - 1) = x &&& (2 ^ k - 1) := by
  rw [land_mask, land_mask]
  unfold u_add
  rw [Nat.mod_mod_of_dvd _ (pow_dvd_UINT_MOD hk)]
  obtain ⟨e, rfl⟩ := hd
  exact Nat.add_mul_mod_self_left x (2 ^ k) e

theorem u_add_comm_one (x d : Nat) : u_add (u_add x d) 1 = u_add (u_add x 1) d := by
  unfold u_add UINT_MOD
  omega

theorem u_add_inj (x y d : Nat) (hx : x < UINT_MOD) (hy : y < UINT_MOD) :
    u_add x d = u_add y d ↔ x = y := by
  unfold u_add
  unfold UINT_MOD at *
  omega

theorem shift_step {k : Nat} (hk : k < 32) (size d : Nat) (hd : 2 ^ k ∣ d) (ring : ck_ring)
    (hmask : ring.mask = 2 ^ k - 1) (hc : ring.c_head < UINT_MOD) (hp : ring.p_tail < UINT_MOD)
    (buf : Mem) (c : SpscCall) :
    spsc_step size c (shift d ring, buf) =
      ((spsc_step size c (ring, buf)).1,
        (shift d (spsc_step size c (ring, buf)).2.1, (spsc_step size c (ring, buf)).2.2)) := by
  cases c with
  | enqueue src =>
    have hcond : ((u_add (u_add ring.p_tail d) 1) &&& ring.mask =
        (u_add ring.c_head d) &&& ring.mask) ↔
        ((u_add ring.p_tail 1) &&& ring.mask = ring.c_head &&& ring.mask) := by
      rw [u_add_comm_one, hmask, u_add_mod_pow hk _ _ hd, u_add_mod_pow hk _ _ hd]
    have hoff : (u_add ring.p_tail d) &&& ring.mask = ring.p_tail &&& ring.mask := by
      rw [hmask, u_add_mod_pow hk _ _ hd]
    unfold spsc_step _ck_ring_enqueue_spsc shift
    simp only []
    by_cases hf : (u_add ring.p_tail 1) &&& ring.mask = ring.c_head &&& ring.mask
    · rw [if_pos hf, if_pos (hcond.2 hf)]
    · rw [if_neg hf, if_neg (fun h => hf (hcond.1 h)), hoff, u_add_comm_one]
  | dequeue tgt =>
    have hcond : (u_add ring.c_head d = u_add ring.p_tail d) ↔ ring.c_head = ring.p_tail :=
      u_add_inj _ _ _ hc hp
    have hoff : (u_add ring.c_head d) &&& ring.mask = ring.c_head &&& ring.mask := by
      rw [hmask, u_add_mod_pow hk _ _ hd]
    unfold spsc_step _ck_ring_dequeue_spsc shift
    simp only []
    by_cases he : ring.c_head = ring.p_tail
    · rw [if_pos he, if_pos (hcond.2 he)]
    · rw [if_neg he, if_neg (fun h => he (hcond.1 h)), hoff, u_add_comm_one]

theorem spsc_step_typed (size : Nat) (c : SpscCall) (w : World)
    (hc : w.1.c_head < UINT_MOD) (hp : w.1.p_tail < UINT_MOD) :
    (spsc_step size c w).2.1.mask = w.1.mask ∧
    (spsc_step size c w).2.1.c_head < UINT_MOD ∧
    (spsc_step size c w).2.1.p_tail < UINT_MOD := by
  have hM : 0 < UINT_MOD := by unfold UINT_MOD; omega
  cases c with
  | enqueue src =>
    unfold spsc_step _ck_ring_enqueue_spsc
    simp only []
    split
    · exact ⟨rfl, hc, hp⟩
    · exact ⟨rfl, hc, Nat.mod_lt _ hM⟩
  | dequeue tgt =>
    unfold spsc_step _ck_ring_dequeue_spsc
    simp only []
    split
    · exact ⟨rfl, hc, hp⟩
    · exact ⟨rfl, Nat.mod_lt _ hM, hp⟩

theorem shift_run {k : Nat} (hk : k < 32) (size d : Nat) (hd : 2 ^ k ∣ d)
    (calls : List SpscCall) :
    ∀ (ring : ck_ring) (buf : Mem), ring.mask = 2 ^ k - 1 → ring.c_head < UINT_MOD →
      ring.p_tail < UINT_MOD →
      spsc_run size calls (shift d ring, buf) =
        ((spsc_run size calls (ring, buf)).1,
          (shift d (spsc_run size calls (ring, buf)).2.1,
            (spsc_run size calls (ring, buf)).2.2)) := by
  induction calls with
  | nil => intro ring buf _ _ _; rfl
  | cons c cs ih =>
    intro ring buf hmask hc hp
    obtain ⟨t1, t2, t3⟩ := spsc_step_typed size c (ring, buf) hc hp
    simp only [spsc_run, shift_step hk size d hd ring hmask hc hp buf c]
    rw [ih _ _ (t1.trans hmask) t2 t3]

/-! ### Counter wraparound -/

theorem idxInv_of_occupancy {k : Nat} (hk : k < 32) {ring : ck_ring}
    (hsize : ring.size = 2 ^ k) (hmask : ring.mask = 2 ^ k - 1)
    (hc : ring.c_head < 2 ^ 32) (hp : ring.p_tail < 2 ^ 32)
    (hocc : u_sub ring.p_tail ring.c_head ≤ 2 ^ k - 1) :
    IdxInv k (u_sub ring.p_tail ring.c_head) ring := by
  refine ⟨hk, hsize, hmask, ?_, hocc, ?_⟩
  · rw [UINT_MOD_eq]; exact hc
  · unfold u_sub UINT_MOD
    norm_num at hc hp
    omega

theorem occupancy_of_idxInv {k cnt : Nat} {ring : ck_ring} (h : IdxInv k cnt ring) :
    u_sub ring.p_tail ring.c_head = cnt := by
  have hlt := pow_lt_UINT_MOD h.hk
  have hle := h.cnt_le
  have hc := h.head_lt
  have hpos := Nat.two_pow_pos k
  rw [h.tail_eq]
  unfold u_sub
  unfold UINT_MOD at *
  omega

theorem next_slot {k : Nat} (hk : k < 32) (x : Nat) :
    (u_add x 1) &&& (2 ^ k - 1) = ((x &&& (2 ^ k - 1)) + 1) % 2 ^ k := by
  rw [land_mask, land_mask]
  unfold u_add
  rw [Nat.mod_mod_of_dvd _ (pow_dvd_UINT_MOD hk)]
  exact ((Nat.mod_modEq x (2 ^ k)).add_right 1).symm

/-- With 8-byte records and capacity `2 ^ 30`, starting from the empty ring whose indices are
both `2 ^ 32 - 2 ^ 29`: the `2 ^ 29` enqueues carry `p_tail` across `2 ^ 32` to `0`, the next
record is written at byte offset `0`, which is also the offset `8 * 2 ^ 29 mod 2 ^ 32` of the
slot of the oldest record, and the first dequeue returns it. -/
theorem wrap_alias (buf0 : Mem) (xs : List Mem) (y t : Mem) (hlen : xs.length = 536870912) :
    (spsc_run 8 (xs.map SpscCall.enqueue ++ [SpscCall.enqueue y, SpscCall.dequeue t])
      (⟨3758096384, 3758096384, 2 ^ 30, 2 ^ 30 - 1⟩, buf0)).1 =
      xs.map (fun x => Event.enq_ok (load x 0 8)) ++
        [Event.enq_ok (load y 0 8), Event.deq_ok (load y 0 8)] := by
  rw [spsc_run_append]
  have hinit : IdxInv 30 0
      ((⟨3758096384, 3758096384, 2 ^ 30, 2 ^ 30 - 1⟩ : ck_ring), buf0).1 :=
    ⟨by decide, rfl, rfl, (by decide : 3758096384 < UINT_MOD), by decide,
      (by decide : 3758096384 = (3758096384 + 0) % UINT_MOD)⟩
  obtain ⟨e1, e2, e3, -⟩ := spsc_fill_idx 30 8 xs
    ((⟨3758096384, 3758096384, 2 ^ 30, 2 ^ 30 - 1⟩ : ck_ring), buf0) 0
    hinit (by rw [hlen]; decide)
  have h1 := e2.size_eq
  have h2 := e2.mask_eq
  have h3 := e2.tail_eq
  rw [e3, hlen] at h3
  have h3' : (spsc_run 8 (xs.map SpscCall.enqueue)
      ((⟨3758096384, 3758096384, 2 ^ 30, 2 ^ 30 - 1⟩ : ck_ring), buf0)).2.1.p_tail = 0 := by
    rw [h3]
    exact (by decide : (3758096384 + (0 + 536870912)) % UINT_MOD = 0)
  generalize hw : (spsc_run 8 (xs.map SpscCall.enqueue)
    ((⟨3758096384, 3758096384, 2 ^ 30, 2 ^ 30 - 1⟩ : ck_ring), buf0)).2 = w1 at e3 h1 h2 h3'
  obtain ⟨ring1, buf1⟩ := w1
  have hring : ring1 = ⟨3758096384, 0, 2 ^ 30, 2 ^ 30 - 1⟩ := by
    cases ring1
    simp only [ck_ring.mk.injEq]
    exact ⟨e3, h3', h1, h2⟩
  subst hring
  rw [e1]
  have hE : _ck_ring_enqueue_spsc ⟨3758096384, 0, 2 ^ 30, 2 ^ 30 - 1⟩ buf1 y 8 =
      (true, ⟨3758096384, 1, 2 ^ 30, 2 ^ 30 - 1⟩, memcpy buf1 0 y 0 8) := rfl
  have hD : _ck_ring_dequeue_spsc ⟨3758096384, 1, 2 ^ 30, 2 ^ 30 - 1⟩
      (memcpy buf1 0 y 0 8) t 8 =
      (true, ⟨3758096385, 1, 2 ^ 30, 2 ^ 30 - 1⟩, memcpy t 0 (memcpy buf1 0 y 0 8) 0 8) := rfl
  simp only [spsc_run, spsc_step, hE, hD, if_true, load_memcpy_same]

theorem enqueued_enq_ok (zs : List Mem) (size : Nat) :
    enqueued (zs.map (fun x => Event.enq_ok (load x 0 size))) =
      zs.map (fun x => load x 0 size) ∧
    dequeued (zs.map (fun x => Event.enq_ok (load x 0 size))) = [] := by
  induction zs with
  | nil => exact ⟨rfl, rfl⟩
  | cons z zs ih => simp [enqueued, dequeued, ih]

/-- C16 (amended): counter wraparound is harmless.  With `c_head` and `p_tail` below `2 ^ 32` and all
arithmetic modulo `2 ^ 32`, for every capacity `2 ^ k` (`k < 32`) with `mask = capacity - 1`
and every state with `(p_tail - c_head) mod 2 ^ 32 ≤ 2 ^ k - 1`: a successful enqueue raises
`ck_ring_size` by one and a successful dequeue lowers it by one; enqueue fails exactly when
the size is `2 ^ k - 1` and dequeue exactly when it is `0`; the slot after the one addressed
by an index `x` is addressed by `x + 1`, modulo the capacity; the bound on
`(p_tail - c_head) mod 2 ^ 32` holds again after either call; after every sequence of calls
from the state the size is the size before plus the successful enqueues minus the successful
dequeues and at most `2 ^ k - 1`; when the slot storage holds the records `q` (and no slot
offset wraps, `size * (2 ^ k - 1) < 2 ^ 32`) every sequence of SPSC calls returns the records
of `q` followed by the enqueued ones in order, the ring holding the rest; and advancing both
indices by any multiple of the capacity, across `2 ^ 32` or not, changes neither the outcome
of any sequence of SPSC calls nor the slot storage it leaves. -/
theorem counter_wraparound (k : Nat) (hk : k < 32) (ring : ck_ring)
    (hsize : ring.size = 2 ^ k) (hmask : ring.mask = 2 ^ k - 1)
    (hc : ring.c_head < 2 ^ 32) (hp : ring.p_tail < 2 ^ 32)
    (hocc : u_sub ring.p_tail ring.c_head ≤ 2 ^ k - 1)
    (buffer record : Mem) (size : Nat) (x : Nat) :
    ((_ck_ring_enqueue_spsc ring buffer record size).1 = true →
      ck_ring_size (_ck_ring_enqueue_spsc ring buffer record size).2.1 =
        ck_ring_size ring + 1) ∧
    ((_ck_ring_dequeue_spsc ring buffer record size).1 = true →
      ck_ring_size (_ck_ring_dequeue_spsc ring buffer record size).2.1 + 1 =
        ck_ring_size ring) ∧
    ((_ck_ring_enqueue_spsc ring buffer record size).1 = false ↔
      ck_ring_size ring = 2 ^ k - 1) ∧
    ((_ck_ring_dequeue_spsc ring buffer record size).1 = false ↔ ck_ring_size ring = 0) ∧
    (u_add x 1) &&& ring.mask = ((x &&& ring.mask) + 1) % 2 ^ k ∧
    (u_sub (_ck_ring_enqueue_spsc ring buffer record size).2.1.p_tail
        (_ck_ring_enqueue_spsc ring buffer record size).2.1.c_head ≤ 2 ^ k - 1 ∧
      u_sub (_ck_ring_dequeue_spsc ring buffer record size).2.1.p_tail
        (_ck_ring_dequeue_spsc ring buffer record size).2.1.c_head ≤ 2 ^ k - 1) ∧
    (∀ (fuel : Nat) (calls : List Call) (evs : List Event) (w : World),
      run fuel calls (ring, buffer) = some (evs, w) →
        ck_ring_size ring + (enqueued evs).length =
          ck_ring_size w.1 + (dequeued evs).length ∧
        ck_ring_size w.1 ≤ 2 ^ k - 1) ∧
    (∀ (q : List (List Nat)) (calls : List SpscCall),
      size * (2 ^ k - 1) < 2 ^ 32 → Holds k size (ring, buffer) q →
        ∃ held : List (List Nat),
          q ++ enqueued (spsc_run size calls (ring, buffer)).1 =
            dequeued (spsc_run size calls (ring, buffer)).1 ++ held ∧
          Holds k size (spsc_run size calls (ring, buffer)).2 held) ∧
    (∀ (d : Nat) (calls : List SpscCall), 2 ^ k ∣ d →
      spsc_run size calls (shift d ring, buffer) =
        ((spsc_run size calls (ring, buffer)).1,
          (shift d (spsc_run size calls (ring, buffer)).2.1,
            (spsc_run size calls (ring, buffer)).2.2))) := by
  have hi := idxInv_of_occupancy hk hsize hmask hc hp hocc
  have hs := size_eq_cnt hi
  refine ⟨?_, ?_, ?_, ?_, ?_, ?_, ?_, ?_, ?_⟩
  · by_cases hf : u_sub ring.p_tail ring.c_head = 2 ^ k - 1
    · rw [enqueue_spsc_full hi hf]
      intro h; simp at h
    · rw [enqueue_spsc_ok hi hf]
      intro _
      rw [size_eq_cnt (idxInv_enq hi hf), hs]
  · by_cases he : u_sub ring.p_tail ring.c_head = 0
    · rw [dequeue_spsc_empty ((empty_iff hi).2 he)]
      intro h; simp at h
    · rw [dequeue_spsc_ok (fun e => he ((empty_iff hi).1 e))]
      intro _
      rw [size_eq_cnt (idxInv_deq hi he), hs]
      omega
  · rw [hs]
    by_cases hf : u_sub ring.p_tail ring.c_head = 2 ^ k - 1
    · rw [enqueue_spsc_full hi hf]
      simp [hf]
    · rw [enqueue_spsc_ok hi hf]
      simp [hf]
  · rw [hs]
    by_cases he : u_sub ring.p_tail ring.c_head = 0
    · rw [dequeue_spsc_empty ((empty_iff hi).2 he)]
      simp [he]
    · rw [dequeue_spsc_ok (fun e => he ((empty_iff hi).1 e))]
      simp [he]
  · rw [hmask]
    exact next_slot hk x
  · constructor
    · by_cases hf : u_sub ring.p_tail ring.c_head = 2 ^ k - 1
      · rw [enqueue_spsc_full hi hf]
        exact hocc
      · rw [enqueue_spsc_ok hi hf]
        have h' := idxInv_enq hi hf
        rw [occupancy_of_idxInv h']
        exact h'.cnt_le
    · by_cases he : u_sub ring.p_tail ring.c_head = 0
      · rw [dequeue_spsc_empty ((empty_iff hi).2 he)]
        exact hocc
      · rw [dequeue_spsc_ok (fun e => he ((empty_iff hi).1 e))]
        have h' := idxInv_deq hi he
        rw [occupancy_of_idxInv h']
        exact h'.cnt_le
  · intro fuel calls evs w hrun
    obtain ⟨cnt, hi', hcnt⟩ := run_inv fuel calls (ring, buffer) _ evs w hi hrun
    rw [hs, size_eq_cnt hi']
    exact ⟨hcnt, hi'.cnt_le⟩
  · intro q calls hfit hq
    have hfit' : size * (2 ^ k - 1) < UINT_MOD := by rw [UINT_MOD_eq]; exact hfit
    obtain ⟨q', h', e⟩ := spsc_run_holds hfit' calls (ring, buffer) q hq
    exact ⟨q', e, h'⟩
  · intro d calls hd
    exact shift_run hk size d hd calls ring buffer hmask hi.head_lt
      (by rw [UINT_MOD_eq]; exact hp)

/-- The wraparound facts at concrete states: with `p_tail = 0xFFFFFFFF` an enqueue wraps the
producer index to `0` and the size goes from 1 to 2; from the state `c_head = 0xFFFFFFFF`,
`p_tail = 1` holding two records, a dequeue, an enqueue and a dequeue keep FIFO order. -/
theorem counter_wraparound_witness :
    (_ck_ring_enqueue_spsc ⟨4294967294, 4294967295, 4, 3⟩ (fun _ => 7) (fun _ => 1) 4).2.1 =
      ⟨4294967294, 0, 4, 3⟩ ∧
    ck_ring_size (_ck_ring_enqueue_spsc ⟨4294967294, 4294967295, 4, 3⟩ (fun _ => 7)
        (fun _ => 1) 4).2.1 = ck_ring_size ⟨4294967294, 4294967295, 4, 3⟩ + 1 ∧
    ∃ held : List (List Nat),
      [[7, 7, 7, 7], [7, 7, 7, 7]] ++
          enqueued (spsc_run 4 [SpscCall.dequeue (fun _ => 0), SpscCall.enqueue (fun _ => 1),
            SpscCall.dequeue (fun _ => 0)] (⟨4294967295, 1, 4, 3⟩, fun _ => 7)).1 =
        dequeued (spsc_run 4 [SpscCall.dequeue (fun _ => 0), SpscCall.enqueue (fun _ => 1),
            SpscCall.dequeue (fun _ => 0)] (⟨4294967295, 1, 4, 3⟩, fun _ => 7)).1 ++ held ∧
      Holds 2 4 (spsc_run 4 [SpscCall.dequeue (fun _ => 0), SpscCall.enqueue (fun _ => 1),
        SpscCall.dequeue (fun _ => 0)] (⟨4294967295, 1, 4, 3⟩, fun _ => 7)).2 held :=
  ⟨rfl,
    (counter_wraparound 2 (by decide) ⟨4294967294, 4294967295, 4, 3⟩ rfl rfl (by decide)
      (by decide) (by decide) (fun _ => 7) (fun _ => 1) 4 0).1 rfl,
    (counter_wraparound 2 (by decide) ⟨4294967295, 1, 4, 3⟩ rfl rfl (by decide)
      (by decide) (by decide) (fun _ => 7) (fun _ => 1) 4 0).2.2.2.2.2.2.2.1
      [[7, 7, 7, 7], [7, 7, 7, 7]] _ (by decide)
      ⟨⟨by decide, rfl, rfl, by decide, by decide, by decide⟩,
        fun j hj => by
          have hj2 : j < 2 := hj
          interval_cases j <;> rfl⟩⟩

/-- Without the bound on the slot offsets FIFO order fails across the overflow of `p_tail`:
capacity `2 ^ 30`, 8-byte records, empty ring with both indices `2 ^ 32 - 2 ^ 29` (it holds
the empty queue).  After `2 ^ 29` enqueues of the record `00..00` the producer index has
wrapped to `0`; the record `01..01` enqueued next is the one the first dequeue returns,
so the records returned are not a beginning of the records accepted. -/
theorem counter_wraparound_counterexample :
    u_sub 3758096384 3758096384 ≤ 2 ^ 30 - 1 ∧
    Holds 30 8 (⟨3758096384, 3758096384, 2 ^ 30, 2 ^ 30 - 1⟩, fun _ => 0) [] ∧
    dequeued (spsc_run 8
      ((List.replicate (2 ^ 29) (fun _ => 0)).map SpscCall.enqueue ++
        [SpscCall.enqueue (fun _ => 1), SpscCall.dequeue (fun _ => 0)])
      (⟨3758096384, 3758096384, 2 ^ 30, 2 ^ 30 - 1⟩, fun _ => 0)).1 =
      [[1, 1, 1, 1, 1, 1, 1, 1]] ∧
    enqueued (spsc_run 8
      ((List.replicate (2 ^ 29) (fun _ => 0)).map SpscCall.enqueue ++
        [SpscCall.enqueue (fun _ => 1), SpscCall.dequeue (fun _ => 0)])
      (⟨3758096384, 3758096384, 2 ^ 30, 2 ^ 30 - 1⟩, fun _ => 0)).1 =
      List.replicate (2 ^ 29) [0, 0, 0, 0, 0, 0, 0, 0] ++ [[1, 1, 1, 1, 1, 1, 1, 1]] ∧
    ¬ ∃ held : List (List Nat),
      [] ++ enqueued (spsc_run 8
        ((List.replicate (2 ^ 29) (fun _ => 0)).map SpscCall.enqueue ++
          [SpscCall.enqueue (fun _ => 1), SpscCall.dequeue (fun _ => 0)])
        (⟨3758096384, 3758096384, 2 ^ 30, 2 ^ 30 - 1⟩, fun _ => 0)).1 =
      dequeued (spsc_run 8
        ((List.replicate (2 ^ 29) (fun _ => 0)).map SpscCall.enqueue ++
          [SpscCall.enqueue (fun _ => 1), SpscCall.dequeue (fun _ => 0)])
        (⟨3758096384, 3758096384, 2 ^ 30, 2 ^ 30 - 1⟩, fun _ => 0)).1 ++ held := by
  have hlen : (List.replicate (2 ^ 29) (fun _ => 0 : Mem)).length = 536870912 :=
    (List.length_replicate _ _).trans (by norm_num)
  have hrun := wrap_alias (fun _ => 0) (List.replicate (2 ^ 29) (fun _ => 0))
    (fun _ => 1) (fun _ => 0) hlen
  have hy : load (fun _ => 1 : Mem) 0 8 = [1, 1, 1, 1, 1, 1, 1, 1] := by decide
  have hx : load (fun _ => 0 : Mem) 0 8 = [0, 0, 0, 0, 0, 0, 0, 0] := by decide
  have hdeq : dequeued (spsc_run 8
      ((List.replicate (2 ^ 29) (fun _ => 0)).map SpscCall.enqueue ++
        [SpscCall.enqueue (fun _ => 1), SpscCall.dequeue (fun _ => 0)])
      (⟨3758096384, 3758096384, 2 ^ 30, 2 ^ 30 - 1⟩, fun _ => 0)).1 =
      [[1, 1, 1, 1, 1, 1, 1, 1]] := by
    rw [hrun, dequeued_append, (enqueued_enq_ok _ 8).2, hy]
    rfl
  have henq : enqueued (spsc_run 8
      ((List.replicate (2 ^ 29) (fun _ => 0)).map SpscCall.enqueue ++
        [SpscCall.enqueue (fun _ => 1), SpscCall.dequeue (fun _ => 0)])
      (⟨3758096384, 3758096384, 2 ^ 30, 2 ^ 30 - 1⟩, fun _ => 0)).1 =
      List.replicate (2 ^ 29) [0, 0, 0, 0, 0, 0, 0, 0] ++ [[1, 1, 1, 1, 1, 1, 1, 1]] := by
    rw [hrun, enqueued_append, (enqueued_enq_ok _ 8).1, hy, List.map_replicate, hx]
    rfl
  refine ⟨by decide, ⟨⟨by decide, rfl, rfl, by decide, by decide, by decide⟩,
    fun j hj => absurd hj (Nat.not_lt_zero j)⟩, hdeq, henq, ?_⟩
  rintro ⟨held, h⟩
  rw [hdeq, henq, List.nil_append] at h
  have hpos : 0 < 2 ^ 29 := by norm_num
  obtain ⟨m, hm⟩ : ∃ m, 2 ^ 29 = m + 1 := ⟨2 ^ 29 - 1, by norm_num⟩
  rw [hm, List.replicate_succ] at h
  simp only [List.cons_append, List.cons.injEq] at h
  exact absurd h.1 (by decide)

/-! ### Byte addressing of the slots -/

/-- C20: byte-level slot addressing.  With element width `w` and capacity `2 ^ k` such that
`w * 2 ^ k ≤ 2 ^ 32`, on a ring with `mask = 2 ^ k - 1`: the offset `w * (index & mask)`
computed in `unsigned int` arithmetic is the exact product, the slot it starts ends within
the `w * 2 ^ k` bytes of the slot storage (so the offset is below `w * 2 ^ k` when `0 < w`),
and different slot numbers below `2 ^ k` have disjoint byte ranges.  Hence a successful enqueue
changes exactly the `w` bytes of its slot, which then hold the record, and a later successful
dequeue addressing that slot, the bytes of the slot being still the same, returns exactly the
record.  The typed wrappers are the untyped core called with `sizeof(struct type)`. -/
theorem byte_addressing (k w : Nat) (hfit : w * 2 ^ k ≤ 2 ^ 32) (ring ring2 : ck_ring)
    (hmask : ring.mask = 2 ^ k - 1) (hmask2 : ring2.mask = 2 ^ k - 1)
    (buffer buffer2 record target : Mem) (index i j : Nat) :
    (u_mul w (index &&& ring.mask) = w * (index &&& ring.mask) ∧
      w * (index &&& ring.mask) < 2 ^ 32 ∧
      w * (index &&& ring.mask) + w ≤ w * 2 ^ k ∧
      (0 < w → w * (index &&& ring.mask) < w * 2 ^ k)) ∧
    (i < 2 ^ k → j < 2 ^ k → i ≠ j →
      ∀ a, ¬ ((w * i ≤ a ∧ a < w * i + w) ∧ (w * j ≤ a ∧ a < w * j + w))) ∧
    ((_ck_ring_enqueue_spsc ring buffer record w).1 = true →
      load (_ck_ring_enqueue_spsc ring buffer record w).2.2
          (w * (ring.p_tail &&& ring.mask)) w = load record 0 w ∧
      (∀ a, ¬ (w * (ring.p_tail &&& ring.mask) ≤ a ∧
          a < w * (ring.p_tail &&& ring.mask) + w) →
        (_ck_ring_enqueue_spsc ring buffer record w).2.2 a = buffer a) ∧
      ((ring2.c_head &&& ring2.mask) = (ring.p_tail &&& ring.mask) →
        (∀ a, w * (ring.p_tail &&& ring.mask) ≤ a → a < w * (ring.p_tail &&& ring.mask) + w →
          buffer2 a = (_ck_ring_enqueue_spsc ring buffer record w).2.2 a) →
        (_ck_ring_dequeue_spsc ring2 buffer2 target w).1 = true →
        load (_ck_ring_dequeue_spsc ring2 buffer2 target w).2.2 0 w = load record 0 w)) ∧
    (ck_ring_enqueue_spsc_name w ring buffer record =
        _ck_ring_enqueue_spsc ring buffer record w ∧
      ck_ring_dequeue_spsc_name w ring buffer target =
        _ck_ring_dequeue_spsc ring buffer target w) := by
  have hpos := Nat.two_pow_pos k
  have hfit' : w * (2 ^ k - 1) < UINT_MOD := by
    rw [UINT_MOD_eq]
    rcases Nat.eq_zero_or_pos w with h0 | h0
    · rw [h0]; simp
    · have : w * (2 ^ k - 1) + w = w * 2 ^ k := by
        rw [Nat.mul_sub, Nat.mul_one]
        have := Nat.le_mul_of_pos_right w hpos
        omega
      omega
  have hidx : ∀ y, y &&& ring.mask ≤ 2 ^ k - 1 := by
    intro y
    rw [hmask, land_mask]
    have := Nat.mod_lt y hpos
    omega
  have hend : ∀ y, w * (y &&& ring.mask) + w ≤ w * 2 ^ k := by
    intro y
    calc w * (y &&& ring.mask) + w = w * ((y &&& ring.mask) + 1) := by ring
      _ ≤ w * 2 ^ k := Nat.mul_le_mul_left _ (by have := hidx y; omega)
  refine ⟨⟨?_, ?_, hend index, ?_⟩, ?_, ?_, ⟨rfl, rfl⟩⟩
  · rw [hmask, slot_offset _ _ hfit', land_mask]
  · have h1 := Nat.mul_le_mul_left w (hidx index)
    rw [UINT_MOD_eq] at hfit'
    omega
  · intro hw
    have := hend index
    omega
  · intro _ _ hij a
    rcases slot_disjoint w i j hij with h | h <;> omega
  · intro hs
    have hoff : u_mul w (ring.p_tail &&& ring.mask) = w * (ring.p_tail &&& ring.mask) := by
      rw [hmask, slot_offset _ _ hfit', land_mask]
    rw [enqueue_spsc_of_true _ _ _ _ hs, hoff]
    refine ⟨load_memcpy_same _ _ _ _ _, ?_, ?_⟩
    · intro a ha
      show memcpy buffer (w * (ring.p_tail &&& ring.mask)) record 0 w a = buffer a
      unfold memcpy
      rw [if_neg ha]
    · intro hslot hsame hd
      have hoff2 : u_mul w (ring2.c_head &&& ring2.mask) =
          w * (ring.p_tail &&& ring.mask) := by
        rw [hslot, hoff]
      rw [dequeue_spsc_of_true _ _ _ _ hd, hoff2]
      show load (memcpy target 0 buffer2 (w * (ring.p_tail &&& ring.mask)) w) 0 w =
        load record 0 w
      rw [load_memcpy_same]
      rw [← load_memcpy_same buffer record (w * (ring.p_tail &&& ring.mask)) 0 w]
      apply load_congr
      intro n hn
      exact hsame _ (Nat.le_add_right _ _) (by omega)

/-- Byte addressing at a concrete state: 16-byte records in a ring of capacity 4; the enqueue
at `p_tail = 6` writes bytes 32 to 47, and the dequeue at `c_head = 6` returns them. -/
theorem byte_addressing_witness :
    (u_mul 16 (6 &&& 3) = 16 * (6 &&& 3) ∧ 16 * (6 &&& 3) < 2 ^ 32 ∧
      16 * (6 &&& 3) + 16 ≤ 16 * 2 ^ 2 ∧ (0 < 16 → 16 * (6 &&& 3) < 16 * 2 ^ 2)) ∧
    load (_ck_ring_dequeue_spsc ⟨6, 7, 4, 3⟩
        (_ck_ring_enqueue_spsc ⟨5, 6, 4, 3⟩ (fun _ => 0) (fun _ => 1) 16).2.2
        (fun _ => 0) 16).2.2 0 16 = load (fun _ => 1) 0 16 :=
  ⟨(byte_addressing 2 16 (by decide) ⟨5, 6, 4, 3⟩ ⟨6, 7, 4, 3⟩ rfl rfl (fun _ => 0)
      (_ck_ring_enqueue_spsc ⟨5, 6, 4, 3⟩ (fun _ => 0) (fun _ => 1) 16).2.2 (fun _ => 1)
      (fun _ => 0) 6 0 1).1,
    ((byte_addressing 2 16 (by decide) ⟨5, 6, 4, 3⟩ ⟨6, 7, 4, 3⟩ rfl rfl (fun _ => 0)
      (_ck_ring_enqueue_spsc ⟨5, 6, 4, 3⟩ (fun _ => 0) (fun _ => 1) 16).2.2 (fun _ => 1)
      (fun _ => 0) 6 0 1).2.2.1 rfl).2.2 rfl (fun _ _ _ => rfl) rfl⟩

/-! ### Capacities that are not a power of two -/

theorem lowest_clear_bit_aux_spec (fuel : Nat) :
    ∀ m, m < fuel →
      Nat.testBit m (lowest_clear_bit_aux fuel m) = false ∧
      (∀ i, i < lowest_clear_bit_aux fuel m → Nat.testBit m i = true) ∧
      2 ^ lowest_clear_bit_aux fuel m ≤ m + 1 := by
  induction fuel with
  | zero => intro m hm; omega
  | succ f ih =>
    intro m hm
    unfold lowest_clear_bit_aux
    by_cases h0 : m % 2 = 0
    · rw [if_pos h0]
      refine ⟨?_, fun i hi => absurd hi (Nat.not_lt_zero _), by simp⟩
      rw [Nat.testBit_to_div_mod]
      simp [h0]
    · rw [if_neg h0]
      obtain ⟨h1, h2, h3⟩ := ih (m / 2) (by omega)
      refine ⟨?_, ?_, ?_⟩
      · rw [Nat.add_comm 1, Nat.testBit_succ]
        exact h1
      · intro i hi
        cases i with
        | zero =>
          rw [Nat.testBit_to_div_mod]
          simp
          omega
        | succ i =>
          rw [Nat.testBit_succ]
          exact h2 i (by omega)
      · rw [Nat.add_comm 1, Nat.pow_succ]
        omega

theorem lowest_clear_bit_spec (m : Nat) :
    Nat.testBit m (lowest_clear_bit m) = false ∧
    (∀ i, i < lowest_clear_bit m → Nat.testBit m i = true) ∧
    2 ^ lowest_clear_bit m ≤ m + 1 :=
  lowest_clear_bit_aux_spec (m + 1) m (Nat.lt_succ_self m)

theorem two_pow_land_eq_zero (m : Nat) : 2 ^ lowest_clear_bit m &&& m = 0 := by
  apply Nat.eq_of_testBit_eq
  intro i
  rw [Nat.testBit_and, Nat.testBit_two_pow, Nat.zero_testBit]
  by_cases h : lowest_clear_bit m = i
  · rw [← h, (lowest_clear_bit_spec m).1]
    simp
  · simp [h]

theorem land_ne_zero_of_lt (m j : Nat) (h0 : 0 < j) (hj : j < 2 ^ lowest_clear_bit m) :
    j &&& m ≠ 0 := by
  obtain ⟨i, hi⟩ := Nat.ne_zero_implies_bit_true (Nat.ne_of_gt h0)
  have hiz : i < lowest_clear_bit m := by
    by_contra hge
    have hle : 2 ^ lowest_clear_bit m ≤ 2 ^ i :=
      Nat.pow_le_pow_right (by decide) (Nat.le_of_not_lt hge)
    have := Nat.testBit_lt_two_pow (Nat.lt_of_lt_of_le hj hle)
    rw [this] at hi
    exact absurd hi (by decide)
  intro h
  have h1 : Nat.testBit (j &&& m) i = true := by
    rw [Nat.testBit_and, hi, (lowest_clear_bit_spec m).2.1 i hiz]
    rfl
  rw [h, Nat.zero_testBit] at h1
  exact absurd h1 (by decide)

theorem lowest_clear_bit_two_pow_sub_one (k : Nat) : lowest_clear_bit (2 ^ k - 1) = k := by
  obtain ⟨h1, h2, -⟩ := lowest_clear_bit_spec (2 ^ k - 1)
  rw [Nat.testBit_two_pow_sub_one] at h1
  have hge : k ≤ lowest_clear_bit (2 ^ k - 1) := by
    by_contra h
    simp [Nat.lt_of_not_le h] at h1
  by_contra hne
  have hlt : k < lowest_clear_bit (2 ^ k - 1) := by omega
  have := h2 k hlt
  rw [Nat.testBit_two_pow_sub_one] at this
  simp at this

/-- Consecutive enqueues on a ring with `c_head = 0` and any mask `m < 2 ^ 32 - 1`: they
succeed while `p_tail + 1` is below `2 ^ z`, `z` the lowest clear bit of `m`. -/
theorem fill_any_mask (size N m : Nat) (hm : m + 1 < UINT_MOD) (xs : List Mem) :
    ∀ (t : Nat) (buf : Mem), t + xs.length ≤ 2 ^ lowest_clear_bit m - 1 →
      ∃ buf1, spsc_run size (xs.map SpscCall.enqueue) (⟨0, t, N, m⟩, buf) =
        (xs.map (fun x => Event.enq_ok (load x 0 size)), (⟨0, t + xs.length, N, m⟩, buf1)) := by
  have hz := (lowest_clear_bit_spec m).2.2
  induction xs with
  | nil => intro t buf _; exact ⟨buf, rfl⟩
  | cons x xs ih =>
    intro t buf hl
    simp only [List.length_cons] at hl
    have hadd : u_add t 1 = t + 1 := by
      unfold u_add
      exact Nat.mod_eq_of_lt (by omega)
    have hne : ¬ ((u_add t 1) &&& m = 0 &&& m) := by
      rw [hadd, Nat.zero_and]
      exact land_ne_zero_of_lt m (t + 1) (Nat.succ_pos _) (by omega)
    have hstep : spsc_step size (SpscCall.enqueue x) (⟨0, t, N, m⟩, buf) =
        (Event.enq_ok (load x 0 size),
          (⟨0, t + 1, N, m⟩, memcpy buf (u_mul size (t &&& m)) x 0 size)) := by
      unfold spsc_step _ck_ring_enqueue_spsc
      simp only []
      rw [if_neg hne, hadd]
      rfl
    obtain ⟨buf1, e⟩ := ih (t + 1) (memcpy buf (u_mul size (t &&& m)) x 0 size) (by omega)
    refine ⟨buf1, ?_⟩
    simp only [List.map_cons, spsc_run, hstep, e, List.length_cons]
    have : t + 1 + xs.length = t + (xs.length + 1) := by omega
    rw [this]

/-- Once `p_tail + 1` reaches `2 ^ z`, every enqueue reports full and changes nothing. -/
theorem full_any_mask (size N m : Nat) (hm : m + 1 < UINT_MOD) (buf : Mem) (ys : List Mem) :
    spsc_run size (ys.map SpscCall.enqueue)
        (⟨0, 2 ^ lowest_clear_bit m - 1, N, m⟩, buf) =
      (ys.map (fun _ => Event.enq_full), (⟨0, 2 ^ lowest_clear_bit m - 1, N, m⟩, buf)) := by
  have hz := (lowest_clear_bit_spec m).2.2
  have hpos := Nat.two_pow_pos (lowest_clear_bit m)
  have hadd : u_add (2 ^ lowest_clear_bit m - 1) 1 = 2 ^ lowest_clear_bit m := by
    unfold u_add
    rw [Nat.sub_add_cancel hpos]
    exact Nat.mod_eq_of_lt (by omega)
  have hfull : (u_add (2 ^ lowest_clear_bit m - 1) 1) &&& m = 0 &&& m := by
    rw [hadd, Nat.zero_and]
    exact two_pow_land_eq_zero m
  have hstep : ∀ y, spsc_step size (SpscCall.enqueue y)
      (⟨0, 2 ^ lowest_clear_bit m - 1, N, m⟩, buf) =
      (Event.enq_full, (⟨0, 2 ^ lowest_clear_bit m - 1, N, m⟩, buf)) := by
    intro y
    unfold spsc_step _ck_ring_enqueue_spsc
    simp only []
    rw [if_pos hfull]
    rfl
  induction ys with
  | nil => rfl
  | cons y ys ih =>
    simp only [List.map_cons, spsc_run, hstep, ih]

/-- C19: `ck_ring_init` stores any capacity `N` (with `mask = N - 1`), and the fill guarantee
needs a power of two.  For every `1 ≤ N < 2 ^ 32`, with `z` the position of the lowest clear
bit of `N - 1`, the ring initialised with `N` accepts exactly `2 ^ z - 1` records: the first
`2 ^ z - 1` consecutive enqueues succeed and all further ones report full.  When `N ≥ 3` is
not a power of two this is strictly fewer than `N - 1` (none for `N = 3`, one for `N = 6`);
for `N = 2 ^ k` the same count is `N - 1`. -/
theorem fill_needs_power_of_two (N : Nat) (hN1 : 1 ≤ N) (hN : N < 2 ^ 32) (size : Nat)
    (ring0 : ck_ring) (buf0 : Mem) (xs ys : List Mem)
    (hx : xs.length = 2 ^ lowest_clear_bit (N - 1) - 1) :
    ((ck_ring_init ring0 N).size = N ∧ (ck_ring_init ring0 N).mask = N - 1) ∧
    (spsc_run size ((xs ++ ys).map SpscCall.enqueue) (ck_ring_init ring0 N, buf0)).1 =
      xs.map (fun x => Event.enq_ok (load x 0 size)) ++ ys.map (fun _ => Event.enq_full) ∧
    (3 ≤ N → (∀ k, N ≠ 2 ^ k) → 2 ^ lowest_clear_bit (N - 1) - 1 < N - 1) ∧
    (2 ^ lowest_clear_bit (3 - 1) - 1 = 0 ∧ 2 ^ lowest_clear_bit (6 - 1) - 1 = 1) ∧
    (∀ k, 2 ^ lowest_clear_bit (2 ^ k - 1) - 1 = 2 ^ k - 1) := by
  have hM : N - 1 + 1 < UINT_MOD := by
    rw [UINT_MOD_eq]; omega
  have hmask : u_sub N 1 = N - 1 := by
    unfold u_sub UINT_MOD
    norm_num at hN
    omega
  have hinit : ck_ring_init ring0 N = ⟨0, 0, N, N - 1⟩ := by
    show (⟨0, 0, N, u_sub N 1⟩ : ck_ring) = _
    rw [hmask]
  refine ⟨⟨rfl, ?_⟩, ?_, ?_, ⟨by decide, by decide⟩, ?_⟩
  · rw [hinit]
  · rw [hinit, List.map_append, spsc_run_append]
    obtain ⟨buf1, e⟩ := fill_any_mask size N (N - 1) hM xs 0 buf0 (by omega)
    rw [e]
    simp only [Nat.zero_add, hx]
    rw [full_any_mask size N (N - 1) hM buf1 ys]
  · intro _ hnp
    have hz := (lowest_clear_bit_spec (N - 1)).2.2
    have hpos := Nat.two_pow_pos (lowest_clear_bit (N - 1))
    have := hnp (lowest_clear_bit (N - 1))
    omega
  · intro k
    rw [lowest_clear_bit_two_pow_sub_one]

/-- The fill at capacity 6: one enqueue succeeds, the next two report full. -/
theorem fill_needs_power_of_two_witness :
    (spsc_run 4 ((([fun _ => 1] : List Mem) ++ [fun _ => 2, fun _ => 3]).map SpscCall.enqueue)
        (ck_ring_init ⟨7, 7, 7, 7⟩ 6, fun _ => 0)).1 =
      ([fun _ => 1] : List Mem).map (fun x => Event.enq_ok (load x 0 4)) ++
        ([fun _ => 2, fun _ => 3] : List Mem).map (fun _ => Event.enq_full) ∧
    2 ^ lowest_clear_bit (6 - 1) - 1 < 6 - 1 :=
  ⟨(fill_needs_power_of_two 6 (by decide) (by decide) 4 ⟨7, 7, 7, 7⟩ (fun _ => 0)
      [fun _ => 1] [fun _ => 2, fun _ => 3] (by decide)).2.1,
    (fill_needs_power_of_two 6 (by decide) (by decide) 4 ⟨7, 7, 7, 7⟩ (fun _ => 0)
      [fun _ => 1] [fun _ => 2, fun _ => 3] (by decide)).2.2.1 (by decide)
      (fun k => by
        intro h
        have h2 : k < 3 := by
          by_contra hge
          have : 2 ^ 3 ≤ 2 ^ k := Nat.pow_le_pow_right (by decide) (Nat.le_of_not_lt hge)
          omega
        interval_cases k <;> omega)⟩

end CkRing

namespace MpsSas

/-! ### The LUN field -/

theorem and_255 (x : Nat) : x &&& 255 = x % 256 :=
  Nat.and_pow_two_sub_one_eq_mod x 8

theorem shr_8 (x : Nat) : x >>> 8 = x / 256 :=
  Nat.shiftRight_eq_div_pow x 8

theorem shr_16 (x : Nat) : x >>> 16 = x / 65536 :=
  Nat.shiftRight_eq_div_pow x 16

theorem lor_64 : ∀ y, y < 64 → y ||| 64 = 64 + y := by
  decide

theorem lor_64_left : ∀ y, y < 64 → 64 ||| y = 64 + y := by
  decide

/-- The eight bytes written by `mpssas_set_lun`, by range of `ccblun`. -/
theorem set_lun_bytes (lun : Nat → Nat) (ccblun : Nat) :
    lun_bytes (mpssas_set_lun lun ccblun).2 =
      if ccblun ≤ 0xff then [0, ccblun, 0, 0, 0, 0, 0, 0]
      else if ccblun ≤ 0x3fff then [0x40 ||| (ccblun >>> 8), ccblun &&& 0xff, 0, 0, 0, 0, 0, 0]
      else if ccblun ≤ 0xffffff then
        [0xd2, (ccblun >>> 16) &&& 0xff, (ccblun >>> 8) &&& 0xff, ccblun &&& 0xff, 0, 0, 0, 0]
      else [0, 0, 0, 0, 0, 0, 0, 0] := by
  unfold mpssas_set_lun
  simp only []
  split
  · rename_i h1
    simp only [lun_bytes, List.range_succ, List.range_zero, List.nil_append, List.cons_append,
      List.map_cons, List.map_nil, store]
    have : ccblun % 256 = ccblun := Nat.mod_eq_of_lt (by omega)
    simp [this]
  · split
    · rename_i h1 h2
      simp only [lun_bytes, List.range_succ, List.range_zero, List.nil_append,
        List.cons_append, List.map_cons, List.map_nil, store, scsi_ulto2b]
      have hq : ccblun / 256 < 64 := by omega
      have e1 : ((ccblun >>> 8 &&& 255) % 256 ||| 64) % 256 = 64 ||| ccblun >>> 8 := by
        rw [and_255, shr_8, Nat.mod_mod, Nat.mod_eq_of_lt (by omega : ccblun / 256 < 256),
          lor_64 _ hq, lor_64_left _ hq]
        omega
      have e2 : (ccblun &&& 255) % 256 = ccblun &&& 255 := by
        rw [and_255, Nat.mod_mod]
      simp [e1, e2]
    · split
      · rename_i h1 h2 h3
        simp only [lun_bytes, List.range_succ, List.range_zero, List.nil_append,
          List.cons_append, List.map_cons, List.map_nil, store, scsi_ulto3b]
        have e1 : ∀ x, (x &&& 255) % 256 = x &&& 255 := by
          intro x
          rw [and_255, Nat.mod_mod]
        simp [e1]
      · simp [lun_bytes, List.range_succ]

/-- C17: `mpssas_set_lun(lun, ccblun)` returns `EINVAL` exactly when `ccblun > 0xffffff` and
`0` otherwise.  The 8 bytes of the LUN field are then: for `ccblun ≤ 0xff` all zero except
`lun[1] = ccblun`; for `0x100 ≤ ccblun ≤ 0x3fff`, `lun[0] = 0x40 | (ccblun >> 8)`,
`lun[1] = ccblun & 0xff` and zeros; for `0x4000 ≤ ccblun ≤ 0xffffff`, `lun[0] = 0xd2`,
`lun[1..3]` the three bytes of `ccblun` in big-endian order (most significant first, together
the low 24 bits of `ccblun`) and zeros; on the `EINVAL` path eight zeros.  The memory after
the field is not written. -/
theorem set_lun_spec (lun : Nat → Nat) (ccblun : Nat) :
    ((mpssas_set_lun lun ccblun).1 = EINVAL ↔ 0xffffff < ccblun) ∧
    ((mpssas_set_lun lun ccblun).1 = 0 ↔ ccblun ≤ 0xffffff) ∧
    lun_bytes (mpssas_set_lun lun ccblun).2 =
      (if ccblun ≤ 0xff then [0, ccblun, 0, 0, 0, 0, 0, 0]
      else if ccblun ≤ 0x3fff then [0x40 ||| (ccblun >>> 8), ccblun &&& 0xff, 0, 0, 0, 0, 0, 0]
      else if ccblun ≤ 0xffffff then
        [0xd2, (ccblun >>> 16) &&& 0xff, (ccblun >>> 8) &&& 0xff, ccblun &&& 0xff, 0, 0, 0, 0]
      else [0, 0, 0, 0, 0, 0, 0, 0]) ∧
    ((ccblun >>> 16) &&& 0xff) * 65536 + ((ccblun >>> 8) &&& 0xff) * 256 +
      (ccblun &&& 0xff) = ccblun % 0x1000000 ∧
    ∀ a, 8 ≤ a → (mpssas_set_lun lun ccblun).2 a = lun a := by
  refine ⟨?_, ?_, set_lun_bytes lun ccblun, ?_, ?_⟩
  · unfold mpssas_set_lun EINVAL
    simp only []
    split
    · simp; omega
    · split
      · simp; omega
      · split
        · simp; omega
        · simp; omega
  · unfold mpssas_set_lun EINVAL
    simp only []
    split
    · simp; omega
    · split
      · simp; omega
      · split
        · simp; omega
        · simp; omega
  · rw [and_255, and_255, and_255, shr_8, shr_16]
    omega
  · intro a ha
    unfold mpssas_set_lun
    simp only []
    have h1 : ¬ a < 8 := by omega
    have h2 : a ≠ 0 := by omega
    have h3 : a ≠ 1 := by omega
    have h4 : a ≠ 2 := by omega
    have h5 : a ≠ 3 := by omega
    split
    · simp [store, h1, h3]
    · split
      · simp [store, scsi_ulto2b, h1, h2, h3]
      · split
        · simp [store, scsi_ulto3b, h1, h2, h3, h4, h5]
        · simp [h1]

/-- Reading the LUN number back from the encoded field. -/
theorem decode_set_lun (lun : Nat → Nat) (a : Nat) (ha : a ≤ 0xffffff) :
    decode_lun (lun_bytes (mpssas_set_lun lun a).2) = a := by
  rw [set_lun_bytes]
  unfold decode_lun
  by_cases h1 : a ≤ 0xff
  · rw [if_pos h1]
    simp
  · rw [if_neg h1]
    by_cases h2 : a ≤ 0x3fff
    · rw [if_pos h2]
      have hq : a / 256 < 64 := by omega
      have e1 : 0x40 ||| (a >>> 8) = 64 + a / 256 := by
        rw [shr_8]
        exact lor_64_left _ hq
      simp only [List.getD_cons_zero, List.getD_cons_succ, e1]
      rw [and_255, if_neg (by omega), if_neg (by omega)]
      omega
    · rw [if_neg h2, if_pos ha]
      simp only [List.getD_cons_zero, List.getD_cons_succ]
      rw [and_255, and_255, and_255, shr_8, shr_16]
      simp
      omega

/-- C18: the LUN encoding is injective on its accepted domain.  For `a ≠ b`, both at most
`0xffffff`, the 8-byte fields written by `mpssas_set_lun` differ, whatever the fields held
before; the first byte tells the addressing method (`0x00` for `ccblun ≤ 0xff`, `0x41..0x7f`
for `0x100 ≤ ccblun ≤ 0x3fff`, `0xd2` above), and `decode_lun` reads the number back. -/
theorem set_lun_injective (lunA lunB : Nat → Nat) (a b : Nat) (ha : a ≤ 0xffffff)
    (hb : b ≤ 0xffffff) (hne : a ≠ b) :
    lun_bytes (mpssas_set_lun lunA a).2 ≠ lun_bytes (mpssas_set_lun lunB b).2 ∧
    decode_lun (lun_bytes (mpssas_set_lun lunA a).2) = a ∧
    (a ≤ 0xff → (mpssas_set_lun lunA a).2 0 = 0) ∧
    (0x100 ≤ a → a ≤ 0x3fff →
      0x41 ≤ (mpssas_set_lun lunA a).2 0 ∧ (mpssas_set_lun lunA a).2 0 ≤ 0x7f) ∧
    (0x4000 ≤ a → (mpssas_set_lun lunA a).2 0 = 0xd2) := by
  have hbyte0 : (mpssas_set_lun lunA a).2 0 = (lun_bytes (mpssas_set_lun lunA a).2).getD 0 0 := by
    simp [lun_bytes, List.range_succ]
  refine ⟨?_, decode_set_lun lunA a ha, ?_, ?_, ?_⟩
  · intro h
    have h1 := decode_set_lun lunA a ha
    have h2 := decode_set_lun lunB b hb
    rw [h, h2] at h1
    exact hne h1.symm
  · intro h1
    rw [hbyte0, set_lun_bytes, if_pos h1]
    rfl
  · intro h1 h2
    rw [hbyte0, set_lun_bytes, if_neg (by omega), if_pos h2]
    have hq : a / 256 < 64 := by omega
    have e1 : 0x40 ||| (a >>> 8) = 64 + a / 256 := by
      rw [shr_8]
      exact lor_64_left _ hq
    simp only [List.getD_cons_zero, e1]
    omega
  · intro h1
    rw [hbyte0, set_lun_bytes, if_neg (by omega), if_neg (by omega), if_pos ha]
    rfl

/-- Two LUN numbers with the same low byte, one peripheral and one flat, get different
fields. -/
theorem set_lun_injective_witness :
    lun_bytes (mpssas_set_lun (fun _ => 9) 0x34).2 ≠
      lun_bytes (mpssas_set_lun (fun _ => 0) 0x1234).2 ∧
    decode_lun (lun_bytes (mpssas_set_lun (fun _ => 9) 0x34).2) = 0x34 :=
  ⟨(set_lun_injective (fun _ => 9) (fun _ => 0) 0x34 0x1234 (by decide) (by decide)
      (by decide)).1,
    (set_lun_injective (fun _ => 9) (fun _ => 0) 0x34 0x1234 (by decide) (by decide)
      (by decide)).2.1⟩

end MpsSas
